import Mathlib

/-!
Mandelbrot renderer (`mandelbrot/main.go`): embedding and verified properties.

The Go program works on `float64` / `complex128`.  It is embedded twice.

* The exact embedding idealises `float64` as a linearly ordered field `K`
  (exact arithmetic, no rounding, no NaN or infinities); its definitions are
  generic in `K`, run on `ℚ` and are reasoned about on `ℝ`.  It carries the
  properties of the control flow (loop counters, sentinel, wrap of the
  counter, the shape of the raster) and of the real-valued formulas.
* The float64 embedding (`F64`, `FloatOps`, namespace `Fl`) keeps the rounding:
  `F64` is IEEE 754 binary64 with round to nearest, ties to even, every
  operation rounded on its own, and the functions of the program are written
  over a record of arithmetic operations, instantiated by `ieee`.  It carries
  the properties that depend on the arithmetic (the escape test, the pixel
  mapping, the intensity byte) and the package-level state (`Globals`).

The functions of Go's `math` / `math/cmplx` packages used by the program
(`math.Log`, `cmplx.Abs`, `math.Ln2`) are not part of the repository and are
passed in as a `MathFns` record; theorems about the real-valued behaviour
instantiate it with `Real.log`, the Euclidean modulus and `Real.log 2`.

Machine integers: `uint` is a 64-bit word, the loop counter `i++` wraps modulo
`2^64`.  Loops that may run forever are given a fuel argument counting
evaluations of the loop condition; `none` means that the fuel ran out.
-/

namespace Mandelbrot

/-! ## Data model -/

/-- Go's `complex128`, over the idealised scalar type `K`. -/
structure Cx (K : Type) where
  re : K
  im : K

/-- Go's `type Pixel struct { x, y int; col byte }`. -/
structure Pixel where
  x : Int
  y : Int
  col : Nat
deriving DecidableEq, Repr

/-- Go's `type ZoomPoint struct { cx, cy, r float64; depth uint }`. -/
structure ZoomPoint (K : Type) where
  cx : K
  cy : K
  r : K
  depth : Nat

/-- The library functions of `math` and `math/cmplx` the program calls. -/
structure MathFns (K : Type) where
  /-- Stands for `math.Log`. -/
  log : K → K
  /-- Stands for `cmplx.Abs`. -/
  cabs : Cx K → K
  /-- Stands for the constant `math.Ln2`. -/
  ln2 : K

/-- Go's `color.RGBA`. -/
structure RGBA where
  r : Nat
  g : Nat
  b : Nat
  a : Nat
deriving DecidableEq, Repr

/-- Go's `image.RGBA` restricted to what the program uses: a rectangle
`[0,w) × [0,h)` and the colour stored at each point. -/
structure Image where
  w : Int
  h : Int
  pix : Int → Int → RGBA

section Defs

variable {K : Type} [LinearOrderedField K]

instance : Add (Cx K) := ⟨fun a b => ⟨a.re + b.re, a.im + b.im⟩⟩

instance : Mul (Cx K) :=
  ⟨fun a b => ⟨a.re * b.re - a.im * b.im, a.re * b.im + a.im * b.re⟩⟩

/-- The number of values of Go's `uint` on the 64-bit targets. -/
def uintSize : Nat := 2 ^ 64

/-- An integer brought into the range of Go's 64-bit `int` (two's complement
wrap-around). -/
def wrapInt (n : Int) : Int := (n + 2 ^ 63) % 2 ^ 64 - 2 ^ 63

/-- Source: `func sqabs(c complex128) float64`. -/
def sqabs (c : Cx K) : K :=
  c.re * c.re + c.im * c.im

/-- Source: `func absgt(c complex128, x float64) bool`. -/
def absgt (c : Cx K) (x : K) : Bool :=
  decide (sqabs c > x * x)

/-- Source: `func fc(z, c complex128) complex128`. -/
def fc (z c : Cx K) : Cx K :=
  z * z + c

/-- The loop of `diverges`, entered with counter `i` and value `z`:
`for ; i <= iters; i++ { if absgt(z, 2) { return i }; z = f(z, c) }; return 0`. -/
def divergesLoop (f : Cx K → Cx K → Cx K) (c : Cx K) (iters : Nat) :
    Nat → Nat → Cx K → Option Nat
  | 0, _, _ => none
  | fuel + 1, i, z =>
    if i ≤ iters then
      if absgt z 2 then some i
      else divergesLoop f c iters fuel ((i + 1) % uintSize) (f z c)
    else some 0

/-- Source: `func diverges(f Funge, c complex128, iters uint) uint`. -/
def diverges (fuel : Nat) (f : Cx K → Cx K → Cx K) (c : Cx K) (iters : Nat) :
    Option Nat :=
  divergesLoop f c iters fuel 1 ⟨0, 0⟩

/-- The loop of `divergez`, entered with counter `i` and value `z`. -/
def divergezLoop (M : MathFns K) (f : Cx K → Cx K → Cx K) (c : Cx K) (iters : Nat) :
    Nat → Nat → Cx K → Option K
  | 0, _, _ => none
  | fuel + 1, i, z =>
    if i ≤ iters then
      if absgt z 2 then
        some ((i : K) - M.log (M.log (M.cabs (f z c))) / M.ln2)
      else divergezLoop M f c iters fuel ((i + 1) % uintSize) (f z c)
    else some 0

/-- Source: `func divergez(f Funge, c complex128, iters uint) float64`. -/
def divergez (M : MathFns K) (fuel : Nat) (f : Cx K → Cx K → Cx K) (c : Cx K)
    (iters : Nat) : Option K :=
  divergezLoop M f c iters fuel 1 ⟨0, 0⟩

/-- Source: `win_w = 1024`. -/
def win_w : Nat := 1024

/-- Source: `win_h = 768`. -/
def win_h : Nat := 768

/-- Source: `ratio = float64(win_w) / float64(win_h)`. -/
def ratio : K := (win_w : K) / (win_h : K)

/-- Source: `iratio = float64(win_h) / float64(win_w)`. -/
def iratio : K := (win_h : K) / (win_w : K)

/-- Source: `func normalize(min, v, max int) float64`; the difference
`max - min` of two `int` wraps. -/
def normalize (min v max : Int) : K :=
  ((v : Int) : K) / ((wrapInt (max - min) : Int) : K)

/-- Source: `var interestingPoints = []ZoomPoint{...}`. -/
def interestingPoints : List (ZoomPoint K) :=
  [ ⟨0, 0, 2, 50⟩,
    -- Seahorse valley
    ⟨-747 / 1000, 1 / 10, 1 / 1000, 800⟩,
    ⟨-747 / 1000, 1 / 10, 1 / 10000, 1000⟩,
    -- Triple spiral
    ⟨-88 / 1000, 654 / 1000, 5 / 1000, 500⟩,
    ⟨-88 / 1000, 656 / 1000, 1 / 1000, 800⟩,
    ⟨-88 / 1000, 656 / 1000, 1 / 10000, 1000⟩,
    -- Quad spiral
    ⟨274 / 1000, 482 / 1000, 5 / 1000, 500⟩,
    -- Double scepter
    ⟨-1002 / 10000, 836 / 1000, 1 / 10000, 1000⟩,
    ⟨-100 / 1000, 836 / 1000, 1 / 1000, 750⟩,
    ⟨-1002 / 10000, 8383 / 10000, 1 / 10, 500⟩,
    -- Scepter valley
    ⟨-136 / 100, 5 / 1000, 1 / 10, 500⟩,
    ⟨-13683 / 10000, 5 / 1000, 1 / 10000, 2000⟩,
    ⟨-13685 / 10000, 5 / 1000, 5 / 10000, 2000⟩ ]

/-- The first half of `orbitColor`: the point of the plane that the pixel of
row `i`, column `j` stands for (the values `x`, `y` passed to `complex(x, y)`). -/
def pixelCoord (i j : Int) (min_x min_y max_x max_y : K) : Cx K :=
  let nx : K := (j : K) / (win_w : K)
  let ny : K := (i : K) / (win_h : K)
  let ny1 : K := if (ratio : K) < 1 then ny * iratio - (iratio - 1) * (1 / 2) else ny
  let nx1 : K :=
    if (ratio : K) < 1 then nx
    else if (ratio : K) > 1 then nx * ratio - (ratio - 1) * (1 / 2) else nx
  ⟨min_x + nx1 * (max_x - min_x), min_y + ny1 * (max_y - min_y)⟩

end Defs

section FloorDefs

variable {K : Type} [LinearOrderedField K] [FloorRing K]

/-- Go's conversion `int(x)` of a `float64`: the fraction is discarded
(rounding toward zero).  The values the program converts lie far inside the
range of `int`. -/
def truncToInt (x : K) : Int :=
  if 0 ≤ x then ⌊x⌋ else ⌈x⌉

/-- The escape branch of `orbitColor`:
`k := 1.0 - c/float64(zp.depth); b := uint8(int(k*255.0) & 0xff)`.
On a two's complement `int` the mask `& 0xff` is the residue modulo 256. -/
def intensity (v : K) (depth : Nat) : Nat :=
  let k : K := 1 - v / (depth : K)
  (truncToInt (k * 255) % 256).toNat

/-- Source: `func orbitColor(i, j int, min_x, min_y, max_x, max_y float64) *Pixel`.
The global `zp` it reads is the argument `zp`. -/
def orbitColor (M : MathFns K) (fuel : Nat) (zp : ZoomPoint K) (i j : Int)
    (min_x min_y max_x max_y : K) : Option Pixel :=
  match divergez M fuel fc (pixelCoord i j min_x min_y max_x max_y) zp.depth with
  | none => none
  | some c =>
    if c > 0 then some ⟨j, i, intensity c zp.depth⟩
    else some ⟨j, i, 0⟩

/-- Go's `image.NewRGBA(image.Rect(0, 0, w, h))`: every sample is zero. -/
def newRGBA (w h : Int) : Image :=
  ⟨w, h, fun _ _ => ⟨0, 0, 0, 0⟩⟩

/-- Go's `(*image.RGBA).Set`: a point outside the rectangle is ignored. -/
def Image.set (img : Image) (x y : Int) (col : RGBA) : Image :=
  if 0 ≤ x ∧ x < img.w ∧ 0 ≤ y ∧ y < img.h then
    ⟨img.w, img.h, fun x1 y1 => if x1 = x ∧ y1 = y then col else img.pix x1 y1⟩
  else img

/-- Go's `(*image.RGBA).RGBAAt`: zero outside the rectangle. -/
def Image.colorAt (img : Image) (x y : Int) : RGBA :=
  if 0 ≤ x ∧ x < img.w ∧ 0 ≤ y ∧ y < img.h then img.pix x y else ⟨0, 0, 0, 0⟩

/-- Source: `func setPixel(x, y int, img image.Image, col color.Color)`. -/
def setPixel (x y : Int) (img : Image) (col : RGBA) : Image :=
  img.set x y col

/-- The body of the inner loop of `renderMandelbrot` for row `i`, column `j`. -/
def renderStep (M : MathFns K) (fuel : Nat) (zp : ZoomPoint K) (i : Nat)
    (img : Image) (j : Nat) : Option Image :=
  match orbitColor M fuel zp (i : Int) (j : Int)
      (zp.cx - zp.r) (zp.cy - zp.r) (zp.cx + zp.r) (zp.cy + zp.r) with
  | none => none
  | some p => some (setPixel p.x p.y img ⟨p.col, p.col, p.col, 255⟩)

/-- The inner loop of `renderMandelbrot`: `for j := 0; j < win_w; j++`. -/
def renderRow (M : MathFns K) (fuel : Nat) (zp : ZoomPoint K) (img : Image)
    (i : Nat) : Option Image :=
  (List.range win_w).foldlM (renderStep M fuel zp i) img

/-- Source: `func renderMandelbrot() image.Image`, for the zoom point `zp`. -/
def renderMandelbrot (M : MathFns K) (fuel : Nat) (zp : ZoomPoint K) : Option Image :=
  (List.range win_h).foldlM (renderRow M fuel zp) (newRGBA (win_w : Int) (win_h : Int))

end FloorDefs

/-! ## Specification vocabulary -/

section SpecDefs

variable {K : Type} [LinearOrderedField K]

/-- The orbit `z_0 = 0`, `z_{n+1} = f(z_n, c)`. -/
def orbit (f : Cx K → Cx K → Cx K) (c : Cx K) : Nat → Cx K
  | 0 => ⟨0, 0⟩
  | n + 1 => f (orbit f c n) c

/-- The value `z` lies outside the bound radius: `|z| > 2`, tested on squares
as the program does. -/
def Escaped (z : Cx K) : Prop := sqabs z > 2 * 2

instance (z : Cx K) : Decidable (Escaped z) := by
  unfold Escaped; infer_instance

/-- Index `k` is the first one whose orbit value lies outside the radius. -/
def FirstEscape (f : Cx K → Cx K → Cx K) (c : Cx K) (k : Nat) : Prop :=
  Escaped (orbit f c k) ∧ ∀ m, m < k → ¬ Escaped (orbit f c m)

/-- Not a function of the program: the control flow that `diverges` and
`divergez` share, returning the counter and the value at the moment the escape
test succeeds, `some none` when the loop runs to its end, `none` when the fuel
runs out.  Both loops are shown to be images of this one. -/
def escapeLoop (f : Cx K → Cx K → Cx K) (c : Cx K) (iters : Nat) :
    Nat → Nat → Cx K → Option (Option (Nat × Cx K))
  | 0, _, _ => none
  | fuel + 1, i, z =>
    if i ≤ iters then
      if absgt z 2 then some (some (i, z))
      else escapeLoop f c iters fuel ((i + 1) % uintSize) (f z c)
    else some none

end SpecDefs

/-! ## The float64 arithmetic of the Go runtime

The second embedding keeps the rounding of `float64`.  `F64` is IEEE 754
binary64 with round to nearest, ties to even, every operation rounded on its
own (as the Go compiler does on amd64); the finite value `fin m e` is
`m * 2^e`.  The sign of zero is not kept: the divisors of the program are the
constants `float64(win_w)`, `float64(win_h)`, `math.Ln2` and the value
`float64(zp.depth)`, none of which is `-0`, and no other result depends on the
sign of a zero.  The program itself is written once over a
record `FloatOps` of arithmetic operations, so that what is proved for every
such record holds for whatever rounding the platform applies. -/

/-- A `float64` value: the finite number `m * 2^e`, an infinity, or NaN. -/
inductive F64 where
  | fin (m : Int) (e : Int)
  | inf (neg : Bool)
  | nan
deriving DecidableEq, Repr

namespace F64

/-- The number of binary digits of `n` minus one (`fuel` bounds the search). -/
def log2f : Nat → Nat → Nat
  | 0, _ => 0
  | fuel + 1, n => if n < 2 then 0 else log2f fuel (n / 2) + 1

/-- The integer `L` with `2^L ≤ a / d < 2^(L+1)`, for `a, d > 0`. -/
def floorLog2 (a d : Nat) : Int :=
  let l0 : Int := (log2f a a : Int) - (log2f d d : Int)
  if 0 ≤ l0 then
    if d * 2 ^ l0.toNat ≤ a then l0 else l0 - 1
  else
    if d ≤ a * 2 ^ (-l0).toNat then l0 else l0 - 1

/-- The integer nearest to `num / den`, ties to the even one. -/
def rne (num den : Nat) : Nat :=
  let q := num / den
  let r := num % den
  if den < 2 * r then q + 1 else if 2 * r < den then q else q + q % 2

/-- The exponent of the last binary digit kept when `a * 2^s / d` is rounded
to 53 digits; `-1074` at least (the subnormal range). -/
def expo (a d : Nat) (s : Int) : Int :=
  max (floorLog2 a d + s - 52) (-1074)

/-- The integer nearest to `a * 2^t / d`, ties to the even one. -/
def mant (a d : Nat) (t : Int) : Nat :=
  if 0 ≤ t then rne (a * 2 ^ t.toNat) d else rne a (d * 2 ^ (-t).toNat)

/-- The `float64` nearest to the positive number `a * 2^s / d` (ties to even):
53 digits, least exponent `-1074`, overflow to `+Inf`. -/
def roundPos (a d : Nat) (s : Int) : F64 :=
  let e : Int := expo a d s
  let m : Nat := mant a d (s - e)
  if m = 0 then fin 0 0
  else if m = 2 ^ 53 then (if 971 < e + 1 then inf false else fin (2 ^ 52) (e + 1))
  else if 971 < e then inf false
  else fin (m : Int) e

/-- Sign change. -/
def neg : F64 → F64
  | fin m e => fin (-m) e
  | inf b => inf (!b)
  | nan => nan

/-- The `float64` nearest to the rational `n * 2^s / d`. -/
def round (n : Int) (d : Nat) (s : Int) : F64 :=
  if d = 0 then nan
  else if n = 0 then fin 0 0
  else if n < 0 then neg (roundPos n.natAbs d s)
  else roundPos n.natAbs d s

/-- Go's `x + y` on `float64`. -/
def add : F64 → F64 → F64
  | fin m1 e1, fin m2 e2 =>
    if m1 = 0 then fin m2 e2
    else if m2 = 0 then fin m1 e1
    else round (m1 * 2 ^ (e1 - min e1 e2).toNat + m2 * 2 ^ (e2 - min e1 e2).toNat) 1 (min e1 e2)
  | nan, _ => nan
  | _, nan => nan
  | inf a, inf b => if a = b then inf a else nan
  | inf a, fin _ _ => inf a
  | fin _ _, inf b => inf b

/-- Go's `x - y` on `float64`. -/
def sub (x y : F64) : F64 := add x (neg y)

/-- Go's `x * y` on `float64`. -/
def mul : F64 → F64 → F64
  | fin m1 e1, fin m2 e2 => round (m1 * m2) 1 (e1 + e2)
  | nan, _ => nan
  | _, nan => nan
  | inf a, inf b => inf (a != b)
  | inf a, fin m _ => if m = 0 then nan else inf (a != decide (m < 0))
  | fin m _, inf b => if m = 0 then nan else inf (b != decide (m < 0))

/-- Go's `x / y` on `float64` (a zero divisor counts as `+0`). -/
def div : F64 → F64 → F64
  | fin m1 e1, fin m2 e2 =>
    if m2 = 0 then (if m1 = 0 then nan else inf (decide (m1 < 0)))
    else round (if m2 < 0 then -m1 else m1) m2.natAbs (e1 - e2)
  | nan, _ => nan
  | _, nan => nan
  | inf _, inf _ => nan
  | inf a, fin m _ => inf (a != decide (m < 0))
  | fin _ _, inf _ => fin 0 0

/-- Go's `x > y` on `float64`: false when an operand is NaN. -/
def gt : F64 → F64 → Bool
  | fin m1 e1, fin m2 e2 =>
    decide (m2 * 2 ^ (e2 - min e1 e2).toNat < m1 * 2 ^ (e1 - min e1 e2).toNat)
  | nan, _ => false
  | _, nan => false
  | inf a, inf b => !a && b
  | inf a, fin _ _ => !a
  | fin _ _, inf b => b

/-- Go's conversion `float64(n)` of an integer. -/
def ofInt (n : Int) : F64 := round n 1 0

/-- The `float64` value of a decimal constant `n / d` of the source. -/
def lit (n : Int) (d : Nat) : F64 := round n d 0

/-- Go's conversion `int(x)` of a `float64` on amd64: the fraction is
discarded; a value outside the range of `int`, an infinity or NaN gives
`-2^63`. -/
def toInt : F64 → Int
  | fin m e =>
    let t : Int := if 0 ≤ e then m * 2 ^ e.toNat else Int.tdiv m (2 ^ (-e).toNat)
    if -(2 ^ 63) ≤ t ∧ t < 2 ^ 63 then t else -(2 ^ 63)
  | inf _ => -(2 ^ 63)
  | nan => -(2 ^ 63)

/-- The rational value of a finite `float64`; 0 for an infinity or NaN. -/
def val : F64 → ℚ
  | fin m e => (m : ℚ) * (2 : ℚ) ^ e
  | inf _ => 0
  | nan => 0

/-- Whether the `float64` is a finite number. -/
def isFin : F64 → Bool
  | fin _ _ => true
  | inf _ => false
  | nan => false

/-- The `float64` `x` is finite and within `ε` of the rational `q`. -/
def Near (x : F64) (q ε : ℚ) : Prop :=
  x.isFin = true ∧ |x.val - q| ≤ ε

end F64

deriving instance DecidableEq for Cx

/-- The `float64` operations the program uses. -/
structure FloatOps (F : Type) where
  /-- Stands for `x + y`. -/
  add : F → F → F
  /-- Stands for `x - y`. -/
  sub : F → F → F
  /-- Stands for `x * y`. -/
  mul : F → F → F
  /-- Stands for `x / y`. -/
  div : F → F → F
  /-- Stands for `x > y`. -/
  gt : F → F → Bool
  /-- Stands for `float64(n)` of an `int` and for integer constants. -/
  ofInt : Int → F
  /-- Stands for `float64(n)` of a `uint`. -/
  ofUint : Nat → F
  /-- Stands for the `float64` value of the decimal constant `n / d`. -/
  lit : Int → Nat → F
  /-- Stands for `int(x)`. -/
  toInt : F → Int

/-- IEEE 754 binary64 as computed on amd64. -/
def ieee : FloatOps F64 :=
  ⟨F64.add, F64.sub, F64.mul, F64.div, F64.gt, F64.ofInt, fun n => F64.ofInt (n : Int),
    F64.lit, F64.toInt⟩

/-- The package-level variables of the program: `var zp ZoomPoint` and
`var interestingPoints []ZoomPoint`. -/
structure Globals (F : Type) where
  zp : ZoomPoint F
  interestingPoints : List (ZoomPoint F)

namespace Fl

variable {F : Type}

/-- Source: `func sqabs(c complex128) float64`. -/
def sqabs (A : FloatOps F) (c : Cx F) : F :=
  A.add (A.mul c.re c.re) (A.mul c.im c.im)

/-- Source: `func absgt(c complex128, x float64) bool`. -/
def absgt (A : FloatOps F) (c : Cx F) (x : F) : Bool :=
  A.gt (sqabs A c) (A.mul x x)

/-- Go's `a * b` on `complex128`. -/
def cmul (A : FloatOps F) (a b : Cx F) : Cx F :=
  ⟨A.sub (A.mul a.re b.re) (A.mul a.im b.im), A.add (A.mul a.re b.im) (A.mul a.im b.re)⟩

/-- Go's `a + b` on `complex128`. -/
def cadd (A : FloatOps F) (a b : Cx F) : Cx F :=
  ⟨A.add a.re b.re, A.add a.im b.im⟩

/-- Source: `func fc(z, c complex128) complex128`. -/
def fc (A : FloatOps F) (z c : Cx F) : Cx F :=
  cadd A (cmul A z z) c

/-- The loop of `diverges`, entered with counter `i` and value `z`. -/
def divergesLoop (A : FloatOps F) (f : Cx F → Cx F → Cx F) (c : Cx F) (iters : Nat) :
    Nat → Nat → Cx F → Option Nat
  | 0, _, _ => none
  | fuel + 1, i, z =>
    if i ≤ iters then
      if absgt A z (A.ofInt 2) then some i
      else divergesLoop A f c iters fuel ((i + 1) % uintSize) (f z c)
    else some 0

/-- Source: `func diverges(f Funge, c complex128, iters uint) uint`. -/
def diverges (A : FloatOps F) (fuel : Nat) (f : Cx F → Cx F → Cx F) (c : Cx F)
    (iters : Nat) : Option Nat :=
  divergesLoop A f c iters fuel 1 ⟨A.ofInt 0, A.ofInt 0⟩

/-- The loop of `divergez`, entered with counter `i` and value `z`. -/
def divergezLoop (A : FloatOps F) (M : MathFns F) (f : Cx F → Cx F → Cx F) (c : Cx F)
    (iters : Nat) : Nat → Nat → Cx F → Option F
  | 0, _, _ => none
  | fuel + 1, i, z =>
    if i ≤ iters then
      if absgt A z (A.ofInt 2) then
        some (A.sub (A.ofUint i) (A.div (M.log (M.log (M.cabs (f z c)))) M.ln2))
      else divergezLoop A M f c iters fuel ((i + 1) % uintSize) (f z c)
    else some (A.ofInt 0)

/-- Source: `func divergez(f Funge, c complex128, iters uint) float64`. -/
def divergez (A : FloatOps F) (M : MathFns F) (fuel : Nat) (f : Cx F → Cx F → Cx F)
    (c : Cx F) (iters : Nat) : Option F :=
  divergezLoop A M f c iters fuel 1 ⟨A.ofInt 0, A.ofInt 0⟩

/-- Source: `ratio = float64(win_w) / float64(win_h)`. -/
def ratio (A : FloatOps F) : F := A.div (A.ofInt win_w) (A.ofInt win_h)

/-- Source: `func normalize(min, v, max int) float64`; the difference
`max - min` of two `int` wraps. -/
def normalize (A : FloatOps F) (min v max : Int) : F :=
  A.div (A.ofInt v) (A.ofInt (wrapInt (max - min)))

/-- Source: `iratio = float64(win_h) / float64(win_w)`. -/
def iratio (A : FloatOps F) : F := A.div (A.ofInt win_h) (A.ofInt win_w)

/-- The first half of `orbitColor`: the values `x`, `y` passed to
`complex(x, y)` for the pixel of row `i`, column `j`. -/
def pixelCoord (A : FloatOps F) (i j : Int) (min_x min_y max_x max_y : F) : Cx F :=
  let nx : F := A.div (A.ofInt j) (A.ofInt win_w)
  let ny : F := A.div (A.ofInt i) (A.ofInt win_h)
  let ny1 : F :=
    if A.gt (A.ofInt 1) (ratio A) then
      A.sub (A.mul ny (iratio A)) (A.mul (A.sub (iratio A) (A.ofInt 1)) (A.lit 1 2))
    else ny
  let nx1 : F :=
    if A.gt (A.ofInt 1) (ratio A) then nx
    else if A.gt (ratio A) (A.ofInt 1) then
      A.sub (A.mul nx (ratio A)) (A.mul (A.sub (ratio A) (A.ofInt 1)) (A.lit 1 2))
    else nx
  ⟨A.add min_x (A.mul nx1 (A.sub max_x min_x)), A.add min_y (A.mul ny1 (A.sub max_y min_y))⟩

/-- The escape branch of `orbitColor`: `k := 1.0 - c/float64(zp.depth)`. -/
def factor (A : FloatOps F) (v : F) (depth : Nat) : F :=
  A.sub (A.ofInt 1) (A.div v (A.ofUint depth))

/-- The escape branch of `orbitColor`: the product `k*255.0`. -/
def scaled (A : FloatOps F) (v : F) (depth : Nat) : F :=
  A.mul (factor A v depth) (A.ofInt 255)

/-- The escape branch of `orbitColor`:
`k := 1.0 - c/float64(zp.depth); b := uint8(int(k*255.0) & 0xff)`. -/
def intensity (A : FloatOps F) (v : F) (depth : Nat) : Nat :=
  (A.toInt (scaled A v depth) % 256).toNat

/-- Source: `func orbitColor(i, j int, min_x, min_y, max_x, max_y float64) *Pixel`,
with the package-level variables passed in and handed back. -/
def orbitColor (A : FloatOps F) (M : MathFns F) (fuel : Nat) (g : Globals F) (i j : Int)
    (min_x min_y max_x max_y : F) : Option (Pixel × Globals F) :=
  match divergez A M fuel (fc A) (pixelCoord A i j min_x min_y max_x max_y) g.zp.depth with
  | none => none
  | some c =>
    if A.gt c (A.ofInt 0) then some (⟨j, i, intensity A c g.zp.depth⟩, g)
    else some (⟨j, i, 0⟩, g)

/-- The body of the inner loop of `renderMandelbrot` for row `i`, column `j`. -/
def renderStep (A : FloatOps F) (M : MathFns F) (fuel : Nat) (min_x min_y max_x max_y : F)
    (i : Nat) (s : Image × Globals F) (j : Nat) : Option (Image × Globals F) :=
  match orbitColor A M fuel s.2 (i : Int) (j : Int) min_x min_y max_x max_y with
  | none => none
  | some (p, g) => some (setPixel p.x p.y s.1 ⟨p.col, p.col, p.col, 255⟩, g)

/-- The inner loop of `renderMandelbrot`: `for j := 0; j < win_w; j++`. -/
def renderRow (A : FloatOps F) (M : MathFns F) (fuel : Nat) (min_x min_y max_x max_y : F)
    (s : Image × Globals F) (i : Nat) : Option (Image × Globals F) :=
  (List.range win_w).foldlM (renderStep A M fuel min_x min_y max_x max_y i) s

/-- Source: `func renderMandelbrot() image.Image`, with the package-level
variables passed in and handed back. -/
def renderMandelbrot (A : FloatOps F) (M : MathFns F) (fuel : Nat) (g : Globals F) :
    Option (Image × Globals F) :=
  (List.range win_h).foldlM
    (renderRow A M fuel (A.sub g.zp.cx g.zp.r) (A.sub g.zp.cy g.zp.r)
      (A.add g.zp.cx g.zp.r) (A.add g.zp.cy g.zp.r))
    (newRGBA (win_w : Int) (win_h : Int), g)

/-- Source: `var interestingPoints = []ZoomPoint{...}`. -/
def interestingPoints (A : FloatOps F) : List (ZoomPoint F) :=
  [ ⟨A.ofInt 0, A.ofInt 0, A.ofInt 2, 50⟩,
    ⟨A.lit (-747) 1000, A.lit 1 10, A.lit 1 1000, 800⟩,
    ⟨A.lit (-747) 1000, A.lit 1 10, A.lit 1 10000, 1000⟩,
    ⟨A.lit (-88) 1000, A.lit 654 1000, A.lit 5 1000, 500⟩,
    ⟨A.lit (-88) 1000, A.lit 656 1000, A.lit 1 1000, 800⟩,
    ⟨A.lit (-88) 1000, A.lit 656 1000, A.lit 1 10000, 1000⟩,
    ⟨A.lit 274 1000, A.lit 482 1000, A.lit 5 1000, 500⟩,
    ⟨A.lit (-1002) 10000, A.lit 836 1000, A.lit 1 10000, 1000⟩,
    ⟨A.lit (-100) 1000, A.lit 836 1000, A.lit 1 1000, 750⟩,
    ⟨A.lit (-1002) 10000, A.lit 8383 10000, A.lit 1 10, 500⟩,
    ⟨A.lit (-136) 100, A.lit 5 1000, A.lit 1 10, 500⟩,
    ⟨A.lit (-13683) 10000, A.lit 5 1000, A.lit 1 10000, 2000⟩,
    ⟨A.lit (-13685) 10000, A.lit 5 1000, A.lit 5 10000, 2000⟩ ]

/-- The package-level variables when `main` starts. -/
def initialGlobals (A : FloatOps F) : Globals F :=
  ⟨⟨A.ofInt 0, A.ofInt 0, A.ofInt 0, 0⟩, interestingPoints A⟩

/-- The part of `main` that renders: `zp = interestingPoints[k]` for the index
`k` drawn by `rand.Intn`, then `renderMandelbrot()`; an index out of range
panics (`none`). -/
def selectAndRender (A : FloatOps F) (M : MathFns F) (fuel : Nat) (g : Globals F) (k : Nat) :
    Option (Image × Globals F) :=
  match g.interestingPoints[k]? with
  | none => none
  | some z => renderMandelbrot A M fuel { g with zp := z }

/-! ### Specification vocabulary for the float64 embedding -/

/-- The values the loop computes: `z_0 = 0`, `z_{n+1} = f(z_n, c)`. -/
def orbit (A : FloatOps F) (f : Cx F → Cx F → Cx F) (c : Cx F) : Nat → Cx F
  | 0 => ⟨A.ofInt 0, A.ofInt 0⟩
  | n + 1 => f (orbit A f c n) c

/-- Index `k` is the first one at which the program's own test
`absgt(z_k, 2)` succeeds on the computed value. -/
def FirstEscape (A : FloatOps F) (f : Cx F → Cx F → Cx F) (c : Cx F) (k : Nat) : Prop :=
  absgt A (orbit A f c k) (A.ofInt 2) = true ∧
    ∀ m, m < k → absgt A (orbit A f c m) (A.ofInt 2) = false

/-- Not a function of the program: the control flow that `diverges` and
`divergez` share (counter and value at the moment the test succeeds,
`some none` at the end of the loop, `none` when the fuel runs out). -/
def escapeLoop (A : FloatOps F) (f : Cx F → Cx F → Cx F) (c : Cx F) (iters : Nat) :
    Nat → Nat → Cx F → Option (Option (Nat × Cx F))
  | 0, _, _ => none
  | fuel + 1, i, z =>
    if i ≤ iters then
      if absgt A z (A.ofInt 2) then some (some (i, z))
      else escapeLoop A f c iters fuel ((i + 1) % uintSize) (f z c)
    else some none

/-- The call `renderMandelbrot()` started with the package-level variables
`g` returns the raster `img` and leaves the variables `g2`. -/
def Renders (A : FloatOps F) (M : MathFns F) (g : Globals F) (img : Image)
    (g2 : Globals F) : Prop :=
  ∃ fuel, renderMandelbrot A M fuel g = some (img, g2)

end Fl

/-! ## The escape loop -/

theorem Cx.ext_iff2 {K : Type} (a b : Cx K) : a = b ↔ a.re = b.re ∧ a.im = b.im := by
  cases a; cases b; simp

section LoopLemmas

variable {K : Type} [LinearOrderedField K]

@[simp]
theorem Cx.add_re (a b : Cx K) : (a + b).re = a.re + b.re := rfl

@[simp]
theorem Cx.add_im (a b : Cx K) : (a + b).im = a.im + b.im := rfl

@[simp]
theorem Cx.mul_re (a b : Cx K) : (a * b).re = a.re * b.re - a.im * b.im := rfl

@[simp]
theorem Cx.mul_im (a b : Cx K) : (a * b).im = a.re * b.im + a.im * b.re := rfl

theorem fc_zero_left (c : Cx K) : fc ⟨0, 0⟩ c = c := by
  rw [Cx.ext_iff2]; simp [fc]

theorem absgt_two_iff (z : Cx K) : absgt z 2 = true ↔ Escaped z := by
  simp [absgt, Escaped]

theorem not_escaped_zero : ¬ Escaped (⟨0, 0⟩ : Cx K) := by
  simp [Escaped, sqabs]

theorem divergesLoop_eq_escapeLoop (f : Cx K → Cx K → Cx K) (c : Cx K) (iters : Nat)
    (fuel i : Nat) (z : Cx K) :
    divergesLoop f c iters fuel i z =
      (escapeLoop f c iters fuel i z).map
        (fun r => match r with
          | none => 0
          | some p => p.1) := by
  induction fuel generalizing i z with
  | zero => rfl
  | succ n ih =>
    simp only [divergesLoop, escapeLoop]
    split_ifs <;> simp [ih]

theorem divergezLoop_eq_escapeLoop (M : MathFns K) (f : Cx K → Cx K → Cx K) (c : Cx K)
    (iters : Nat) (fuel i : Nat) (z : Cx K) :
    divergezLoop M f c iters fuel i z =
      (escapeLoop f c iters fuel i z).map
        (fun r => match r with
          | none => 0
          | some p => (p.1 : K) - M.log (M.log (M.cabs (f p.2 c))) / M.ln2) := by
  induction fuel generalizing i z with
  | zero => rfl
  | succ n ih =>
    simp only [divergezLoop, escapeLoop]
    split_ifs <;> simp [ih]

/-- What the loop returns, in terms of the orbit: entered at counter `n + 1`
with the value `z_n`, below the wrap-around of the counter. -/
theorem escapeLoop_sound (f : Cx K → Cx K → Cx K) (c : Cx K) (iters : Nat)
    (hN : iters + 1 < uintSize) (fuel n : Nat) (r : Option (Nat × Cx K))
    (h : escapeLoop f c iters fuel (n + 1) (orbit f c n) = some r) :
    (r = none ∧ ∀ m, n ≤ m → m < iters → ¬ Escaped (orbit f c m)) ∨
    (∃ k, n ≤ k ∧ k < iters ∧ r = some (k + 1, orbit f c k) ∧ Escaped (orbit f c k) ∧
      ∀ m, n ≤ m → m < k → ¬ Escaped (orbit f c m)) := by
  induction fuel generalizing n with
  | zero => simp [escapeLoop] at h
  | succ fuel ih =>
    simp only [escapeLoop] at h
    by_cases hi : n + 1 ≤ iters
    · rw [if_pos hi] at h
      by_cases he : absgt (orbit f c n) 2 = true
      · rw [if_pos he] at h
        right
        refine ⟨n, le_refl n, hi, ?_, (absgt_two_iff _).1 he, ?_⟩
        · injection h with h; exact h.symm
        · intro m h1 h2; omega
      · rw [if_neg he] at h
        have hmod : (n + 1 + 1) % uintSize = n + 1 + 1 := Nat.mod_eq_of_lt (by omega)
        rw [hmod] at h
        have hne : ¬ Escaped (orbit f c n) := fun hh => he ((absgt_two_iff _).2 hh)
        rcases ih (n + 1) h with ⟨h1, h2⟩ | ⟨k, h1, h2, h3, h4, h5⟩
        · left
          refine ⟨h1, ?_⟩
          intro m hm1 hm2
          rcases Nat.eq_or_lt_of_le hm1 with e | e
          · rw [← e]; exact hne
          · exact h2 m e hm2
        · right
          refine ⟨k, by omega, h2, h3, h4, ?_⟩
          intro m hm1 hm2
          rcases Nat.eq_or_lt_of_le hm1 with e | e
          · rw [← e]; exact hne
          · exact h5 m e hm2
    · rw [if_neg hi] at h
      left
      refine ⟨?_, ?_⟩
      · injection h with h; exact h.symm
      · intro m h1 h2; omega

/-- Below the wrap-around of the counter the loop returns once the fuel covers
the remaining counter values. -/
theorem escapeLoop_returns (f : Cx K → Cx K → Cx K) (c : Cx K) (iters : Nat)
    (hN : iters + 1 < uintSize) (fuel n : Nat) (z : Cx K) (hn : n ≤ iters)
    (hfuel : iters + 1 ≤ fuel + n) :
    ∃ r, escapeLoop f c iters fuel (n + 1) z = some r := by
  induction fuel generalizing n z with
  | zero => omega
  | succ fuel ih =>
    simp only [escapeLoop]
    by_cases hi : n + 1 ≤ iters
    · rw [if_pos hi]
      by_cases he : absgt z 2 = true
      · rw [if_pos he]; exact ⟨_, rfl⟩
      · rw [if_neg he]
        have hmod : (n + 1 + 1) % uintSize = n + 1 + 1 := Nat.mod_eq_of_lt (by omega)
        rw [hmod]
        exact ih (n + 1) _ hi (by omega)
    · rw [if_neg hi]; exact ⟨_, rfl⟩

end LoopLemmas

section Evaluators

variable {K : Type} [LinearOrderedField K]

/-- The two outcomes of the loop started as the program starts it, below the
wrap-around of the counter and with fuel for every counter value. -/
theorem escapeLoop_start (f : Cx K → Cx K → Cx K) (c : Cx K) (iters fuel : Nat)
    (hN : iters + 1 < uintSize) (hfuel : iters + 1 ≤ fuel) :
    (escapeLoop f c iters fuel 1 ⟨0, 0⟩ = some none ∧
      ∀ m, m < iters → ¬ Escaped (orbit f c m)) ∨
    (∃ k, k < iters ∧ escapeLoop f c iters fuel 1 ⟨0, 0⟩ = some (some (k + 1, orbit f c k)) ∧
      FirstEscape f c k) := by
  obtain ⟨r, hr⟩ := escapeLoop_returns f c iters hN fuel 0 ⟨0, 0⟩ (Nat.zero_le _) (by omega)
  have hr0 : escapeLoop f c iters fuel (0 + 1) (orbit f c 0) = some r := hr
  rcases escapeLoop_sound f c iters hN fuel 0 r hr0 with ⟨h1, h2⟩ | ⟨k, _, h2, h3, h4, h5⟩
  · left
    exact ⟨by rw [hr, h1], fun m hm => h2 m (Nat.zero_le _) hm⟩
  · right
    exact ⟨k, h2, by rw [hr, h3], h4, fun m hm => h5 m (Nat.zero_le _) hm⟩

theorem diverges_eq_map (f : Cx K → Cx K → Cx K) (c : Cx K) (iters fuel : Nat) :
    diverges fuel f c iters =
      (escapeLoop f c iters fuel 1 ⟨0, 0⟩).map
        (fun r => match r with
          | none => 0
          | some p => p.1) :=
  divergesLoop_eq_escapeLoop f c iters fuel 1 ⟨0, 0⟩

theorem divergez_eq_map (M : MathFns K) (f : Cx K → Cx K → Cx K) (c : Cx K)
    (iters fuel : Nat) :
    divergez M fuel f c iters =
      (escapeLoop f c iters fuel 1 ⟨0, 0⟩).map
        (fun r => match r with
          | none => 0
          | some p => (p.1 : K) - M.log (M.log (M.cabs (f p.2 c))) / M.ln2) :=
  divergezLoop_eq_escapeLoop M f c iters fuel 1 ⟨0, 0⟩

/-- A first escape index is unique. -/
theorem FirstEscape.unique {f : Cx K → Cx K → Cx K} {c : Cx K} {a b : Nat}
    (ha : FirstEscape f c a) (hb : FirstEscape f c b) : a = b := by
  rcases Nat.lt_trichotomy a b with h | h | h
  · exact absurd ha.1 (hb.2 a h)
  · exact h
  · exact absurd hb.1 (ha.2 b h)

end Evaluators

section EvaluatorClaims

variable {K : Type} [LinearOrderedField K]

theorem absgt_zero : absgt (⟨0, 0⟩ : Cx K) 2 = false := by
  simp [absgt, sqabs]

/-- Reading the result of `diverges` back into the common loop: below the
wrap-around of the counter a zero result means that the loop ran to its end,
and a non-zero result `i` that the escape test succeeded at counter `i` on
`z_{i-1}`, the first orbit value outside the radius. -/
theorem escapeLoop_of_diverges (f : Cx K → Cx K → Cx K) (c : Cx K)
    (N fuel i : Nat) (hN : N + 1 < uintSize) (h : diverges fuel f c N = some i) :
    (i = 0 → escapeLoop f c N fuel 1 ⟨0, 0⟩ = some none) ∧
    (i ≠ 0 → 1 ≤ i ∧ i ≤ N ∧ FirstEscape f c (i - 1) ∧
      escapeLoop f c N fuel 1 ⟨0, 0⟩ = some (some (i, orbit f c (i - 1)))) := by
  rw [diverges_eq_map] at h
  cases hr : escapeLoop f c N fuel 1 ⟨0, 0⟩ with
  | none => rw [hr] at h; simp at h
  | some r =>
    rw [hr] at h
    have hr0 : escapeLoop f c N fuel (0 + 1) (orbit f c 0) = some r := hr
    rcases escapeLoop_sound f c N hN fuel 0 r hr0 with ⟨h1, _⟩ | ⟨k, _, h2, h3, h4, h5⟩
    · subst h1
      simp at h
      subst h
      simp
    · subst h3
      simp at h
      subst h
      refine ⟨fun h0 => absurd h0 (Nat.succ_ne_zero k), fun _ => ?_⟩
      refine ⟨by omega, by omega, ⟨by simpa using h4, ?_⟩, by simp⟩
      intro m hm
      exact h5 m (Nat.zero_le _) (by simpa using hm)

/-- C2 (as amended): below the wrap-around of the counter, when `diverges`
returns a counter `i ≠ 0` then `z_{i-1}` is the first orbit value outside the
radius and `divergez` returns `i - log(log(|f(z_{i-1}, c)|)) / ln2` (the counter
itself, not `i + 1`, minus the correction computed from one more application of
the iteration function); when `diverges` returns 0, `divergez` returns 0. -/
theorem C2_divergez_formula (M : MathFns K) (f : Cx K → Cx K → Cx K) (c : Cx K)
    (N fuel i : Nat) (hN : N + 1 < uintSize) (h : diverges fuel f c N = some i) :
    (i = 0 → divergez M fuel f c N = some 0) ∧
    (i ≠ 0 → 1 ≤ i ∧ i ≤ N ∧ FirstEscape f c (i - 1) ∧
      divergez M fuel f c N =
        some ((i : K) - M.log (M.log (M.cabs (f (orbit f c (i - 1)) c))) / M.ln2)) := by
  obtain ⟨hzero, hpos⟩ := escapeLoop_of_diverges f c N fuel i hN h
  rw [divergez_eq_map]
  constructor
  · intro h0
    rw [hzero h0]
    rfl
  · intro hi
    obtain ⟨h1, h2, h3, h4⟩ := hpos hi
    refine ⟨h1, h2, h3, ?_⟩
    rw [h4]
    rfl

/-- C2 (witness): the amended statement over the reals at `c = 3`, `N = 5`,
fuel 3, where `diverges` returns 2. -/
theorem C2_witness :
    (5 + 1 < uintSize ∧ diverges 3 fc (⟨3, 0⟩ : Cx ℝ) 5 = some 2) ∧
    ((2 = 0 →
        divergez (⟨Real.log, fun z => Real.sqrt (sqabs z), Real.log 2⟩ : MathFns ℝ) 3 fc
          ⟨3, 0⟩ 5 = some 0) ∧
      (2 ≠ 0 → 1 ≤ 2 ∧ 2 ≤ 5 ∧ FirstEscape fc (⟨3, 0⟩ : Cx ℝ) (2 - 1) ∧
        divergez (⟨Real.log, fun z => Real.sqrt (sqabs z), Real.log 2⟩ : MathFns ℝ) 3 fc
          ⟨3, 0⟩ 5 =
          some (((2 : Nat) : ℝ) -
            Real.log (Real.log (Real.sqrt (sqabs (fc (orbit fc ⟨3, 0⟩ (2 - 1)) ⟨3, 0⟩)))) /
              Real.log 2))) :=
  have h : diverges 3 fc (⟨3, 0⟩ : Cx ℝ) 5 = some 2 := by
    simp only [diverges, divergesLoop, fc_zero_left]
    norm_num [absgt, sqabs, uintSize]
  ⟨⟨by norm_num [uintSize], h⟩,
    C2_divergez_formula ⟨Real.log, fun z => Real.sqrt (sqabs z), Real.log 2⟩ fc ⟨3, 0⟩ 5 3 2
      (by norm_num [uintSize]) h⟩

/-- C2 (counterexample): over the reals, for `c = 3` and `N = 5` the boolean
evaluator reports escape at `i = 2`, and `divergez` does not return
`i + 1 - log(log |z|) / log 2` for `z = fc(z_1, c)`. -/
theorem C2_counterexample :
    diverges 3 fc (⟨3, 0⟩ : Cx ℝ) 5 = some 2 ∧
    divergez (⟨Real.log, fun z => Real.sqrt (sqabs z), Real.log 2⟩ : MathFns ℝ) 3 fc
        ⟨3, 0⟩ 5 ≠
      some ((2 : ℝ) + 1 -
        Real.log (Real.log (Real.sqrt (sqabs (fc (orbit fc (⟨3, 0⟩ : Cx ℝ) 1) ⟨3, 0⟩)))) /
          Real.log 2) := by
  constructor
  · simp only [diverges, divergesLoop, fc_zero_left]
    norm_num [absgt, sqabs, uintSize]
  · simp only [divergez, divergezLoop, fc_zero_left, orbit]
    norm_num [absgt, sqabs, uintSize]

/-- With `c = 0` the orbit stays at 0, so the loop never finds an escape. -/
theorem escapeLoop_zero_max (fuel i : Nat) (hi : i < uintSize) :
    escapeLoop fc (⟨0, 0⟩ : Cx K) (uintSize - 1) fuel i ⟨0, 0⟩ = none := by
  induction fuel generalizing i with
  | zero => rfl
  | succ n ih =>
    have h0 : absgt (⟨0, 0⟩ : Cx K) 2 = false := absgt_zero
    simp only [escapeLoop, fc_zero_left, h0]
    rw [if_pos (by omega)]
    simpa using ih ((i + 1) % uintSize) (Nat.mod_lt _ (by norm_num [uintSize]))

theorem orbit_zero (n : Nat) : orbit fc (⟨0, 0⟩ : Cx K) n = ⟨0, 0⟩ := by
  induction n with
  | zero => rfl
  | succ n ih => simp only [orbit, ih, fc_zero_left]

/-- For `c = 0` and a bound below the largest `uint`, both evaluators return 0
as soon as the fuel covers the `N + 1` evaluations of the loop condition. -/
theorem evaluators_zero (M : MathFns K) (N fuel : Nat) (hN : N + 1 < uintSize)
    (hfuel : N + 1 ≤ fuel) :
    diverges fuel fc (⟨0, 0⟩ : Cx K) N = some 0 ∧
    divergez M fuel fc (⟨0, 0⟩ : Cx K) N = some 0 := by
  rw [diverges_eq_map, divergez_eq_map]
  rcases escapeLoop_start fc (⟨0, 0⟩ : Cx K) N fuel hN hfuel with ⟨h1, _⟩ | ⟨k, _, _, h3⟩
  · rw [h1]; simp
  · exfalso
    have := h3.1
    rw [orbit_zero] at this
    exact not_escaped_zero this

/-- C4 (failing input): for `c = 0` and the largest bound `N = 2^64 - 1` the
loop condition `i <= iters` never fails and the counter wraps, so neither
`diverges` nor `divergez` returns, however much fuel they are given. -/
theorem C4_zero_max_bound_never_returns (M : MathFns K) (fuel : Nat) :
    diverges fuel fc (⟨0, 0⟩ : Cx K) (uintSize - 1) = none ∧
    divergez M fuel fc (⟨0, 0⟩ : Cx K) (uintSize - 1) = none := by
  rw [diverges_eq_map, divergez_eq_map,
    escapeLoop_zero_max fuel 1 (by norm_num [uintSize])]
  exact ⟨rfl, rfl⟩

end EvaluatorClaims

section Mapping

variable {K : Type} [LinearOrderedField K]

theorem ratio_eq : (ratio : K) = 4 / 3 := by
  unfold ratio win_w win_h
  norm_num

theorem ratio_gt_one : (ratio : K) > 1 := by
  rw [ratio_eq]
  norm_num

/-- The mapping of `orbitColor` with the branch on the constant `ratio`
resolved: only the column is corrected. -/
theorem pixelCoord_eq (i j : Int) (min_x min_y max_x max_y : K) :
    pixelCoord i j min_x min_y max_x max_y =
      ⟨min_x + ((j : K) / (win_w : K) * ratio - (ratio - 1) * (1 / 2)) * (max_x - min_x),
        min_y + (i : K) / (win_h : K) * (max_y - min_y)⟩ := by
  have h1 : ¬ (ratio : K) < 1 := not_lt.2 (le_of_lt ratio_gt_one)
  simp only [pixelCoord, if_neg h1, if_pos (ratio_gt_one (K := K))]

theorem pixelCoord_re (i j : Int) (cx r : K) (min_y max_y : K) :
    (pixelCoord i j (cx - r) min_y (cx + r) max_y).re =
      cx - r * (4 / 3) + (j : K) * (2 * r / 768) := by
  rw [pixelCoord_eq, ratio_eq]
  simp only [win_w]
  push_cast
  ring

theorem pixelCoord_im (i j : Int) (cy r : K) (min_x max_x : K) :
    (pixelCoord i j min_x (cy - r) max_x (cy + r)).im =
      cy - r + (i : K) * (2 * r / 768) := by
  rw [pixelCoord_eq]
  simp only [win_h]
  push_cast
  ring

/-- Equal mapped points come from equal pixels, for a positive radius. -/
theorem pixelCoord_inj (cx cy r : K) (hr : 0 < r) (i j i2 j2 : Int)
    (h : pixelCoord i j (cx - r) (cy - r) (cx + r) (cy + r) =
      pixelCoord i2 j2 (cx - r) (cy - r) (cx + r) (cy + r)) :
    i = i2 ∧ j = j2 := by
  have hre := congrArg Cx.re h
  have him := congrArg Cx.im h
  rw [pixelCoord_re, pixelCoord_re] at hre
  rw [pixelCoord_im, pixelCoord_im] at him
  have hstep : (2 * r / 768 : K) ≠ 0 := by positivity
  constructor
  · have : (i : K) = (i2 : K) := by
      have h1 : (i : K) * (2 * r / 768) = (i2 : K) * (2 * r / 768) := by linarith
      exact mul_right_cancel₀ hstep h1
    exact_mod_cast this
  · have : (j : K) = (j2 : K) := by
      have h1 : (j : K) * (2 * r / 768) = (j2 : K) * (2 * r / 768) := by linarith
      exact mul_right_cancel₀ hstep h1
    exact_mod_cast this

end Mapping

section Returns

variable {K : Type} [LinearOrderedField K]

/-- Below the wrap-around of the counter `divergez` returns once the fuel
covers the `N + 1` evaluations of the loop condition. -/
theorem divergez_returns (M : MathFns K) (f : Cx K → Cx K → Cx K) (c : Cx K)
    (N fuel : Nat) (hN : N + 1 < uintSize) (hfuel : N + 1 ≤ fuel) :
    ∃ v, divergez M fuel f c N = some v := by
  rw [divergez_eq_map]
  obtain ⟨r, hr⟩ := escapeLoop_returns f c N hN fuel 0 ⟨0, 0⟩ (Nat.zero_le _) (by omega)
  rw [hr]
  exact ⟨_, rfl⟩

end Returns

section Render

variable {K : Type} [LinearOrderedField K] [FloorRing K]

theorem orbitColor_of_divergez (M : MathFns K) (fuel : Nat) (zp : ZoomPoint K) (i j : Int)
    (min_x min_y max_x max_y v : K)
    (h : divergez M fuel fc (pixelCoord i j min_x min_y max_x max_y) zp.depth = some v) :
    orbitColor M fuel zp i j min_x min_y max_x max_y =
      some ⟨j, i, if v > 0 then intensity v zp.depth else 0⟩ := by
  unfold orbitColor
  rw [h]
  by_cases hv : v > 0
  · simp [hv]
  · simp [hv]

theorem orbitColor_of_divergez_none (M : MathFns K) (fuel : Nat) (zp : ZoomPoint K)
    (i j : Int) (min_x min_y max_x max_y : K)
    (h : divergez M fuel fc (pixelCoord i j min_x min_y max_x max_y) zp.depth = none) :
    orbitColor M fuel zp i j min_x min_y max_x max_y = none := by
  unfold orbitColor
  rw [h]

theorem orbitColor_returns (M : MathFns K) (fuel : Nat) (zp : ZoomPoint K) (i j : Int)
    (min_x min_y max_x max_y : K) (hN : zp.depth + 1 < uintSize)
    (hfuel : zp.depth + 1 ≤ fuel) :
    ∃ b, orbitColor M fuel zp i j min_x min_y max_x max_y = some ⟨j, i, b⟩ := by
  obtain ⟨v, hv⟩ := divergez_returns M fc (pixelCoord i j min_x min_y max_x max_y)
    zp.depth fuel hN hfuel
  exact ⟨_, orbitColor_of_divergez M fuel zp i j min_x min_y max_x max_y v hv⟩

theorem foldlM_none_of_mem {α β : Type} (f : β → α → Option β) (l : List α) (x : α)
    (hx : x ∈ l) (hf : ∀ b, f b x = none) (b : β) : l.foldlM f b = none := by
  induction l generalizing b with
  | nil => simp at hx
  | cons a l ih =>
    rw [List.foldlM_cons]
    rcases List.mem_cons.1 hx with h | h
    · subst h
      rw [hf b]; rfl
    · cases hfa : f b a with
      | none => rfl
      | some b2 => exact ih h b2

/-- The extents `renderMandelbrot` passes to `orbitColor`, for row `i` and
column `j`. -/
theorem renderStep_of_some (M : MathFns K) (fuel : Nat) (zp : ZoomPoint K) (i j : Nat)
    (img : Image) (b : Nat)
    (h : orbitColor M fuel zp (i : Int) (j : Int) (zp.cx - zp.r) (zp.cy - zp.r)
      (zp.cx + zp.r) (zp.cy + zp.r) = some ⟨j, i, b⟩) :
    renderStep M fuel zp i img j = some (img.set j i ⟨b, b, b, 255⟩) := by
  unfold renderStep
  rw [h]
  rfl

theorem Image.set_of_in (img : Image) (x y : Int) (col : RGBA)
    (hin : 0 ≤ x ∧ x < img.w ∧ 0 ≤ y ∧ y < img.h) :
    img.set x y col =
      ⟨img.w, img.h, fun x1 y1 => if x1 = x ∧ y1 = y then col else img.pix x1 y1⟩ := by
  unfold Image.set
  rw [if_pos hin]

theorem renderRow_spec (M : MathFns K) (fuel : Nat) (zp : ZoomPoint K) (i : Nat)
    (img : Image) (hi : (i : Int) < img.h) (n : Nat) (hn : (n : Int) ≤ img.w)
    (hall : ∀ j : Nat, j < n → ∃ b, orbitColor M fuel zp (i : Int) (j : Int)
      (zp.cx - zp.r) (zp.cy - zp.r) (zp.cx + zp.r) (zp.cy + zp.r) = some ⟨j, i, b⟩) :
    ∃ out, (List.range n).foldlM (renderStep M fuel zp i) img = some out ∧
      out.w = img.w ∧ out.h = img.h ∧
      (∀ x y : Int, (y ≠ (i : Int) ∨ x < 0 ∨ (n : Int) ≤ x) → out.pix x y = img.pix x y) ∧
      (∀ j : Nat, j < n → ∃ b, orbitColor M fuel zp (i : Int) (j : Int)
        (zp.cx - zp.r) (zp.cy - zp.r) (zp.cx + zp.r) (zp.cy + zp.r) = some ⟨j, i, b⟩ ∧
        out.pix j i = ⟨b, b, b, 255⟩) := by
  induction n with
  | zero =>
    refine ⟨img, rfl, rfl, rfl, fun _ _ _ => rfl, ?_⟩
    intro j hj; omega
  | succ n ih =>
    obtain ⟨mid, h1, hw, hh, hframe, hpix⟩ :=
      ih (by push_cast at hn; omega) (fun j hj => hall j (by omega))
    obtain ⟨b, hb⟩ := hall n (by omega)
    have hin : 0 ≤ (n : Int) ∧ (n : Int) < mid.w ∧ 0 ≤ (i : Int) ∧ (i : Int) < mid.h := by
      rw [hw, hh]; push_cast at hn; omega
    have hset := Image.set_of_in mid n i ⟨b, b, b, 255⟩ hin
    refine ⟨mid.set n i ⟨b, b, b, 255⟩, ?_, ?_, ?_, ?_, ?_⟩
    · rw [List.range_succ, List.foldlM_append, h1]
      simp [renderStep_of_some M fuel zp i n mid b hb]
    · rw [hset]; exact hw
    · rw [hset]; exact hh
    · intro x y hxy
      rw [hset]
      have hne : ¬ (x = (n : Int) ∧ y = (i : Int)) := by
        push_cast at hxy; omega
      simp only [if_neg hne]
      exact hframe x y (by push_cast at hxy; omega)
    · intro j hj
      rw [hset]
      by_cases hjn : j = n
      · subst hjn
        exact ⟨b, hb, by simp⟩
      · obtain ⟨b2, hb2, hp2⟩ := hpix j (by omega)
        refine ⟨b2, hb2, ?_⟩
        have hne : ¬ ((j : Int) = (n : Int)) := by omega
        simp only [hne, false_and, if_false]
        exact hp2

theorem renderRows_spec (M : MathFns K) (fuel : Nat) (zp : ZoomPoint K) (m : Nat)
    (hm : m ≤ win_h)
    (hall : ∀ i j : Nat, i < m → j < win_w → ∃ b, orbitColor M fuel zp (i : Int) (j : Int)
      (zp.cx - zp.r) (zp.cy - zp.r) (zp.cx + zp.r) (zp.cy + zp.r) = some ⟨j, i, b⟩) :
    ∃ out, (List.range m).foldlM (renderRow M fuel zp)
        (newRGBA (win_w : Int) (win_h : Int)) = some out ∧
      out.w = (win_w : Int) ∧ out.h = (win_h : Int) ∧
      (∀ i j : Nat, i < m → j < win_w → ∃ b, orbitColor M fuel zp (i : Int) (j : Int)
        (zp.cx - zp.r) (zp.cy - zp.r) (zp.cx + zp.r) (zp.cy + zp.r) = some ⟨j, i, b⟩ ∧
        out.pix j i = ⟨b, b, b, 255⟩) := by
  induction m with
  | zero =>
    refine ⟨_, rfl, rfl, rfl, ?_⟩
    intro i j hi; omega
  | succ m ih =>
    obtain ⟨mid, h1, hw, hh, hpix⟩ := ih (by omega) (fun i j hi hj => hall i j (by omega) hj)
    obtain ⟨out, h2, hw2, hh2, hframe, hrow⟩ :=
      renderRow_spec M fuel zp m mid (by rw [hh]; exact_mod_cast (by omega : m < win_h))
        win_w (by rw [hw]) (fun j hj => hall m j (by omega) hj)
    refine ⟨out, ?_, by rw [hw2, hw], by rw [hh2, hh], ?_⟩
    · rw [List.range_succ, List.foldlM_append, h1]
      simpa [renderRow] using h2
    · intro i j hi hj
      by_cases him : i = m
      · subst him
        exact hrow j hj
      · obtain ⟨b, hb, hp⟩ := hpix i j (by omega) hj
        refine ⟨b, hb, ?_⟩
        rw [hframe j i (Or.inl (by omega))]
        exact hp

/-- For a zoom point whose depth is below the largest `uint`,
`renderMandelbrot` returns a `1024 × 768` raster, and the sample at `(x, y)` is
`(b, b, b, 255)` for the byte `b` that `orbitColor` computes for row `y`,
column `x`. -/
theorem renderMandelbrot_complete (M : MathFns K) (fuel : Nat) (zp : ZoomPoint K)
    (hN : zp.depth + 1 < uintSize) (hfuel : zp.depth + 1 ≤ fuel) :
    ∃ img, renderMandelbrot M fuel zp = some img ∧ img.w = 1024 ∧ img.h = 768 ∧
      ∀ x y : Nat, x < 1024 → y < 768 →
        ∃ b, orbitColor M fuel zp (y : Int) (x : Int)
            (zp.cx - zp.r) (zp.cy - zp.r) (zp.cx + zp.r) (zp.cy + zp.r) = some ⟨x, y, b⟩ ∧
          img.colorAt x y = ⟨b, b, b, 255⟩ := by
  obtain ⟨out, h1, hw, hh, hpix⟩ := renderRows_spec M fuel zp win_h (le_refl _)
    (fun i j _ _ => orbitColor_returns M fuel zp i j _ _ _ _ hN hfuel)
  refine ⟨out, h1, by rw [hw]; rfl, by rw [hh]; rfl, ?_⟩
  intro x y hx hy
  obtain ⟨b, hb, hp⟩ := hpix y x hy hx
  refine ⟨b, hb, ?_⟩
  have hin : 0 ≤ (x : Int) ∧ (x : Int) < out.w ∧ 0 ≤ (y : Int) ∧ (y : Int) < out.h := by
    rw [hw, hh]
    simp only [win_w, win_h]
    push_cast
    omega
  simp only [Image.colorAt, if_pos hin]
  exact hp

/-- When `orbitColor` does not return for one pixel of the grid,
`renderMandelbrot` does not return. -/
theorem renderMandelbrot_none (M : MathFns K) (fuel : Nat) (zp : ZoomPoint K) (i j : Nat)
    (hi : i < win_h) (hj : j < win_w)
    (h : orbitColor M fuel zp (i : Int) (j : Int) (zp.cx - zp.r) (zp.cy - zp.r)
      (zp.cx + zp.r) (zp.cy + zp.r) = none) :
    renderMandelbrot M fuel zp = none := by
  unfold renderMandelbrot
  apply foldlM_none_of_mem _ _ i (List.mem_range.2 hi)
  intro img
  unfold renderRow
  apply foldlM_none_of_mem _ _ j (List.mem_range.2 hj)
  intro img2
  unfold renderStep
  rw [h]

end Render

section Centre

variable {K : Type} [LinearOrderedField K]

/-- The pixel of row 384, column 512 of the view of radius 2 around the origin
stands for the origin of the plane. -/
theorem pixelCoord_centre :
    pixelCoord 384 512 ((0 : K) - 2) (0 - 2) (0 + 2) (0 + 2) = ⟨0, 0⟩ := by
  rw [pixelCoord_eq, ratio_eq, Cx.ext_iff2]
  simp only [win_w, win_h]
  constructor <;> norm_num

end Centre

section RenderClaims

variable {K : Type} [LinearOrderedField K] [FloorRing K]

/-- C7: for the zoom point `{cx=0, cy=0, r=2, depth=50}` the centre pixel (row
384, column 512) is mapped to the point `(0, 0)`, whose orbit never leaves the
radius 2; `orbitColor` returns intensity 0 for it, and the rendered raster
holds `(0, 0, 0, 255)` at `(512, 384)`.  Fuel 51 or more is enough. -/
theorem C7_centre_pixel_black (M : MathFns K) (fuel : Nat) :
    pixelCoord 384 512 ((0 : K) - 2) (0 - 2) (0 + 2) (0 + 2) = ⟨0, 0⟩ ∧
    (∀ n, ¬ Escaped (orbit fc (⟨0, 0⟩ : Cx K) n)) ∧
    orbitColor M (fuel + 51) ⟨0, 0, 2, 50⟩ 384 512 ((0 : K) - 2) (0 - 2) (0 + 2) (0 + 2) =
      some ⟨512, 384, 0⟩ ∧
    ∃ img, renderMandelbrot M (fuel + 51) (⟨0, 0, 2, 50⟩ : ZoomPoint K) = some img ∧
      img.colorAt 512 384 = ⟨0, 0, 0, 255⟩ := by
  have hN : (50 : Nat) + 1 < uintSize := by norm_num [uintSize]
  have hz : divergez M (fuel + 51) fc
      (pixelCoord 384 512 ((0 : K) - 2) (0 - 2) (0 + 2) (0 + 2)) 50 = some 0 := by
    rw [pixelCoord_centre]
    exact (evaluators_zero M 50 (fuel + 51) hN (by omega)).2
  have hcol : orbitColor M (fuel + 51) ⟨0, 0, 2, 50⟩ 384 512
      ((0 : K) - 2) (0 - 2) (0 + 2) (0 + 2) = some ⟨512, 384, 0⟩ := by
    rw [orbitColor_of_divergez M (fuel + 51) ⟨0, 0, 2, 50⟩ 384 512 _ _ _ _ 0 hz]
    simp
  refine ⟨pixelCoord_centre, ?_, hcol, ?_⟩
  · intro n
    rw [orbit_zero]
    exact not_escaped_zero
  · obtain ⟨img, h1, _, _, h2⟩ :=
      renderMandelbrot_complete M (fuel + 51) (⟨0, 0, 2, 50⟩ : ZoomPoint K) hN
        (by show 50 + 1 ≤ fuel + 51; omega)
    refine ⟨img, h1, ?_⟩
    obtain ⟨b, hb, hp⟩ := h2 512 384 (by norm_num) (by norm_num)
    simp only [Nat.cast_ofNat] at hb hp
    have hb2 := hb
    rw [hcol] at hb2
    have hb0 : b = 0 := (congrArg Pixel.col (Option.some.inj hb2)).symm
    subst hb0
    exact hp

/-- C10 (failing input): for the zoom point `{cx=0, cy=0, r=2, depth=2^64-1}`
the evaluation of the centre pixel never returns, so `renderMandelbrot`
produces no raster, however much fuel it is given. -/
theorem C10_render_max_depth_never_returns (M : MathFns K) (fuel : Nat) :
    renderMandelbrot M fuel (⟨0, 0, 2, uintSize - 1⟩ : ZoomPoint K) = none := by
  apply renderMandelbrot_none M fuel _ 384 512 (by norm_num [win_h]) (by norm_num [win_w])
  apply orbitColor_of_divergez_none
  have hc : pixelCoord ((384 : Nat) : Int) ((512 : Nat) : Int) ((0 : K) - 2) (0 - 2) (0 + 2)
      (0 + 2) = ⟨0, 0⟩ := by
    simp only [Nat.cast_ofNat]
    exact pixelCoord_centre
  show divergez M fuel fc (pixelCoord ((384 : Nat) : Int) ((512 : Nat) : Int)
    ((0 : K) - 2) (0 - 2) (0 + 2) (0 + 2)) (uintSize - 1) = none
  rw [hc, divergez_eq_map, escapeLoop_zero_max fuel 1 (by norm_num [uintSize])]
  rfl

end RenderClaims

section RealModel


/-! ## Moduli over the reals -/

theorem sqabs_nonneg (z : Cx ℝ) : 0 ≤ sqabs z := by
  unfold sqabs
  nlinarith [mul_self_nonneg z.re, mul_self_nonneg z.im]

/-- Over the reals the modulus `cmplx.Abs` computes for `z`, as a Mathlib
complex modulus. -/
theorem sqrt_sqabs_eq_abs (z : Cx ℝ) :
    Real.sqrt (sqabs z) = Complex.abs ⟨z.re, z.im⟩ := by
  rw [Complex.abs_apply, Complex.normSq_apply]
  rfl

/-- The test on squares of `absgt(z, 2)` is the test `|z| > 2`. -/
theorem escaped_iff_modulus (z : Cx ℝ) : Escaped z ↔ 2 < Real.sqrt (sqabs z) := by
  rw [Real.lt_sqrt (by norm_num)]
  unfold Escaped
  constructor <;> intro h <;> linarith

theorem fc_toComplex (z c : Cx ℝ) :
    (⟨(fc z c).re, (fc z c).im⟩ : ℂ) = (⟨z.re, z.im⟩ : ℂ) * ⟨z.re, z.im⟩ + ⟨c.re, c.im⟩ := by
  apply Complex.ext <;> simp [fc]

theorem modulus_fc_le (z c : Cx ℝ) :
    Real.sqrt (sqabs (fc z c)) ≤ Real.sqrt (sqabs z) ^ 2 + Real.sqrt (sqabs c) := by
  rw [sqrt_sqabs_eq_abs, sqrt_sqabs_eq_abs, sqrt_sqabs_eq_abs, fc_toComplex]
  calc Complex.abs ((⟨z.re, z.im⟩ : ℂ) * ⟨z.re, z.im⟩ + ⟨c.re, c.im⟩)
      ≤ Complex.abs ((⟨z.re, z.im⟩ : ℂ) * ⟨z.re, z.im⟩) + Complex.abs ⟨c.re, c.im⟩ :=
        Complex.abs.add_le _ _
    _ = Complex.abs ⟨z.re, z.im⟩ ^ 2 + Complex.abs ⟨c.re, c.im⟩ := by
        rw [map_mul, sq]

theorem modulus_fc_ge (z c : Cx ℝ) :
    Real.sqrt (sqabs z) ^ 2 - Real.sqrt (sqabs c) ≤ Real.sqrt (sqabs (fc z c)) := by
  rw [sqrt_sqabs_eq_abs, sqrt_sqabs_eq_abs, sqrt_sqabs_eq_abs, fc_toComplex]
  have h := Complex.abs.add_le
    ((⟨z.re, z.im⟩ : ℂ) * ⟨z.re, z.im⟩ + ⟨c.re, c.im⟩) (-(⟨c.re, c.im⟩ : ℂ))
  rw [add_neg_cancel_right, map_neg_eq_map, map_mul, ← sq] at h
  linarith

/-- At the first escape the value of `c` is no larger than the escaping
value: either `|c| ≤ 2 < |z_k|`, or `|c| > 2` and then `k = 1`, `z_1 = c`. -/
theorem modulus_c_le_of_firstEscape (c : Cx ℝ) (k : Nat) (h : FirstEscape fc c k) :
    Real.sqrt (sqabs c) ≤ Real.sqrt (sqabs (orbit fc c k)) := by
  by_cases hc : Escaped c
  · have h1 : orbit fc c 1 = c := by simp only [orbit, fc_zero_left]
    have hk1 : ¬ 1 < k := fun hlt => h.2 1 hlt (by rw [h1]; exact hc)
    have hk0 : k ≠ 0 := by
      intro h0
      rw [h0] at h
      exact not_escaped_zero h.1
    have : k = 1 := by omega
    rw [this, h1]
  · have hz := (escaped_iff_modulus _).1 h.1
    have hc2 : Real.sqrt (sqabs c) ≤ 2 := by
      by_contra hgt
      exact hc ((escaped_iff_modulus c).2 (not_le.1 hgt))
    linarith

/-- After the extra application of `fc` the escaping value is still outside
the radius 2. -/
theorem modulus_extra_gt_two (c : Cx ℝ) (k : Nat) (h : FirstEscape fc c k) :
    2 < Real.sqrt (sqabs (fc (orbit fc c k) c)) := by
  have h1 := modulus_c_le_of_firstEscape c k h
  have h2 := (escaped_iff_modulus _).1 h.1
  have h3 := modulus_fc_ge (orbit fc c k) c
  nlinarith

/-- A first escape at an orbit index `k ≥ 2` yields, after the extra
application of `fc`, a value of modulus at most 38. -/
theorem modulus_extra_le (c : Cx ℝ) (k : Nat) (h : FirstEscape fc c k) (hk : 2 ≤ k) :
    Real.sqrt (sqabs (fc (orbit fc c k) c)) ≤ 38 := by
  have h1 : orbit fc c 1 = c := by simp only [orbit, fc_zero_left]
  have hc : Real.sqrt (sqabs c) ≤ 2 := by
    by_contra hgt
    have := h.2 1 (by omega)
    rw [h1] at this
    exact this ((escaped_iff_modulus c).2 (not_le.1 hgt))
  obtain ⟨n, rfl⟩ : ∃ n, k = n + 1 := ⟨k - 1, by omega⟩
  have hprev : Real.sqrt (sqabs (orbit fc c n)) ≤ 2 := by
    by_contra hgt
    exact h.2 n (by omega) ((escaped_iff_modulus _).2 (not_le.1 hgt))
  have h0 : 0 ≤ Real.sqrt (sqabs (orbit fc c n)) := Real.sqrt_nonneg _
  have hk6 : Real.sqrt (sqabs (orbit fc c (n + 1))) ≤ 6 := by
    have := modulus_fc_le (orbit fc c n) c
    simp only [orbit]
    nlinarith
  have h00 : 0 ≤ Real.sqrt (sqabs (orbit fc c (n + 1))) := Real.sqrt_nonneg _
  have := modulus_fc_le (orbit fc c (n + 1)) c
  nlinarith

/-! ## Bounds on the smoothing term -/

theorem log_two_gt_half : (1 / 2 : ℝ) < Real.log 2 := by
  have := Real.log_two_gt_d9
  linarith

/-- For `a > 2` the smoothing term `log(log a) / log 2` exceeds `-1`. -/
theorem smooth_term_gt (a : ℝ) (ha : 2 < a) : -1 < Real.log (Real.log a) / Real.log 2 := by
  have hl2 : 0 < Real.log 2 := by linarith [log_two_gt_half]
  have h1 : Real.log 2 < Real.log a := Real.log_lt_log (by norm_num) ha
  have h2 : (1 / 2 : ℝ) < Real.log a := by linarith [log_two_gt_half]
  have h3 : Real.log (1 / 2) < Real.log (Real.log a) := Real.log_lt_log (by norm_num) h2
  have h4 : Real.log (1 / 2 : ℝ) = -Real.log 2 := by
    rw [one_div, Real.log_inv]
  rw [lt_div_iff₀ hl2]
  linarith

theorem exp_four_gt : (38 : ℝ) < Real.exp 4 := by
  have h : Real.exp 4 = Real.exp 1 ^ 4 := by
    rw [← Real.exp_nat_mul]; norm_num
  have h1 := Real.exp_one_gt_d9
  have h2 : (2.7 : ℝ) ^ 4 < Real.exp 1 ^ 4 := by
    gcongr
    linarith
  rw [h]
  norm_num at h2 ⊢
  linarith

/-- For `2 < a ≤ 38` the smoothing term `log(log a) / log 2` is below `2`. -/
theorem smooth_term_lt (a : ℝ) (ha : 2 < a) (ha2 : a ≤ 38) :
    Real.log (Real.log a) / Real.log 2 < 2 := by
  have hl2 : 0 < Real.log 2 := by linarith [log_two_gt_half]
  have h1 : Real.log 2 < Real.log a := Real.log_lt_log (by norm_num) ha
  have h2 : Real.log a < 4 := by
    rw [Real.log_lt_iff_lt_exp (by linarith)]
    linarith [exp_four_gt]
  have h3 : Real.log (Real.log a) < Real.log 4 := Real.log_lt_log (by linarith) h2
  have h4 : Real.log (4 : ℝ) = 2 * Real.log 2 := by
    have : (4 : ℝ) = 2 ^ 2 := by norm_num
    rw [this, Real.log_pow]
    norm_num
  rw [div_lt_iff₀ hl2]
  linarith

end RealModel

section SmoothedOrder


theorem sqrt_sqabs_real (a : ℝ) (ha : 0 ≤ a) : Real.sqrt (sqabs (⟨a, 0⟩ : Cx ℝ)) = a := by
  have : sqabs (⟨a, 0⟩ : Cx ℝ) = a * a := by simp [sqabs]
  rw [this, Real.sqrt_mul_self ha]

/-- Over the reals, with the real logarithm and the Euclidean modulus: a
non-zero result `i` of `diverges` gives the smoothed value
`i - log(log a) / log 2` with `a = |fc(z_{i-1}, c)| > 2`. -/
theorem divergez_real_of_diverges (c : Cx ℝ) (N fuel i : Nat) (hN : N + 1 < uintSize)
    (h : diverges fuel fc c N = some i) (hi : i ≠ 0) :
    FirstEscape fc c (i - 1) ∧
    2 < Real.sqrt (sqabs (fc (orbit fc c (i - 1)) c)) ∧
    divergez (⟨Real.log, fun z => Real.sqrt (sqabs z), Real.log 2⟩ : MathFns ℝ) fuel fc c N =
      some ((i : ℝ) -
        Real.log (Real.log (Real.sqrt (sqabs (fc (orbit fc c (i - 1)) c)))) / Real.log 2) := by
  obtain ⟨_, _, h3, h4⟩ := (escapeLoop_of_diverges fc c N fuel i hN h).2 hi
  refine ⟨h3, modulus_extra_gt_two c (i - 1) h3, ?_⟩
  rw [divergez_eq_map, h4]
  rfl

/-- C5 (as amended): over the reals, for a fixed bound `N < 2^64 - 1`, if `c1`
and `c2` both escape and `c1` escapes at least three loop counters sooner
(`i1 + 3 ≤ i2`), then the smoothed value of `c1` is smaller; indeed
`divergez(c1) < i1 + 1 ≤ i2 - 2 < divergez(c2)`. -/
theorem C5_smoothed_monotone_gap_three (c1 c2 : Cx ℝ) (N fuel i1 i2 : Nat)
    (hN : N + 1 < uintSize) (h1 : diverges fuel fc c1 N = some i1)
    (h2 : diverges fuel fc c2 N = some i2) (hi1 : i1 ≠ 0) (hgap : i1 + 3 ≤ i2) :
    ∃ v1 v2 : ℝ,
      divergez (⟨Real.log, fun z => Real.sqrt (sqabs z), Real.log 2⟩ : MathFns ℝ) fuel fc
        c1 N = some v1 ∧
      divergez (⟨Real.log, fun z => Real.sqrt (sqabs z), Real.log 2⟩ : MathFns ℝ) fuel fc
        c2 N = some v2 ∧
      v1 < (i1 : ℝ) + 1 ∧ (i2 : ℝ) - 2 < v2 ∧ v1 < v2 := by
  obtain ⟨_, ha1, hv1⟩ := divergez_real_of_diverges c1 N fuel i1 hN h1 hi1
  obtain ⟨he2, ha2, hv2⟩ := divergez_real_of_diverges c2 N fuel i2 hN h2 (by omega)
  have hb2 := modulus_extra_le c2 (i2 - 1) he2 (by omega)
  have ht1 := smooth_term_gt _ ha1
  have ht2 := smooth_term_lt _ ha2 hb2
  have hcast : (i1 : ℝ) + 3 ≤ (i2 : ℝ) := by exact_mod_cast hgap
  refine ⟨_, _, hv1, hv2, ?_, ?_, ?_⟩ <;> linarith

/-- C5 (witness): `c1 = 3` escapes at counter 2 and `c2 = 3/5` at counter 5,
with `N = 5` and fuel 6. -/
theorem C5_witness :
    (5 + 1 < uintSize ∧ diverges 6 fc (⟨3, 0⟩ : Cx ℝ) 5 = some 2 ∧
      diverges 6 fc (⟨3 / 5, 0⟩ : Cx ℝ) 5 = some 5 ∧ 2 ≠ 0 ∧ 2 + 3 ≤ 5) ∧
    ∃ v1 v2 : ℝ,
      divergez (⟨Real.log, fun z => Real.sqrt (sqabs z), Real.log 2⟩ : MathFns ℝ) 6 fc
        ⟨3, 0⟩ 5 = some v1 ∧
      divergez (⟨Real.log, fun z => Real.sqrt (sqabs z), Real.log 2⟩ : MathFns ℝ) 6 fc
        ⟨3 / 5, 0⟩ 5 = some v2 ∧
      v1 < ((2 : Nat) : ℝ) + 1 ∧ ((5 : Nat) : ℝ) - 2 < v2 ∧ v1 < v2 :=
  have hN : 5 + 1 < uintSize := by norm_num [uintSize]
  have h1 : diverges 6 fc (⟨3, 0⟩ : Cx ℝ) 5 = some 2 := by
    simp only [diverges, divergesLoop, fc_zero_left]
    norm_num [absgt, sqabs, uintSize]
  have h2 : diverges 6 fc (⟨3 / 5, 0⟩ : Cx ℝ) 5 = some 5 := by
    simp only [diverges, divergesLoop, fc_zero_left]
    norm_num [absgt, sqabs, uintSize, fc]
  ⟨⟨hN, h1, h2, by norm_num, by norm_num⟩,
    C5_smoothed_monotone_gap_three ⟨3, 0⟩ ⟨3 / 5, 0⟩ 5 6 2 5 hN h1 h2 (by norm_num)
      (by norm_num)⟩

/-- C5 (counterexample): over the reals with `N = 3`, `c1 = -11/5` escapes at
counter 2 and `c2 = 2` at counter 3, so `c1` escapes sooner, yet the smoothed
value of `c1` (above 2, since `|fc(c1, c1)| = 2.64 < e`) is larger than that of
`c2` (below 2, since `|fc(6, 2)| = 38 > e^2`). -/
theorem C5_counterexample :
    ∃ v1 v2 : ℝ,
      diverges 4 fc (⟨-11 / 5, 0⟩ : Cx ℝ) 3 = some 2 ∧
      diverges 4 fc (⟨2, 0⟩ : Cx ℝ) 3 = some 3 ∧
      divergez (⟨Real.log, fun z => Real.sqrt (sqabs z), Real.log 2⟩ : MathFns ℝ) 4 fc
        ⟨-11 / 5, 0⟩ 3 = some v1 ∧
      divergez (⟨Real.log, fun z => Real.sqrt (sqabs z), Real.log 2⟩ : MathFns ℝ) 4 fc
        ⟨2, 0⟩ 3 = some v2 ∧
      v2 < v1 := by
  have he1 : absgt (⟨-11 / 5, 0⟩ : Cx ℝ) 2 = true := by norm_num [absgt, sqabs]
  have hz1 : fc (⟨-11 / 5, 0⟩ : Cx ℝ) ⟨-11 / 5, 0⟩ = ⟨66 / 25, 0⟩ := by
    rw [Cx.ext_iff2]; norm_num [fc]
  have he2 : absgt (⟨2, 0⟩ : Cx ℝ) 2 = false := by norm_num [absgt, sqabs]
  have hz2 : fc (⟨2, 0⟩ : Cx ℝ) ⟨2, 0⟩ = ⟨6, 0⟩ := by
    rw [Cx.ext_iff2]; norm_num [fc]
  have he3 : absgt (⟨6, 0⟩ : Cx ℝ) 2 = true := by norm_num [absgt, sqabs]
  have hz3 : fc (⟨6, 0⟩ : Cx ℝ) ⟨2, 0⟩ = ⟨38, 0⟩ := by
    rw [Cx.ext_iff2]; norm_num [fc]
  refine ⟨2 - Real.log (Real.log (66 / 25)) / Real.log 2,
    3 - Real.log (Real.log 38) / Real.log 2, ?_, ?_, ?_, ?_, ?_⟩
  · simp only [diverges, divergesLoop, fc_zero_left, absgt_zero, he1]
    norm_num [uintSize]
  · simp only [diverges, divergesLoop, fc_zero_left, absgt_zero, he2, hz2, he3]
    norm_num [uintSize]
  · simp only [divergez, divergezLoop, fc_zero_left, absgt_zero, he1, hz1]
    norm_num [uintSize, sqrt_sqabs_real]
  · simp only [divergez, divergezLoop, fc_zero_left, absgt_zero, he2, hz2, he3, hz3]
    norm_num [uintSize, sqrt_sqabs_real]
  · have hl2 : 0 < Real.log 2 := by linarith [log_two_gt_half]
    have hexp1 := Real.exp_one_gt_d9
    have hexp2 := Real.exp_one_lt_d9
    -- the smoothing term of `c1` is negative
    have ha : Real.log (66 / 25) < 1 := by
      rw [Real.log_lt_iff_lt_exp (by norm_num)]
      linarith
    have ha0 : 0 < Real.log (66 / 25) := Real.log_pos (by norm_num)
    have hA : Real.log (Real.log (66 / 25)) < 0 := Real.log_neg ha0 ha
    -- the smoothing term of `c2` exceeds 1
    have hb : (2 : ℝ) < Real.log 38 := by
      rw [Real.lt_log_iff_exp_lt (by norm_num)]
      have h : Real.exp 2 = Real.exp 1 ^ 2 := by
        rw [← Real.exp_nat_mul]; norm_num
      rw [h]
      nlinarith
    have hB : Real.log 2 < Real.log (Real.log 38) := Real.log_lt_log (by norm_num) hb
    have hA2 : Real.log (Real.log (66 / 25)) / Real.log 2 < 0 := div_neg_of_neg_of_pos hA hl2
    have hB2 : 1 < Real.log (Real.log 38) / Real.log 2 := by
      rw [lt_div_iff₀ hl2]
      linarith
    linarith

end SmoothedOrder

section Corner

variable {K : Type} [LinearOrderedField K]

/-- The pixel of row 0, column 128 stands for the corner `(min_x, min_y)` of
the extents. -/
theorem pixelCoord_corner (min_x min_y max_x max_y : K) :
    pixelCoord 0 128 min_x min_y max_x max_y = ⟨min_x, min_y⟩ := by
  rw [pixelCoord_eq, ratio_eq, Cx.ext_iff2]
  simp only [win_w, win_h]
  constructor <;> norm_num

end Corner

section Intensity

variable {K : Type} [LinearOrderedField K] [FloorRing K]

theorem truncToInt_of_nonneg (x : K) (hx : 0 ≤ x) : truncToInt x = ⌊x⌋ := by
  unfold truncToInt
  rw [if_pos hx]

theorem truncToInt_of_neg (x : K) (hx : x < 0) : truncToInt x = ⌈x⌉ := by
  unfold truncToInt
  rw [if_neg (not_le.2 hx)]

end Intensity

section IntensityReal


/-- The logarithm of `6771/2500 = 2.7084` lies between `0.996` and `1`. -/
theorem log_extra_bounds :
    (0.996 : ℝ) < Real.log (6771 / 2500) ∧ Real.log (6771 / 2500) < 1 := by
  have hexp1 := Real.exp_one_gt_d9
  have hexp2 := Real.exp_one_lt_d9
  constructor
  · rw [Real.lt_log_iff_exp_lt (by norm_num)]
    have h1 : Real.exp (0.996 : ℝ) = Real.exp 1 / Real.exp 0.004 := by
      rw [← Real.exp_sub]; norm_num
    have h2 : (1.004 : ℝ) ≤ Real.exp 0.004 := by
      have := Real.add_one_le_exp (0.004 : ℝ)
      linarith
    rw [h1, div_lt_iff₀ (by linarith)]
    nlinarith
  · rw [Real.log_lt_iff_lt_exp (by norm_num)]
    linarith

/-- The smoothing term of `c = -111/50` lies in `(-2/255, 0)`. -/
theorem smooth_term_extra :
    -(2 / 255 : ℝ) < Real.log (Real.log (6771 / 2500)) / Real.log 2 ∧
    Real.log (Real.log (6771 / 2500)) / Real.log 2 < 0 := by
  obtain ⟨h1, h2⟩ := log_extra_bounds
  have hl2 := Real.log_two_gt_d9
  have hpos : 0 < Real.log (6771 / 2500) := by linarith
  have h3 : 1 - (Real.log (6771 / 2500))⁻¹ ≤ Real.log (Real.log (6771 / 2500)) :=
    Real.one_sub_inv_le_log_of_pos hpos
  have h4 : (Real.log (6771 / 2500))⁻¹ < (0.996 : ℝ)⁻¹ :=
    inv_strictAnti₀ (by norm_num) h1
  constructor
  · rw [lt_div_iff₀ (by linarith)]
    norm_num at h4
    nlinarith
  · exact div_neg_of_neg_of_pos (Real.log_neg hpos h2) (by linarith)

/-- C6 (counterexample): over the reals, depth 2 and the pixel of row 0, column
128 with the corner `(-111/50, 0)`: `c = -2.22` escapes at counter 2 with
`|fc(c, c)| = 2.7084 < e`, the smoothed value `v` lies just above 2, so
`k * 255` lies in `(-1, 0)`.  `orbitColor` returns the byte 0, whereas
`floor(k * 255) & 0xFF` is 255. -/
theorem C6_counterexample :
    ∃ v : ℝ,
      divergez (⟨Real.log, fun z => Real.sqrt (sqabs z), Real.log 2⟩ : MathFns ℝ) 3 fc
        (pixelCoord 0 128 (-111 / 50 : ℝ) 0 (-11 / 50) 2) 2 = some v ∧
      0 < v ∧
      orbitColor (⟨Real.log, fun z => Real.sqrt (sqabs z), Real.log 2⟩ : MathFns ℝ) 3
        (⟨-61 / 50, 1, 1, 2⟩ : ZoomPoint ℝ) 0 128 (-111 / 50) 0 (-11 / 50) 2 =
        some ⟨128, 0, 0⟩ ∧
      (⌊(1 - v / ((2 : Nat) : ℝ)) * 255⌋ % 256).toNat = 255 := by
  obtain ⟨ht1, ht2⟩ := smooth_term_extra
  have hv : divergez (⟨Real.log, fun z => Real.sqrt (sqabs z), Real.log 2⟩ : MathFns ℝ) 3 fc
      (pixelCoord 0 128 (-111 / 50 : ℝ) 0 (-11 / 50) 2) 2 =
      some (2 - Real.log (Real.log (6771 / 2500)) / Real.log 2) := by
    have he : absgt (⟨-111 / 50, 0⟩ : Cx ℝ) 2 = true := by norm_num [absgt, sqabs]
    have hz : fc (⟨-111 / 50, 0⟩ : Cx ℝ) ⟨-111 / 50, 0⟩ = ⟨6771 / 2500, 0⟩ := by
      rw [Cx.ext_iff2]; norm_num [fc]
    rw [pixelCoord_corner]
    simp only [divergez, divergezLoop, fc_zero_left, absgt_zero, he, hz]
    norm_num [uintSize, sqrt_sqabs_real]
  have hk1 : -1 < (1 - (2 - Real.log (Real.log (6771 / 2500)) / Real.log 2) /
      ((2 : Nat) : ℝ)) * 255 := by
    push_cast
    linarith
  have hk2 : (1 - (2 - Real.log (Real.log (6771 / 2500)) / Real.log 2) /
      ((2 : Nat) : ℝ)) * 255 < 0 := by
    push_cast
    linarith
  refine ⟨_, hv, by linarith, ?_, ?_⟩
  · rw [orbitColor_of_divergez _ 3 ⟨-61 / 50, 1, 1, 2⟩ 0 128 _ _ _ _ _ hv,
      if_pos (by linarith)]
    have hc : ⌈(1 - (2 - Real.log (Real.log (6771 / 2500)) / Real.log 2) /
        ((2 : Nat) : ℝ)) * 255⌉ = 0 := by
      rw [Int.ceil_eq_iff]
      constructor
      · push_cast; linarith
      · push_cast; linarith
    simp only [intensity]
    rw [truncToInt_of_neg _ hk2, hc]
    rfl
  · have hf : ⌊(1 - (2 - Real.log (Real.log (6771 / 2500)) / Real.log 2) /
        ((2 : Nat) : ℝ)) * 255⌋ = -1 := by
      rw [Int.floor_eq_iff]
      constructor
      · push_cast; linarith
      · push_cast; linarith
    rw [hf]
    rfl

end IntensityReal

section WrapLemmas

variable {K : Type} [LinearOrderedField K]

/-- Reading a detected escape back into the orbit, for every bound (also the
largest `uint`, where the counter wraps): the loop entered with the value
`z_n`, all earlier orbit values being inside the radius, can only report the
first orbit value outside the radius, at a counter that passed the test
`i <= iters`. -/
theorem escapeLoop_detect (f : Cx K → Cx K → Cx K) (c : Cx K) (iters : Nat)
    (fuel i0 n i : Nat) (z : Cx K)
    (hprev : ∀ m, m < n → ¬ Escaped (orbit f c m))
    (h : escapeLoop f c iters fuel i0 (orbit f c n) = some (some (i, z))) :
    i ≤ iters ∧ ∃ k, n ≤ k ∧ z = orbit f c k ∧ FirstEscape f c k := by
  induction fuel generalizing i0 n with
  | zero => simp [escapeLoop] at h
  | succ fuel ih =>
    simp only [escapeLoop] at h
    by_cases hi : i0 ≤ iters
    · rw [if_pos hi] at h
      by_cases he : absgt (orbit f c n) 2 = true
      · rw [if_pos he] at h
        simp only [Option.some.injEq, Prod.mk.injEq] at h
        obtain ⟨h1, h2⟩ := h
        subst h1
        exact ⟨hi, n, le_refl n, h2.symm, (absgt_two_iff _).1 he, hprev⟩
      · rw [if_neg he] at h
        have hne : ¬ Escaped (orbit f c n) := fun hh => he ((absgt_two_iff _).2 hh)
        have hprev2 : ∀ m, m < n + 1 → ¬ Escaped (orbit f c m) := by
          intro m hm
          rcases Nat.lt_succ_iff_lt_or_eq.1 hm with e | e
          · exact hprev m e
          · rw [e]; exact hne
        obtain ⟨h1, k, h2, h3, h4⟩ := ih ((i0 + 1) % uintSize) (n + 1) hprev2 h
        exact ⟨h1, k, by omega, h3, h4⟩
    · rw [if_neg hi] at h
      simp at h

/-- More fuel does not change a result already returned. -/
theorem escapeLoop_mono (f : Cx K → Cx K → Cx K) (c : Cx K) (iters : Nat)
    (fuel d i : Nat) (z : Cx K) (r : Option (Nat × Cx K))
    (h : escapeLoop f c iters fuel i z = some r) :
    escapeLoop f c iters (fuel + d) i z = some r := by
  induction fuel generalizing i z with
  | zero => simp [escapeLoop] at h
  | succ fuel ih =>
    rw [Nat.add_right_comm]
    simp only [escapeLoop] at h ⊢
    by_cases hi : i ≤ iters
    · rw [if_pos hi] at h ⊢
      by_cases he : absgt z 2 = true
      · rw [if_pos he] at h ⊢
        exact h
      · rw [if_neg he] at h ⊢
        exact ih _ _ h
    · rw [if_neg hi] at h ⊢
      exact h

/-- With the largest bound the test `i <= iters` never fails: when no orbit
value lies outside the radius the loop does not return. -/
theorem escapeLoop_max_never (f : Cx K → Cx K → Cx K) (c : Cx K)
    (hnever : ∀ m, ¬ Escaped (orbit f c m)) (fuel i n : Nat) (hi : i < uintSize) :
    escapeLoop f c (uintSize - 1) fuel i (orbit f c n) = none := by
  induction fuel generalizing i n with
  | zero => rfl
  | succ fuel ih =>
    have he : absgt (orbit f c n) 2 = false := by
      cases h : absgt (orbit f c n) 2 with
      | false => rfl
      | true => exact absurd ((absgt_two_iff _).1 h) (hnever n)
    simp only [escapeLoop, he]
    rw [if_pos (by omega)]
    simpa using ih ((i + 1) % uintSize) (n + 1) (Nat.mod_lt _ (by norm_num [uintSize]))

/-- With the largest bound, a first escape at orbit index `k` is reported at
the wrapped counter `(i + (k - n)) mod 2^64`, where `i` is the counter at
which the loop is entered with `z_n`. -/
theorem escapeLoop_max_escape (f : Cx K → Cx K → Cx K) (c : Cx K) (k : Nat)
    (hk : FirstEscape f c k) (fuel n i : Nat) (hn : n ≤ k) (hi : i < uintSize)
    (hfuel : k - n < fuel) :
    escapeLoop f c (uintSize - 1) fuel i (orbit f c n) =
      some (some ((i + (k - n)) % uintSize, orbit f c k)) := by
  induction fuel generalizing n i with
  | zero => omega
  | succ fuel ih =>
    simp only [escapeLoop]
    rw [if_pos (by omega)]
    rcases Nat.eq_or_lt_of_le hn with e | e
    · subst e
      rw [if_pos ((absgt_two_iff _).2 hk.1)]
      simp [Nat.mod_eq_of_lt hi]
    · have he : ¬ absgt (orbit f c n) 2 = true := fun hh => hk.2 n e ((absgt_two_iff _).1 hh)
      rw [if_neg he]
      have := ih (n + 1) ((i + 1) % uintSize) (by omega)
        (Nat.mod_lt _ (by norm_num [uintSize])) (by omega)
      simp only [orbit] at this
      rw [this, Nat.mod_add_mod]
      have e2 : i + 1 + (k - (n + 1)) = i + (k - n) := by omega
      rw [e2]

end WrapLemmas

section ExactLoop

variable {K : Type} [LinearOrderedField K]

/-- A first escape never happens at index 0, since `z_0 = 0`. -/
theorem FirstEscape.pos {f : Cx K → Cx K → Cx K} {c : Cx K} {k : Nat}
    (h : FirstEscape f c k) : 1 ≤ k := by
  rcases Nat.eq_zero_or_pos k with e | e
  · rw [e] at h
    exact absurd h.1 not_escaped_zero
  · exact e

/-- Below the wrap-around of the counter `diverges` returns once the fuel
covers the `N + 1` evaluations of the loop condition. -/
theorem diverges_returns (f : Cx K → Cx K → Cx K) (c : Cx K)
    (N fuel : Nat) (hN : N + 1 < uintSize) (hfuel : N + 1 ≤ fuel) :
    ∃ r, diverges fuel f c N = some r := by
  rw [diverges_eq_map]
  obtain ⟨r, hr⟩ := escapeLoop_returns f c N hN fuel 0 ⟨0, 0⟩ (Nat.zero_le _) (by omega)
  rw [hr]
  exact ⟨_, rfl⟩

/-- The orbit of `c = -1` alternates between 0 and -1. -/
theorem orbit_neg_one (n : Nat) :
    orbit fc (⟨-1, 0⟩ : Cx K) n = ⟨0, 0⟩ ∨ orbit fc (⟨-1, 0⟩ : Cx K) n = ⟨-1, 0⟩ := by
  induction n with
  | zero => exact Or.inl rfl
  | succ n ih =>
    rcases ih with h | h
    · right
      simp only [orbit, h, fc_zero_left]
    · left
      simp only [orbit, h]
      rw [Cx.ext_iff2]
      simp [fc]

theorem not_escaped_orbit_neg_one (n : Nat) :
    ¬ Escaped (orbit fc (⟨-1, 0⟩ : Cx K) n) := by
  rcases orbit_neg_one (K := K) n with h | h
  · rw [h]; exact not_escaped_zero
  · rw [h]
    simp only [Escaped, sqabs]
    norm_num

/-- C12 (failing input): for `c = -1`, whose orbit `0, -1, 0, -1, ...` stays
inside the radius, and the largest bound `N = 2^64 - 1`, the loops of
`diverges` and `divergez` never terminate: no amount of fuel makes either
function return. -/
theorem C12_max_bound_loops_forever (M : MathFns K) (fuel : Nat) :
    diverges fuel fc (⟨-1, 0⟩ : Cx K) (uintSize - 1) = none ∧
    divergez M fuel fc (⟨-1, 0⟩ : Cx K) (uintSize - 1) = none := by
  have h := escapeLoop_max_never fc (⟨-1, 0⟩ : Cx K) not_escaped_orbit_neg_one fuel 1 0
    (by norm_num [uintSize])
  have h0 : escapeLoop fc (⟨-1, 0⟩ : Cx K) (uintSize - 1) fuel 1 ⟨0, 0⟩ = none := h
  rw [diverges_eq_map, divergez_eq_map, h0]
  exact ⟨rfl, rfl⟩

/-- A non-zero result of `diverges`, for every bound: the escape test
succeeded at counter `i ≤ N` on the first orbit value outside the radius. -/
theorem escapeLoop_of_diverges_ne_zero (f : Cx K → Cx K → Cx K) (c : Cx K)
    (N fuel i : Nat) (h : diverges fuel f c N = some i) (hi : i ≠ 0) :
    i ≤ N ∧ ∃ k, FirstEscape f c k ∧
      escapeLoop f c N fuel 1 ⟨0, 0⟩ = some (some (i, orbit f c k)) := by
  rw [diverges_eq_map] at h
  cases hr : escapeLoop f c N fuel 1 ⟨0, 0⟩ with
  | none => rw [hr] at h; simp at h
  | some r =>
    rw [hr] at h
    cases r with
    | none =>
      simp at h
      exact absurd h.symm hi
    | some p =>
      obtain ⟨j, z⟩ := p
      simp at h
      subst h
      have hr0 : escapeLoop f c N fuel 1 (orbit f c 0) = some (some (j, z)) := hr
      obtain ⟨h1, k, _, h3, h4⟩ :=
        escapeLoop_detect f c N fuel 1 0 j z (fun m hm => absurd hm (Nat.not_lt_zero m)) hr0
      exact ⟨h1, k, h4, by rw [h3]⟩

end ExactLoop

section SmoothedBounds


/-- Over the reals, for every bound: a non-zero result `i` of `diverges` is an
escape detected at counter `i ≤ N` on the first orbit value `z_k` outside the
radius, the extra application of `fc` gives a modulus `a > 2`, and `divergez`
returns `i - log(log a) / log 2`. -/
theorem divergez_real_detect (c : Cx ℝ) (N fuel i : Nat)
    (h : diverges fuel fc c N = some i) (hi : i ≠ 0) :
    i ≤ N ∧ ∃ k, FirstEscape fc c k ∧
      2 < Real.sqrt (sqabs (fc (orbit fc c k) c)) ∧
      divergez (⟨Real.log, fun z => Real.sqrt (sqabs z), Real.log 2⟩ : MathFns ℝ) fuel fc c N =
        some ((i : ℝ) -
          Real.log (Real.log (Real.sqrt (sqabs (fc (orbit fc c k) c)))) / Real.log 2) := by
  obtain ⟨h1, k, h2, h3⟩ := escapeLoop_of_diverges_ne_zero fc c N fuel i h hi
  refine ⟨h1, k, h2, modulus_extra_gt_two c k h2, ?_⟩
  rw [divergez_eq_map, h3]
  rfl

/-- C11: over the reals, for every `c`, every bound `N` and every fuel, the
two logarithms of `divergez` are only taken of strictly positive numbers: the
result is the same for every function `L` that agrees with the real logarithm
on the positive reals; and whenever an escape is detected at a counter `i`,
the value `z` produced by the extra iteration has `|z| > 2` and `log |z| > 0`. -/
theorem C11_logarithms_of_positive_numbers (c : Cx ℝ) (N fuel : Nat) (L : ℝ → ℝ)
    (hL : ∀ x, 0 < x → L x = Real.log x) :
    divergez (⟨L, fun z => Real.sqrt (sqabs z), Real.log 2⟩ : MathFns ℝ) fuel fc c N =
      divergez (⟨Real.log, fun z => Real.sqrt (sqabs z), Real.log 2⟩ : MathFns ℝ) fuel fc c N ∧
    ∀ i, diverges fuel fc c N = some i → i ≠ 0 →
      ∃ k, FirstEscape fc c k ∧
        2 < Real.sqrt (sqabs (fc (orbit fc c k) c)) ∧
        0 < Real.log (Real.sqrt (sqabs (fc (orbit fc c k) c))) ∧
        divergez (⟨Real.log, fun z => Real.sqrt (sqabs z), Real.log 2⟩ : MathFns ℝ) fuel fc
          c N = some ((i : ℝ) -
            Real.log (Real.log (Real.sqrt (sqabs (fc (orbit fc c k) c)))) / Real.log 2) := by
  constructor
  · rw [divergez_eq_map, divergez_eq_map]
    cases hr : escapeLoop fc c N fuel 1 ⟨0, 0⟩ with
    | none => rfl
    | some r =>
      cases r with
      | none => rfl
      | some p =>
        obtain ⟨j, z⟩ := p
        have hr0 : escapeLoop fc c N fuel 1 (orbit fc c 0) = some (some (j, z)) := hr
        obtain ⟨_, k, _, h3, h4⟩ :=
          escapeLoop_detect fc c N fuel 1 0 j z (fun m hm => absurd hm (Nat.not_lt_zero m)) hr0
        have ha := modulus_extra_gt_two c k h4
        rw [← h3] at ha
        have hla : 0 < Real.log (Real.sqrt (sqabs (fc z c))) := Real.log_pos (by linarith)
        have e1 : L (Real.sqrt (sqabs (fc z c))) = Real.log (Real.sqrt (sqabs (fc z c))) :=
          hL _ (by linarith)
        have e2 : L (Real.log (Real.sqrt (sqabs (fc z c)))) =
            Real.log (Real.log (Real.sqrt (sqabs (fc z c)))) := hL _ hla
        simp only [Option.map_some', e1, e2]
  · intro i h hi
    obtain ⟨_, k, h2, h3, h4⟩ := divergez_real_detect c N fuel i h hi
    exact ⟨k, h2, h3, Real.log_pos (by linarith), h4⟩

/-- C11 (witness): `c = 3`, `N = 5`, fuel 3, and a function that is 7 outside
the positive reals. -/
theorem C11_witness :
    (∀ x : ℝ, 0 < x → (fun y : ℝ => if 0 < y then Real.log y else 7) x = Real.log x) ∧
    (divergez (⟨fun y : ℝ => if 0 < y then Real.log y else 7,
          fun z => Real.sqrt (sqabs z), Real.log 2⟩ : MathFns ℝ) 3 fc ⟨3, 0⟩ 5 =
        divergez (⟨Real.log, fun z => Real.sqrt (sqabs z), Real.log 2⟩ : MathFns ℝ) 3 fc
          ⟨3, 0⟩ 5 ∧
      ∀ i, diverges 3 fc (⟨3, 0⟩ : Cx ℝ) 5 = some i → i ≠ 0 →
        ∃ k, FirstEscape fc (⟨3, 0⟩ : Cx ℝ) k ∧
          2 < Real.sqrt (sqabs (fc (orbit fc (⟨3, 0⟩ : Cx ℝ) k) ⟨3, 0⟩)) ∧
          0 < Real.log (Real.sqrt (sqabs (fc (orbit fc (⟨3, 0⟩ : Cx ℝ) k) ⟨3, 0⟩))) ∧
          divergez (⟨Real.log, fun z => Real.sqrt (sqabs z), Real.log 2⟩ : MathFns ℝ) 3 fc
            ⟨3, 0⟩ 5 = some ((i : ℝ) -
              Real.log (Real.log (Real.sqrt (sqabs (fc (orbit fc (⟨3, 0⟩ : Cx ℝ) k) ⟨3, 0⟩)))) /
                Real.log 2)) :=
  have hL : ∀ x : ℝ, 0 < x → (fun y : ℝ => if 0 < y then Real.log y else 7) x = Real.log x :=
    fun _ hx => if_pos hx
  ⟨hL, C11_logarithms_of_positive_numbers ⟨3, 0⟩ 5 3 _ hL⟩

/-- The largest value of the smoothing correction: `-log(log 2) / log 2 < 1`. -/
theorem neg_smooth_two_lt_one : -(Real.log (Real.log 2) / Real.log 2) < 1 := by
  have hl2 : 0 < Real.log 2 := by linarith [log_two_gt_half]
  have h3 : Real.log (1 / 2) < Real.log (Real.log 2) :=
    Real.log_lt_log (by norm_num) log_two_gt_half
  have h4 : Real.log (1 / 2 : ℝ) = -Real.log 2 := by
    rw [one_div, Real.log_inv]
  have : -1 < Real.log (Real.log 2) / Real.log 2 := by
    rw [lt_div_iff₀ hl2]
    linarith
  linarith

/-- C16: over the reals, for every `c` and every bound `N`, when an escape is
detected at loop counter `i` (`diverges` returns `i ≠ 0`, so `1 ≤ i ≤ N`), the
result `v` of `divergez` satisfies `v < i - log(log 2)/log 2 < i + 1 ≤ N + 1`,
and `k = 1 - v/N` (the factor of `orbitColor` for `depth = N`) exceeds `-1/N`. -/
theorem C16_smoothed_below_next_counter (c : Cx ℝ) (N fuel i : Nat)
    (h : diverges fuel fc c N = some i) (hi : i ≠ 0) :
    ∃ v : ℝ,
      divergez (⟨Real.log, fun z => Real.sqrt (sqabs z), Real.log 2⟩ : MathFns ℝ) fuel fc
        c N = some v ∧
      1 ≤ i ∧ i ≤ N ∧
      v < (i : ℝ) - Real.log (Real.log 2) / Real.log 2 ∧
      v < (i : ℝ) + 1 ∧ (i : ℝ) + 1 ≤ (N : ℝ) + 1 ∧
      1 - v / (N : ℝ) > -1 / (N : ℝ) := by
  obtain ⟨h1, k, _, ha, hv⟩ := divergez_real_detect c N fuel i h hi
  have hl2 : 0 < Real.log 2 := by linarith [log_two_gt_half]
  have hlog : Real.log 2 < Real.log (Real.sqrt (sqabs (fc (orbit fc c k) c))) :=
    Real.log_lt_log (by norm_num) ha
  have hloglog : Real.log (Real.log 2) <
      Real.log (Real.log (Real.sqrt (sqabs (fc (orbit fc c k) c)))) :=
    Real.log_lt_log hl2 hlog
  have hdiv : Real.log (Real.log 2) / Real.log 2 <
      Real.log (Real.log (Real.sqrt (sqabs (fc (orbit fc c k) c)))) / Real.log 2 :=
    div_lt_div_of_pos_right hloglog hl2
  have hone := neg_smooth_two_lt_one
  have hiN : (i : ℝ) ≤ (N : ℝ) := by exact_mod_cast h1
  have hNpos : (0 : ℝ) < (N : ℝ) := by
    have : 0 < N := by omega
    exact_mod_cast this
  refine ⟨_, hv, by omega, h1, by linarith, by linarith, by linarith, ?_⟩
  have hlt : ((i : ℝ) - Real.log (Real.log (Real.sqrt (sqabs (fc (orbit fc c k) c)))) /
      Real.log 2) / (N : ℝ) < ((N : ℝ) + 1) / (N : ℝ) :=
    div_lt_div_of_pos_right (by linarith) hNpos
  have hsplit : ((N : ℝ) + 1) / (N : ℝ) = 1 + 1 / (N : ℝ) := by
    field_simp
  have hneg : -1 / (N : ℝ) = -(1 / (N : ℝ)) := neg_div _ _
  rw [gt_iff_lt, hneg]
  linarith

/-- C16 (witness): `c = 3`, `N = 5`, fuel 3, escape detected at counter 2. -/
theorem C16_witness :
    (diverges 3 fc (⟨3, 0⟩ : Cx ℝ) 5 = some 2 ∧ 2 ≠ 0) ∧
    ∃ v : ℝ,
      divergez (⟨Real.log, fun z => Real.sqrt (sqabs z), Real.log 2⟩ : MathFns ℝ) 3 fc
        ⟨3, 0⟩ 5 = some v ∧
      1 ≤ 2 ∧ 2 ≤ 5 ∧
      v < ((2 : Nat) : ℝ) - Real.log (Real.log 2) / Real.log 2 ∧
      v < ((2 : Nat) : ℝ) + 1 ∧ ((2 : Nat) : ℝ) + 1 ≤ ((5 : Nat) : ℝ) + 1 ∧
      1 - v / ((5 : Nat) : ℝ) > -1 / ((5 : Nat) : ℝ) :=
  have h : diverges 3 fc (⟨3, 0⟩ : Cx ℝ) 5 = some 2 := by
    simp only [diverges, divergesLoop, fc_zero_left]
    norm_num [absgt, sqabs, uintSize]
  ⟨⟨h, by norm_num⟩, C16_smoothed_below_next_counter ⟨3, 0⟩ 5 3 2 h (by norm_num)⟩

end SmoothedBounds

section RegistryAndExtent

variable {K : Type} [LinearOrderedField K]

/-- C13: the registry `interestingPoints` has 13 entries, so it is non-empty;
every entry has radius `r > 0` and depth `> 0`; and every index `k` with
`0 ≤ k < len(interestingPoints)`, the range of `rand.Intn(len(...))`, selects
an entry. -/
theorem C13_registry_invariant :
    (interestingPoints : List (ZoomPoint K)).length = 13 ∧
    (interestingPoints : List (ZoomPoint K)) ≠ [] ∧
    (∀ zp ∈ (interestingPoints : List (ZoomPoint K)), 0 < zp.r ∧ 0 < zp.depth) ∧
    ∀ k, k < (interestingPoints : List (ZoomPoint K)).length →
      ∃ zp, (interestingPoints : List (ZoomPoint K))[k]? = some zp ∧
        0 < zp.r ∧ 0 < zp.depth := by
  have hall : ∀ zp ∈ (interestingPoints : List (ZoomPoint K)), 0 < zp.r ∧ 0 < zp.depth := by
    simp only [interestingPoints, List.forall_mem_cons, List.not_mem_nil, false_implies,
      implies_true, and_true]
    norm_num
  refine ⟨rfl, by simp [interestingPoints], hall, ?_⟩
  intro k hk
  refine ⟨(interestingPoints : List (ZoomPoint K))[k], List.getElem?_eq_getElem hk, ?_⟩
  exact hall _ (List.getElem_mem hk)

end RegistryAndExtent

section FuelIndependence

variable {K : Type} [LinearOrderedField K]

/-- More fuel does not change a result `divergez` already returned. -/
theorem divergez_mono (M : MathFns K) (f : Cx K → Cx K → Cx K) (c : Cx K)
    (N fuel d : Nat) (v : K) (h : divergez M fuel f c N = some v) :
    divergez M (fuel + d) f c N = some v := by
  rw [divergez_eq_map] at h ⊢
  cases hr : escapeLoop f c N fuel 1 ⟨0, 0⟩ with
  | none => rw [hr] at h; simp at h
  | some r =>
    rw [hr] at h
    rw [escapeLoop_mono f c N fuel d 1 ⟨0, 0⟩ r hr]
    exact h

/-- Two runs of `divergez` that both return, return the same value, whatever
their fuel. -/
theorem divergez_fuel_indep (M : MathFns K) (f : Cx K → Cx K → Cx K) (c : Cx K)
    (N fuel1 fuel2 : Nat) (v1 v2 : K) (h1 : divergez M fuel1 f c N = some v1)
    (h2 : divergez M fuel2 f c N = some v2) : v1 = v2 := by
  rcases le_total fuel1 fuel2 with hle | hle
  · obtain ⟨d, rfl⟩ := Nat.exists_eq_add_of_le hle
    have := divergez_mono M f c N fuel1 d v1 h1
    rw [this] at h2
    exact Option.some.inj h2
  · obtain ⟨d, rfl⟩ := Nat.exists_eq_add_of_le hle
    have := divergez_mono M f c N fuel2 d v2 h2
    rw [this] at h1
    exact (Option.some.inj h1).symm

end FuelIndependence

section Determinism

variable {K : Type} [LinearOrderedField K] [FloorRing K]

/-- Whatever `orbitColor` returns carries the pixel's own column and row. -/
theorem orbitColor_some_form (M : MathFns K) (fuel : Nat) (zp : ZoomPoint K) (i j : Int)
    (min_x min_y max_x max_y : K) (p : Pixel)
    (h : orbitColor M fuel zp i j min_x min_y max_x max_y = some p) :
    ∃ v, divergez M fuel fc (pixelCoord i j min_x min_y max_x max_y) zp.depth = some v ∧
      p = ⟨j, i, if v > 0 then intensity v zp.depth else 0⟩ := by
  cases hv : divergez M fuel fc (pixelCoord i j min_x min_y max_x max_y) zp.depth with
  | none =>
    rw [orbitColor_of_divergez_none M fuel zp i j min_x min_y max_x max_y hv] at h
    simp at h
  | some v =>
    rw [orbitColor_of_divergez M fuel zp i j min_x min_y max_x max_y v hv] at h
    exact ⟨v, rfl, (Option.some.inj h).symm⟩

/-- Two runs of `orbitColor` on the same pixel that both return, return the
same pixel, whatever their fuel. -/
theorem orbitColor_fuel_indep (M : MathFns K) (fuel1 fuel2 : Nat) (zp : ZoomPoint K)
    (i j : Int) (min_x min_y max_x max_y : K) (p1 p2 : Pixel)
    (h1 : orbitColor M fuel1 zp i j min_x min_y max_x max_y = some p1)
    (h2 : orbitColor M fuel2 zp i j min_x min_y max_x max_y = some p2) : p1 = p2 := by
  obtain ⟨v1, hv1, e1⟩ := orbitColor_some_form M fuel1 zp i j min_x min_y max_x max_y p1 h1
  obtain ⟨v2, hv2, e2⟩ := orbitColor_some_form M fuel2 zp i j min_x min_y max_x max_y p2 h2
  have := divergez_fuel_indep M fc _ zp.depth fuel1 fuel2 v1 v2 hv1 hv2
  rw [e1, e2, this]

/-- A raster returned by `renderMandelbrot` is `1024 × 768` and holds at each
`(x, y)` of the grid the grey `(b, b, b, 255)` of the byte `b` that
`orbitColor` returned for row `y`, column `x`. -/
theorem renderMandelbrot_some_spec (M : MathFns K) (fuel : Nat) (zp : ZoomPoint K)
    (img : Image) (h : renderMandelbrot M fuel zp = some img) :
    img.w = 1024 ∧ img.h = 768 ∧
      ∀ x y : Nat, x < 1024 → y < 768 →
        ∃ b, orbitColor M fuel zp (y : Int) (x : Int)
            (zp.cx - zp.r) (zp.cy - zp.r) (zp.cx + zp.r) (zp.cy + zp.r) = some ⟨x, y, b⟩ ∧
          img.colorAt x y = ⟨b, b, b, 255⟩ := by
  have hall : ∀ i j : Nat, i < win_h → j < win_w → ∃ b, orbitColor M fuel zp (i : Int) (j : Int)
      (zp.cx - zp.r) (zp.cy - zp.r) (zp.cx + zp.r) (zp.cy + zp.r) = some ⟨j, i, b⟩ := by
    intro i j hi hj
    cases hp : orbitColor M fuel zp (i : Int) (j : Int)
        (zp.cx - zp.r) (zp.cy - zp.r) (zp.cx + zp.r) (zp.cy + zp.r) with
    | none =>
      rw [renderMandelbrot_none M fuel zp i j hi hj hp] at h
      simp at h
    | some p =>
      obtain ⟨v, _, e⟩ := orbitColor_some_form M fuel zp _ _ _ _ _ _ p hp
      exact ⟨_, by rw [e]⟩
  obtain ⟨out, h1, hw, hh, hpix⟩ := renderRows_spec M fuel zp win_h (le_refl _) hall
  have hout : out = img := by
    unfold renderMandelbrot at h
    rw [h1] at h
    exact Option.some.inj h
  subst hout
  refine ⟨by rw [hw]; rfl, by rw [hh]; rfl, ?_⟩
  intro x y hx hy
  obtain ⟨b, hb, hp⟩ := hpix y x hy hx
  refine ⟨b, hb, ?_⟩
  have hin : 0 ≤ (x : Int) ∧ (x : Int) < out.w ∧ 0 ≤ (y : Int) ∧ (y : Int) < out.h := by
    rw [hw, hh]
    simp only [win_w, win_h]
    push_cast
    omega
  simp only [Image.colorAt, if_pos hin]
  exact hp

end Determinism

section Factor

variable {K : Type} [LinearOrderedField K]

/-- The factor `k = 1 - v/depth` of the escape branch, for `v > 0` and
`depth > 0`: it is below 1, and non-negative exactly when `v ≤ depth`. -/
theorem factor_bounds (v : K) (depth : Nat) (hpos : 0 < v) (hd : 0 < depth) :
    (1 - v / (depth : K)) * 255 < 255 ∧
    (v ≤ (depth : K) → 0 ≤ (1 - v / (depth : K)) * 255) ∧
    ((depth : K) < v → (1 - v / (depth : K)) * 255 < 0) := by
  have hdK : (0 : K) < (depth : K) := by exact_mod_cast hd
  have h0 : 0 < v / (depth : K) := div_pos hpos hdK
  refine ⟨by linarith, ?_, ?_⟩
  · intro hle
    have : v / (depth : K) ≤ 1 := (div_le_one hdK).2 hle
    nlinarith
  · intro hlt
    have : 1 < v / (depth : K) := (one_lt_div hdK).2 hlt
    nlinarith

end Factor

section IntensityRange

variable {K : Type} [LinearOrderedField K] [FloorRing K]

end IntensityRange

section IntensityRangeReal


/-- Over the reals, the pixel of row 0, column 128 with the corner `(3, 0)`:
`c = 3` escapes at counter 2 and the smoothed value is
`2 - log(log 12) / log 2`, which is positive. -/
theorem divergez_corner_three (depth : Nat) (hd : 2 ≤ depth) :
    divergez (⟨Real.log, fun z => Real.sqrt (sqabs z), Real.log 2⟩ : MathFns ℝ) 3 fc
        (pixelCoord 0 128 (3 : ℝ) 0 4 1) depth =
      some (2 - Real.log (Real.log 12) / Real.log 2) ∧
    0 < 2 - Real.log (Real.log 12) / Real.log 2 := by
  constructor
  · have he : absgt (⟨3, 0⟩ : Cx ℝ) 2 = true := by norm_num [absgt, sqabs]
    have hz : fc (⟨3, 0⟩ : Cx ℝ) ⟨3, 0⟩ = ⟨12, 0⟩ := by
      rw [Cx.ext_iff2]; norm_num [fc]
    have h1 : 1 ≤ depth := by omega
    have hm : (1 + 1) % uintSize = 2 := by norm_num [uintSize]
    rw [pixelCoord_corner]
    simp only [divergez, divergezLoop, fc_zero_left, absgt_zero, he, hz, if_pos h1, hm,
      if_pos hd]
    norm_num [sqrt_sqabs_real]
  · have := smooth_term_lt 12 (by norm_num) (by norm_num)
    linarith

end IntensityRangeReal

section RealAxisOrbit


/-! ## Orbits of real parameters -/

theorem orbit_real_im (c : ℝ) (n : Nat) : (orbit fc (⟨c, 0⟩ : Cx ℝ) n).im = 0 := by
  induction n with
  | zero => rfl
  | succ n ih => simp [orbit, fc, ih]

theorem orbit_real_re_succ (c : ℝ) (n : Nat) :
    (orbit fc (⟨c, 0⟩ : Cx ℝ) (n + 1)).re = (orbit fc (⟨c, 0⟩ : Cx ℝ) n).re ^ 2 + c := by
  simp only [orbit, fc, Cx.add_re, Cx.mul_re, orbit_real_im]
  ring

theorem orbit_real_eq (c : ℝ) (n : Nat) :
    orbit fc (⟨c, 0⟩ : Cx ℝ) n = ⟨(orbit fc (⟨c, 0⟩ : Cx ℝ) n).re, 0⟩ := by
  rw [Cx.ext_iff2]
  exact ⟨rfl, orbit_real_im c n⟩

theorem orbit_real_continuous (n : Nat) :
    Continuous (fun c : ℝ => (orbit fc (⟨c, 0⟩ : Cx ℝ) n).re) := by
  induction n with
  | zero => exact continuous_const
  | succ n ih =>
    have : (fun c : ℝ => (orbit fc (⟨c, 0⟩ : Cx ℝ) (n + 1)).re) =
        fun c : ℝ => (orbit fc (⟨c, 0⟩ : Cx ℝ) n).re ^ 2 + c := by
      funext c
      exact orbit_real_re_succ c n
    rw [this]
    exact (ih.pow 2).add continuous_id

theorem orbit_real_nonneg (c : ℝ) (hc : 0 ≤ c) (n : Nat) :
    0 ≤ (orbit fc (⟨c, 0⟩ : Cx ℝ) n).re := by
  cases n with
  | zero => exact le_refl _
  | succ n =>
    rw [orbit_real_re_succ]
    positivity

/-- For a real parameter `c ≥ 1/4` the orbit is non-decreasing. -/
theorem orbit_real_mono (c : ℝ) (hc : 1 / 4 ≤ c) (m n : Nat) (hmn : m ≤ n) :
    (orbit fc (⟨c, 0⟩ : Cx ℝ) m).re ≤ (orbit fc (⟨c, 0⟩ : Cx ℝ) n).re := by
  induction n with
  | zero =>
    have : m = 0 := by omega
    rw [this]
  | succ n ih =>
    rcases Nat.eq_or_lt_of_le hmn with e | e
    · rw [e]
    · have h1 := ih (by omega)
      have h2 : (orbit fc (⟨c, 0⟩ : Cx ℝ) n).re ≤ (orbit fc (⟨c, 0⟩ : Cx ℝ) (n + 1)).re := by
        rw [orbit_real_re_succ]
        nlinarith [sq_nonneg ((orbit fc (⟨c, 0⟩ : Cx ℝ) n).re - 1 / 2)]
      linarith

theorem orbit_quarter_le (n : Nat) : (orbit fc (⟨1 / 4, 0⟩ : Cx ℝ) n).re ≤ 1 / 2 := by
  induction n with
  | zero => show (0 : ℝ) ≤ 1 / 2; norm_num
  | succ n ih =>
    rw [orbit_real_re_succ]
    have h0 := orbit_real_nonneg (1 / 4) (by norm_num) n
    nlinarith

theorem orbit_three_ge (n : Nat) (hn : 1 ≤ n) : 3 ≤ (orbit fc (⟨3, 0⟩ : Cx ℝ) n).re := by
  obtain ⟨m, rfl⟩ : ∃ m, n = m + 1 := ⟨n - 1, by omega⟩
  rw [orbit_real_re_succ]
  nlinarith [sq_nonneg (orbit fc (⟨3, 0⟩ : Cx ℝ) m).re]

/-- For every `n ≥ 1` some real parameter in `[1/4, 3]` has `z_n = 2`
(intermediate value theorem). -/
theorem exists_orbit_eq_two (n : Nat) (hn : 1 ≤ n) :
    ∃ c : ℝ, 1 / 4 ≤ c ∧ c ≤ 3 ∧ (orbit fc (⟨c, 0⟩ : Cx ℝ) n).re = 2 := by
  have hcont := (orbit_real_continuous n).continuousOn (s := Set.Icc (1 / 4 : ℝ) 3)
  have hivt := intermediate_value_Icc (by norm_num : (1 / 4 : ℝ) ≤ 3) hcont
  have hmem : (2 : ℝ) ∈ Set.Icc ((orbit fc (⟨1 / 4, 0⟩ : Cx ℝ) n).re)
      ((orbit fc (⟨3, 0⟩ : Cx ℝ) n).re) := by
    constructor
    · linarith [orbit_quarter_le n]
    · linarith [orbit_three_ge n hn]
  obtain ⟨c, hc, hval⟩ := hivt hmem
  exact ⟨c, hc.1, hc.2, hval⟩

/-- For every `k ≥ 2` some real parameter `c` in `[1/4, 3]` has its first
escape exactly at orbit index `k`, with `z_k = 4 + c`. -/
theorem exists_firstEscape_at (k : Nat) (hk : 2 ≤ k) :
    ∃ c : ℝ, 1 / 4 ≤ c ∧ c ≤ 3 ∧ FirstEscape fc (⟨c, 0⟩ : Cx ℝ) k ∧
      orbit fc (⟨c, 0⟩ : Cx ℝ) k = ⟨4 + c, 0⟩ := by
  obtain ⟨n, rfl⟩ : ∃ n, k = n + 1 := ⟨k - 1, by omega⟩
  obtain ⟨c, hc1, hc2, hval⟩ := exists_orbit_eq_two n (by omega)
  have hk : orbit fc (⟨c, 0⟩ : Cx ℝ) (n + 1) = ⟨4 + c, 0⟩ := by
    rw [orbit_real_eq, orbit_real_re_succ, hval]
    norm_num
  refine ⟨c, hc1, hc2, ⟨?_, ?_⟩, hk⟩
  · rw [hk]
    simp only [Escaped, sqabs]
    nlinarith
  · intro m hm
    have h1 := orbit_real_mono c hc1 m n (by omega)
    have h0 := orbit_real_nonneg c (by linarith) m
    rw [hval] at h1
    rw [orbit_real_eq]
    simp only [Escaped, sqabs]
    nlinarith

/-- In exact real arithmetic (not in `float64`) there is a parameter `c` whose
orbit first leaves the radius at orbit index `2^64 - 1`.  With the largest bound
`N = 2^64 - 1` the escape is detected when the counter has wrapped to 0:
the exact `diverges` returns 0, the value it also uses for "never escapes",
while the exact `divergez` returns a non-zero (negative) smoothed value.
Whether a `float64` orbit does the same is not known. -/
theorem wrapped_escape_reported_as_zero_real :
    ∃ c : Cx ℝ, ∃ v : ℝ,
      FirstEscape fc c (uintSize - 1) ∧
      (∀ fuel, uintSize ≤ fuel →
        diverges fuel fc c (uintSize - 1) = some 0 ∧
        divergez (⟨Real.log, fun z => Real.sqrt (sqabs z), Real.log 2⟩ : MathFns ℝ) fuel fc c
          (uintSize - 1) = some v) ∧
      v < 0 := by
  obtain ⟨c, hc1, hc2, hfirst, hz⟩ := exists_firstEscape_at (uintSize - 1)
    (by norm_num [uintSize])
  have hval : fc (⟨4 + c, 0⟩ : Cx ℝ) ⟨c, 0⟩ = ⟨(4 + c) * (4 + c) + c, 0⟩ := by
    rw [Cx.ext_iff2]
    simp [fc]
  have hmod : Real.sqrt (sqabs (fc (⟨4 + c, 0⟩ : Cx ℝ) ⟨c, 0⟩)) = (4 + c) * (4 + c) + c := by
    rw [hval, sqrt_sqabs_real _ (by nlinarith)]
  have hbig : Real.exp 1 < (4 + c) * (4 + c) + c := by
    have := Real.exp_one_lt_d9
    nlinarith
  have hlog : 1 < Real.log ((4 + c) * (4 + c) + c) := by
    rw [Real.lt_log_iff_exp_lt (by nlinarith)]
    exact hbig
  have hloglog : 0 < Real.log (Real.log ((4 + c) * (4 + c) + c)) := Real.log_pos hlog
  have hl2 : 0 < Real.log 2 := by linarith [log_two_gt_half]
  refine ⟨⟨c, 0⟩, ((0 : Nat) : ℝ) -
    Real.log (Real.log ((4 + c) * (4 + c) + c)) / Real.log 2, hfirst, ?_, ?_⟩
  · intro fuel hfuel
    have hlt : uintSize - 1 - 0 < fuel := by
      have hpos : 0 < uintSize := by norm_num [uintSize]
      revert hfuel hpos
      generalize uintSize = U
      intro h1 h2
      omega
    have hloop := escapeLoop_max_escape fc (⟨c, 0⟩ : Cx ℝ) (uintSize - 1) hfirst fuel 0 1
      (Nat.zero_le _) (by norm_num [uintSize]) hlt
    have hcount : (1 + (uintSize - 1 - 0)) % uintSize = 0 := by norm_num [uintSize]
    rw [hcount, hz] at hloop
    have hloop0 : escapeLoop fc (⟨c, 0⟩ : Cx ℝ) (uintSize - 1) fuel 1 ⟨0, 0⟩ =
        some (some (0, ⟨4 + c, 0⟩)) := hloop
    rw [diverges_eq_map, divergez_eq_map, hloop0]
    refine ⟨rfl, ?_⟩
    simp only [Option.map_some', hmod]
  · have := div_pos hloglog hl2
    simp only [Nat.cast_zero]
    linarith

end RealAxisOrbit

section EscapeOnly

variable {K : Type} [LinearOrderedField K]

/-- A non-zero result of `divergez` comes from a detected escape: the orbit of
`c` has a first value outside the radius, and below the wrap-around of the
counter its index is smaller than the bound `N`. -/
theorem divergez_ne_zero_escapes (M : MathFns K) (c : Cx K) (N fuel : Nat) (v : K)
    (h : divergez M fuel fc c N = some v) (hv : v ≠ 0) :
    ∃ k, FirstEscape fc c k ∧ (N + 1 < uintSize → k < N) := by
  rw [divergez_eq_map] at h
  cases hr : escapeLoop fc c N fuel 1 ⟨0, 0⟩ with
  | none => rw [hr] at h; simp at h
  | some r =>
    rw [hr] at h
    cases r with
    | none =>
      simp at h
      exact absurd h.symm hv
    | some p =>
      obtain ⟨j, z⟩ := p
      have hr0 : escapeLoop fc c N fuel (0 + 1) (orbit fc c 0) = some (some (j, z)) := hr
      obtain ⟨_, k, _, _, h4⟩ :=
        escapeLoop_detect fc c N fuel 1 0 j z (fun m hm => absurd hm (Nat.not_lt_zero m)) hr0
      refine ⟨k, h4, ?_⟩
      intro hN
      rcases escapeLoop_sound fc c N hN fuel 0 _ hr0 with ⟨h1, _⟩ | ⟨k2, _, h2, _, h5, h6⟩
      · simp at h1
      · have hk2 : FirstEscape fc c k2 := ⟨h5, fun m hm => h6 m (Nat.zero_le _) hm⟩
        rw [h4.unique hk2]
        exact h2

end EscapeOnly

/-! ## The float64 embedding: the escape loop and the evaluators -/

section FloatEvaluation

/-- The test of `z_0 = 0` fails in float64. -/
theorem fl_absgt_zero :
    Fl.absgt ieee (⟨ieee.ofInt 0, ieee.ofInt 0⟩ : Cx F64) (ieee.ofInt 2) = false := by
  decide!

end FloatEvaluation

section FloatLoop

variable {F : Type}

theorem fl_divergesLoop_eq_escapeLoop (A : FloatOps F) (f : Cx F → Cx F → Cx F) (c : Cx F)
    (iters fuel i : Nat) (z : Cx F) :
    Fl.divergesLoop A f c iters fuel i z =
      (Fl.escapeLoop A f c iters fuel i z).map
        (fun r => match r with
          | none => 0
          | some p => p.1) := by
  induction fuel generalizing i z with
  | zero => rfl
  | succ n ih =>
    simp only [Fl.divergesLoop, Fl.escapeLoop]
    split_ifs <;> simp [ih]

theorem fl_divergezLoop_eq_escapeLoop (A : FloatOps F) (M : MathFns F)
    (f : Cx F → Cx F → Cx F) (c : Cx F) (iters fuel i : Nat) (z : Cx F) :
    Fl.divergezLoop A M f c iters fuel i z =
      (Fl.escapeLoop A f c iters fuel i z).map
        (fun r => match r with
          | none => A.ofInt 0
          | some p =>
            A.sub (A.ofUint p.1) (A.div (M.log (M.log (M.cabs (f p.2 c)))) M.ln2)) := by
  induction fuel generalizing i z with
  | zero => rfl
  | succ n ih =>
    simp only [Fl.divergezLoop, Fl.escapeLoop]
    split_ifs <;> simp [ih]

/-- What the float64 loop returns, in terms of the values it computes: entered
at counter `n + 1` with the value `z_n`, below the wrap-around of the counter. -/
theorem fl_escapeLoop_sound (A : FloatOps F) (f : Cx F → Cx F → Cx F) (c : Cx F)
    (iters : Nat) (hN : iters + 1 < uintSize) (fuel n : Nat) (r : Option (Nat × Cx F))
    (h : Fl.escapeLoop A f c iters fuel (n + 1) (Fl.orbit A f c n) = some r) :
    (r = none ∧ ∀ m, n ≤ m → m < iters →
        Fl.absgt A (Fl.orbit A f c m) (A.ofInt 2) = false) ∨
    (∃ k, n ≤ k ∧ k < iters ∧ r = some (k + 1, Fl.orbit A f c k) ∧
      Fl.absgt A (Fl.orbit A f c k) (A.ofInt 2) = true ∧
      ∀ m, n ≤ m → m < k → Fl.absgt A (Fl.orbit A f c m) (A.ofInt 2) = false) := by
  induction fuel generalizing n with
  | zero => simp [Fl.escapeLoop] at h
  | succ fuel ih =>
    simp only [Fl.escapeLoop] at h
    by_cases hi : n + 1 ≤ iters
    · rw [if_pos hi] at h
      by_cases he : Fl.absgt A (Fl.orbit A f c n) (A.ofInt 2) = true
      · rw [if_pos he] at h
        right
        refine ⟨n, le_refl n, hi, ?_, he, ?_⟩
        · injection h with h; exact h.symm
        · intro m h1 h2; omega
      · rw [if_neg he] at h
        have hmod : (n + 1 + 1) % uintSize = n + 1 + 1 := Nat.mod_eq_of_lt (by omega)
        rw [hmod] at h
        have hne : Fl.absgt A (Fl.orbit A f c n) (A.ofInt 2) = false := by
          simpa using he
        rcases ih (n + 1) h with ⟨h1, h2⟩ | ⟨k, h1, h2, h3, h4, h5⟩
        · left
          refine ⟨h1, ?_⟩
          intro m hm1 hm2
          rcases Nat.eq_or_lt_of_le hm1 with e | e
          · rw [← e]; exact hne
          · exact h2 m e hm2
        · right
          refine ⟨k, by omega, h2, h3, h4, ?_⟩
          intro m hm1 hm2
          rcases Nat.eq_or_lt_of_le hm1 with e | e
          · rw [← e]; exact hne
          · exact h5 m e hm2
    · rw [if_neg hi] at h
      left
      refine ⟨?_, ?_⟩
      · injection h with h; exact h.symm
      · intro m h1 h2; omega

/-- Below the wrap-around of the counter the float64 loop returns once the fuel
covers the remaining counter values. -/
theorem fl_escapeLoop_returns (A : FloatOps F) (f : Cx F → Cx F → Cx F) (c : Cx F)
    (iters : Nat) (hN : iters + 1 < uintSize) (fuel n : Nat) (z : Cx F) (hn : n ≤ iters)
    (hfuel : iters + 1 ≤ fuel + n) :
    ∃ r, Fl.escapeLoop A f c iters fuel (n + 1) z = some r := by
  induction fuel generalizing n z with
  | zero => omega
  | succ fuel ih =>
    simp only [Fl.escapeLoop]
    by_cases hi : n + 1 ≤ iters
    · rw [if_pos hi]
      by_cases he : Fl.absgt A z (A.ofInt 2) = true
      · rw [if_pos he]; exact ⟨_, rfl⟩
      · rw [if_neg he]
        have hmod : (n + 1 + 1) % uintSize = n + 1 + 1 := Nat.mod_eq_of_lt (by omega)
        rw [hmod]
        exact ih (n + 1) _ hi (by omega)
    · rw [if_neg hi]; exact ⟨_, rfl⟩

/-- More fuel does not change a result the float64 loop already returned. -/
theorem fl_escapeLoop_mono (A : FloatOps F) (f : Cx F → Cx F → Cx F) (c : Cx F)
    (iters fuel d i : Nat) (z : Cx F) (r : Option (Nat × Cx F))
    (h : Fl.escapeLoop A f c iters fuel i z = some r) :
    Fl.escapeLoop A f c iters (fuel + d) i z = some r := by
  induction fuel generalizing i z with
  | zero => simp [Fl.escapeLoop] at h
  | succ fuel ih =>
    rw [Nat.add_right_comm]
    simp only [Fl.escapeLoop] at h ⊢
    by_cases hi : i ≤ iters
    · rw [if_pos hi] at h ⊢
      by_cases he : Fl.absgt A z (A.ofInt 2) = true
      · rw [if_pos he] at h ⊢
        exact h
      · rw [if_neg he] at h ⊢
        exact ih _ _ h
    · rw [if_neg hi] at h ⊢
      exact h

/-- Two runs of the float64 loop that both return, return the same result. -/
theorem fl_escapeLoop_unique (A : FloatOps F) (f : Cx F → Cx F → Cx F) (c : Cx F)
    (iters fuel1 fuel2 i : Nat) (z : Cx F) (r1 r2 : Option (Nat × Cx F))
    (h1 : Fl.escapeLoop A f c iters fuel1 i z = some r1)
    (h2 : Fl.escapeLoop A f c iters fuel2 i z = some r2) : r1 = r2 := by
  rcases le_total fuel1 fuel2 with hle | hle
  · obtain ⟨d, rfl⟩ := Nat.exists_eq_add_of_le hle
    rw [fl_escapeLoop_mono A f c iters fuel1 d i z r1 h1] at h2
    exact Option.some.inj h2
  · obtain ⟨d, rfl⟩ := Nat.exists_eq_add_of_le hle
    rw [fl_escapeLoop_mono A f c iters fuel2 d i z r2 h2] at h1
    exact (Option.some.inj h1).symm

theorem fl_diverges_eq_map (A : FloatOps F) (f : Cx F → Cx F → Cx F) (c : Cx F)
    (iters fuel : Nat) :
    Fl.diverges A fuel f c iters =
      (Fl.escapeLoop A f c iters fuel 1 ⟨A.ofInt 0, A.ofInt 0⟩).map
        (fun r => match r with
          | none => 0
          | some p => p.1) :=
  fl_divergesLoop_eq_escapeLoop A f c iters fuel 1 _

theorem fl_divergez_eq_map (A : FloatOps F) (M : MathFns F) (f : Cx F → Cx F → Cx F)
    (c : Cx F) (iters fuel : Nat) :
    Fl.divergez A M fuel f c iters =
      (Fl.escapeLoop A f c iters fuel 1 ⟨A.ofInt 0, A.ofInt 0⟩).map
        (fun r => match r with
          | none => A.ofInt 0
          | some p =>
            A.sub (A.ofUint p.1) (A.div (M.log (M.log (M.cabs (f p.2 c)))) M.ln2)) :=
  fl_divergezLoop_eq_escapeLoop A M f c iters fuel 1 _

/-- The two outcomes of the float64 loop started as the program starts it. -/
theorem fl_escapeLoop_start (A : FloatOps F) (f : Cx F → Cx F → Cx F) (c : Cx F)
    (iters fuel : Nat) (hN : iters + 1 < uintSize) (hfuel : iters + 1 ≤ fuel) :
    (Fl.escapeLoop A f c iters fuel 1 ⟨A.ofInt 0, A.ofInt 0⟩ = some none ∧
      ∀ m, m < iters → Fl.absgt A (Fl.orbit A f c m) (A.ofInt 2) = false) ∨
    (∃ k, k < iters ∧
      Fl.escapeLoop A f c iters fuel 1 ⟨A.ofInt 0, A.ofInt 0⟩ =
        some (some (k + 1, Fl.orbit A f c k)) ∧
      Fl.FirstEscape A f c k) := by
  obtain ⟨r, hr⟩ := fl_escapeLoop_returns A f c iters hN fuel 0 ⟨A.ofInt 0, A.ofInt 0⟩
    (Nat.zero_le _) (by omega)
  have hr0 : Fl.escapeLoop A f c iters fuel (0 + 1) (Fl.orbit A f c 0) = some r := hr
  rcases fl_escapeLoop_sound A f c iters hN fuel 0 r hr0 with ⟨h1, h2⟩ | ⟨k, _, h2, h3, h4, h5⟩
  · left
    exact ⟨by rw [hr, h1], fun m hm => h2 m (Nat.zero_le _) hm⟩
  · right
    exact ⟨k, h2, by rw [hr, h3], h4, fun m hm => h5 m (Nat.zero_le _) hm⟩

end FloatLoop

section FloatEvaluator
variable {F : Type}

/-- Two runs of the float64 `diverges` that both return, return the same
counter. -/
theorem fl_diverges_unique (A : FloatOps F) (f : Cx F → Cx F → Cx F) (c : Cx F)
    (N fuel1 fuel2 r1 r2 : Nat) (h1 : Fl.diverges A fuel1 f c N = some r1)
    (h2 : Fl.diverges A fuel2 f c N = some r2) : r1 = r2 := by
  rw [fl_diverges_eq_map] at h1 h2
  cases e1 : Fl.escapeLoop A f c N fuel1 1 ⟨A.ofInt 0, A.ofInt 0⟩ with
  | none => rw [e1] at h1; simp at h1
  | some x1 =>
    cases e2 : Fl.escapeLoop A f c N fuel2 1 ⟨A.ofInt 0, A.ofInt 0⟩ with
    | none => rw [e2] at h2; simp at h2
    | some x2 =>
      have hx := fl_escapeLoop_unique A f c N fuel1 fuel2 1 _ x1 x2 e1 e2
      rw [e1] at h1
      rw [e2, ← hx] at h2
      rw [h1] at h2
      exact Option.some.inj h2

/-- C1 (as amended): below the wrap-around of the counter and with fuel for
every counter value, for every float64 arithmetic, `diverges` returns `k + 1`
for the least index `k < N` at which the program's own test `absgt(z_k, 2)`
succeeds on the value `z_k` the loop computed (`z_0 = 0`, `z_{n+1} = f(z_n, c)`,
every operation rounded), and the sentinel 0 when the test fails for every
`z_k` with `k < N`. -/
theorem C1_float_first_test_plus_one (A : FloatOps F) (f : Cx F → Cx F → Cx F) (c : Cx F)
    (N fuel : Nat) (hN : N + 1 < uintSize) (hfuel : N + 1 ≤ fuel) :
    (Fl.diverges A fuel f c N = some 0 ∧
      ∀ k, k < N → Fl.absgt A (Fl.orbit A f c k) (A.ofInt 2) = false) ∨
    (∃ k, k < N ∧ Fl.FirstEscape A f c k ∧ Fl.diverges A fuel f c N = some (k + 1)) := by
  rw [fl_diverges_eq_map]
  rcases fl_escapeLoop_start A f c N fuel hN hfuel with ⟨h1, h2⟩ | ⟨k, h1, h2, h3⟩
  · left; exact ⟨by rw [h1]; rfl, h2⟩
  · right; exact ⟨k, h1, h3, by rw [h2]; rfl⟩

/-- C17 (as amended): for every float64 arithmetic in which the test of
`z_0 = 0` fails, every `c` and `N < 2^64 - 1`, `diverges(fc, c, N)` is `k + 1`
for the least `k < N` at which the program's test `absgt(z_k, 2)` succeeds on
the computed value `z_k`, and 0 when there is no such `k`; the result is never
1, lies in `{0} ∪ [2, N]`, and is 0 for `N ≤ 1`. -/
theorem C17_float_diverges_exact (A : FloatOps F) (c : Cx F) (N fuel : Nat)
    (h0 : Fl.absgt A (⟨A.ofInt 0, A.ofInt 0⟩ : Cx F) (A.ofInt 2) = false)
    (hN : N + 1 < uintSize) (hfuel : N + 1 ≤ fuel) :
    ((∃ k, k < N ∧ Fl.FirstEscape A (Fl.fc A) c k ∧
        Fl.diverges A fuel (Fl.fc A) c N = some (k + 1)) ∨
      ((∀ k, k < N → Fl.absgt A (Fl.orbit A (Fl.fc A) c k) (A.ofInt 2) = false) ∧
        Fl.diverges A fuel (Fl.fc A) c N = some 0)) ∧
    (∃ r, Fl.diverges A fuel (Fl.fc A) c N = some r ∧ r ≠ 1 ∧ (r = 0 ∨ (2 ≤ r ∧ r ≤ N))) ∧
    (N ≤ 1 → Fl.diverges A fuel (Fl.fc A) c N = some 0) := by
  rw [fl_diverges_eq_map]
  rcases fl_escapeLoop_start A (Fl.fc A) c N fuel hN hfuel with ⟨h1, h2⟩ | ⟨k, h1, h2, h3⟩
  · rw [h1]
    exact ⟨Or.inr ⟨h2, rfl⟩, ⟨0, rfl, by omega, Or.inl rfl⟩, fun _ => rfl⟩
  · rw [h2]
    have hk : 1 ≤ k := by
      rcases Nat.eq_zero_or_pos k with e | e
      · rw [e] at h3
        have := h3.1
        rw [show Fl.orbit A (Fl.fc A) c 0 = ⟨A.ofInt 0, A.ofInt 0⟩ from rfl, h0] at this
        exact absurd this (by simp)
      · exact e
    refine ⟨Or.inl ⟨k, h1, h3, rfl⟩, ⟨k + 1, rfl, by omega, Or.inr ⟨by omega, by omega⟩⟩, ?_⟩
    intro hle
    omega

end FloatEvaluator

section FloatEvaluator2

/-- C1 (witness): IEEE binary64, `c = 3`, `N = 5`, fuel 6. -/
theorem C1_float_witness :
    (5 + 1 < uintSize ∧ 5 + 1 ≤ 6) ∧
    ((Fl.diverges ieee 6 (Fl.fc ieee) ⟨ieee.ofInt 3, ieee.ofInt 0⟩ 5 = some 0 ∧
        ∀ k, k < 5 →
          Fl.absgt ieee (Fl.orbit ieee (Fl.fc ieee) ⟨ieee.ofInt 3, ieee.ofInt 0⟩ k)
            (ieee.ofInt 2) = false) ∨
      (∃ k, k < 5 ∧ Fl.FirstEscape ieee (Fl.fc ieee) ⟨ieee.ofInt 3, ieee.ofInt 0⟩ k ∧
        Fl.diverges ieee 6 (Fl.fc ieee) ⟨ieee.ofInt 3, ieee.ofInt 0⟩ 5 = some (k + 1))) :=
  ⟨⟨by norm_num [uintSize], by norm_num⟩,
    C1_float_first_test_plus_one ieee (Fl.fc ieee) ⟨ieee.ofInt 3, ieee.ofInt 0⟩ 5 6
      (by norm_num [uintSize]) (by norm_num)⟩

/-- C1 (counterexample): in IEEE binary64, for `c = 3` and `N = 5` the value
`z_1 = 3` is the first with `|z_i| > 2` (`z_0 = 0` fails the test, `z_1` passes
it), so the first index is 1; `diverges` returns 2 and never 1. -/
theorem C1_float_counterexample :
    Fl.orbit ieee (Fl.fc ieee) ⟨ieee.ofInt 3, ieee.ofInt 0⟩ 1 =
      ⟨ieee.ofInt 3, ieee.ofInt 0⟩ ∧
    Fl.FirstEscape ieee (Fl.fc ieee) ⟨ieee.ofInt 3, ieee.ofInt 0⟩ 1 ∧
    Fl.diverges ieee 6 (Fl.fc ieee) ⟨ieee.ofInt 3, ieee.ofInt 0⟩ 5 = some 2 ∧
    ∀ fuel, Fl.diverges ieee fuel (Fl.fc ieee) ⟨ieee.ofInt 3, ieee.ofInt 0⟩ 5 ≠ some 1 := by
  have h2 : Fl.diverges ieee 6 (Fl.fc ieee) ⟨ieee.ofInt 3, ieee.ofInt 0⟩ 5 = some 2 := by
    decide!
  refine ⟨by decide!, ⟨by decide!, ?_⟩, h2, ?_⟩
  · intro m hm
    have : m = 0 := by omega
    subst this
    exact fl_absgt_zero
  · intro fuel h
    have := fl_diverges_unique ieee (Fl.fc ieee) _ 5 fuel 6 1 2 h h2
    omega

/-- C17 (witness): IEEE binary64, `c = 3`, `N = 5`, fuel 6. -/
theorem C17_float_witness :
    (Fl.absgt ieee (⟨ieee.ofInt 0, ieee.ofInt 0⟩ : Cx F64) (ieee.ofInt 2) = false ∧
      5 + 1 < uintSize ∧ 5 + 1 ≤ 6) ∧
    (((∃ k, k < 5 ∧ Fl.FirstEscape ieee (Fl.fc ieee) ⟨ieee.ofInt 3, ieee.ofInt 0⟩ k ∧
          Fl.diverges ieee 6 (Fl.fc ieee) ⟨ieee.ofInt 3, ieee.ofInt 0⟩ 5 = some (k + 1)) ∨
        ((∀ k, k < 5 →
            Fl.absgt ieee (Fl.orbit ieee (Fl.fc ieee) ⟨ieee.ofInt 3, ieee.ofInt 0⟩ k)
              (ieee.ofInt 2) = false) ∧
          Fl.diverges ieee 6 (Fl.fc ieee) ⟨ieee.ofInt 3, ieee.ofInt 0⟩ 5 = some 0)) ∧
      (∃ r, Fl.diverges ieee 6 (Fl.fc ieee) ⟨ieee.ofInt 3, ieee.ofInt 0⟩ 5 = some r ∧
        r ≠ 1 ∧ (r = 0 ∨ (2 ≤ r ∧ r ≤ 5))) ∧
      (5 ≤ 1 → Fl.diverges ieee 6 (Fl.fc ieee) ⟨ieee.ofInt 3, ieee.ofInt 0⟩ 5 = some 0)) :=
  ⟨⟨fl_absgt_zero, by norm_num [uintSize], by norm_num⟩,
    C17_float_diverges_exact ieee ⟨ieee.ofInt 3, ieee.ofInt 0⟩ 5 6 fl_absgt_zero
      (by norm_num [uintSize]) (by norm_num)⟩

/-- C17 (counterexample): `c = 2 + 2^-30 i` and `N = 5`.  In exact arithmetic
`z_1 = c` has `|z_1|^2 = 4 + 2^-60 > 4`, so the least `k` with `|z_k| > 2` is
1 and the claim gives `k + 1 = 2`.  In float64 `sqabs(c)` rounds to 4, the test
fails for `z_1`, and `diverges` returns 3. -/
theorem C17_float_counterexample :
    FirstEscape fc (⟨2, 1 / 2 ^ 30⟩ : Cx ℚ) 1 ∧
    F64.val (ieee.ofInt 2) = 2 ∧ F64.val (ieee.lit 1 (2 ^ 30)) = 1 / 2 ^ 30 ∧
    Fl.sqabs ieee ⟨ieee.ofInt 2, ieee.lit 1 (2 ^ 30)⟩ = ieee.ofInt 4 ∧
    Fl.diverges ieee 6 (Fl.fc ieee) ⟨ieee.ofInt 2, ieee.lit 1 (2 ^ 30)⟩ 5 = some 3 := by
  refine ⟨⟨?_, ?_⟩, ?_, ?_, by decide!, by decide!⟩
  · simp only [orbit, fc_zero_left]
    norm_num [Escaped, sqabs]
  · intro m hm
    have : m = 0 := by omega
    subst this
    exact not_escaped_zero
  · have : ieee.ofInt 2 = F64.fin (2 ^ 52) (-51) := by decide!
    rw [this]
    norm_num [F64.val]
  · have : ieee.lit 1 (2 ^ 30) = F64.fin (2 ^ 52) (-82) := by decide!
    rw [this]
    norm_num [F64.val]

end FloatEvaluator2

section FloatEscapeAtTwo

/-- In float64 the first application of `fc` to `z_0 = 0` returns `c` itself. -/
theorem fl_fc_zero (c : Cx F64) :
    Fl.fc ieee ⟨ieee.ofInt 0, ieee.ofInt 0⟩ c = c := by
  have hz : ieee.ofInt 0 = F64.fin 0 0 := by decide!
  have hm : ieee.mul (F64.fin 0 0) (F64.fin 0 0) = F64.fin 0 0 := by decide!
  have hs : ieee.sub (F64.fin 0 0) (F64.fin 0 0) = F64.fin 0 0 := by decide!
  have ha : ieee.add (F64.fin 0 0) (F64.fin 0 0) = F64.fin 0 0 := by decide!
  have hadd : ∀ x : F64, ieee.add (F64.fin 0 0) x = x := by
    intro x
    cases x with
    | fin m e => simp [ieee, F64.add]
    | inf b => rfl
    | nan => rfl
  obtain ⟨re, im⟩ := c
  simp only [Fl.fc, Fl.cadd, Fl.cmul, hz, hm, hs, ha, hadd]

/-- C3 (as amended): in IEEE binary64, for every `c` that passes the program's
own test `absgt(c, 2)` (the rounded `sqabs(c)` exceeds 4, which is stronger than
`|c| > 2`) and every bound `N ≥ 2`, the evaluator returns 2; for `N = 1` the
loop only tests `z_0 = 0` and returns 0. -/
theorem C3_float_escape_at_two (c : Cx F64) (N fuel : Nat)
    (hc : Fl.absgt ieee c (ieee.ofInt 2) = true) (hfuel : 2 ≤ fuel) :
    (2 ≤ N → Fl.diverges ieee fuel (Fl.fc ieee) c N = some 2) ∧
    (N = 1 → Fl.diverges ieee fuel (Fl.fc ieee) c N = some 0) := by
  obtain ⟨n, rfl⟩ : ∃ n, fuel = n + 2 := ⟨fuel - 2, by omega⟩
  have h2 : (1 + 1) % uintSize = 2 := by norm_num [uintSize]
  constructor
  · intro hN
    simp only [Fl.diverges, Fl.divergesLoop, fl_absgt_zero, fl_fc_zero, hc, h2]
    rw [if_pos (by omega)]
    simp
    omega
  · intro hN
    subst hN
    simp only [Fl.diverges, Fl.divergesLoop, fl_absgt_zero, fl_fc_zero, hc, h2]
    simp

/-- C3 (witness): IEEE binary64, `c = 3`, fuel 2. -/
theorem C3_float_witness :
    (Fl.absgt ieee (⟨ieee.ofInt 3, ieee.ofInt 0⟩ : Cx F64) (ieee.ofInt 2) = true ∧ 2 ≤ 2) ∧
    ((2 ≤ 2 → Fl.diverges ieee 2 (Fl.fc ieee) ⟨ieee.ofInt 3, ieee.ofInt 0⟩ 2 = some 2) ∧
      (2 = 1 → Fl.diverges ieee 2 (Fl.fc ieee) ⟨ieee.ofInt 3, ieee.ofInt 0⟩ 2 = some 0)) :=
  have hc : Fl.absgt ieee (⟨ieee.ofInt 3, ieee.ofInt 0⟩ : Cx F64) (ieee.ofInt 2) = true := by
    decide!
  ⟨⟨hc, le_refl 2⟩, C3_float_escape_at_two ⟨ieee.ofInt 3, ieee.ofInt 0⟩ 2 2 hc (le_refl 2)⟩

/-- C3 (counterexample): in IEEE binary64, `c = 3` has `|c| > 2` and `N = 1 > 0`,
yet the evaluator returns the sentinel 0 and nothing else; and
`c = 2 + 2^-30 i` has `|c|^2 = 4 + 2^-60 > 4` and `N = 5`, yet the evaluator
returns 3, which exceeds 2. -/
theorem C3_float_counterexample :
    (F64.val (ieee.ofInt 3) = 3 ∧
      Fl.diverges ieee 2 (Fl.fc ieee) ⟨ieee.ofInt 3, ieee.ofInt 0⟩ 1 = some 0 ∧
      ∀ fuel r, Fl.diverges ieee fuel (Fl.fc ieee) ⟨ieee.ofInt 3, ieee.ofInt 0⟩ 1 = some r →
        r = 0) ∧
    ((2 : ℚ) * 2 < F64.val (ieee.ofInt 2) * F64.val (ieee.ofInt 2) +
        F64.val (ieee.lit 1 (2 ^ 30)) * F64.val (ieee.lit 1 (2 ^ 30)) ∧
      Fl.diverges ieee 6 (Fl.fc ieee) ⟨ieee.ofInt 2, ieee.lit 1 (2 ^ 30)⟩ 5 = some 3) := by
  have h1 : Fl.diverges ieee 2 (Fl.fc ieee) ⟨ieee.ofInt 3, ieee.ofInt 0⟩ 1 = some 0 := by
    decide!
  refine ⟨⟨?_, h1, ?_⟩, ?_, by decide!⟩
  · have : ieee.ofInt 3 = F64.fin (3 * 2 ^ 51) (-51) := by decide!
    rw [this]
    norm_num [F64.val]
  · intro fuel r h
    exact fl_diverges_unique ieee (Fl.fc ieee) _ 1 fuel 2 r 0 h h1
  · have e2 : ieee.ofInt 2 = F64.fin (2 ^ 52) (-51) := by decide!
    have e3 : ieee.lit 1 (2 ^ 30) = F64.fin (2 ^ 52) (-82) := by decide!
    rw [e2, e3]
    norm_num [F64.val]

end FloatEscapeAtTwo

/-! ## The float64 embedding: rendering with the package-level state -/

section FloatRender
variable {F : Type}

/-- Two runs of the float64 `divergez` that both return, return the same
value. -/
theorem fl_divergez_unique (A : FloatOps F) (M : MathFns F) (f : Cx F → Cx F → Cx F)
    (c : Cx F) (N fuel1 fuel2 : Nat) (v1 v2 : F)
    (h1 : Fl.divergez A M fuel1 f c N = some v1)
    (h2 : Fl.divergez A M fuel2 f c N = some v2) : v1 = v2 := by
  rw [fl_divergez_eq_map] at h1 h2
  cases e1 : Fl.escapeLoop A f c N fuel1 1 ⟨A.ofInt 0, A.ofInt 0⟩ with
  | none => rw [e1] at h1; simp at h1
  | some x1 =>
    cases e2 : Fl.escapeLoop A f c N fuel2 1 ⟨A.ofInt 0, A.ofInt 0⟩ with
    | none => rw [e2] at h2; simp at h2
    | some x2 =>
      have hx := fl_escapeLoop_unique A f c N fuel1 fuel2 1 _ x1 x2 e1 e2
      rw [e1] at h1
      rw [e2, ← hx] at h2
      rw [h1] at h2
      exact Option.some.inj h2

/-- A monadic left fold over a list extended by one element returns only when
the fold over the list and the last step both return. -/
theorem foldlM_snoc_some {α β : Type} (f : β → α → Option β) (l : List α) (a : α) (b r : β)
    (h : (l ++ [a]).foldlM f b = some r) :
    ∃ s, l.foldlM f b = some s ∧ f s a = some r := by
  rw [List.foldlM_append] at h
  cases hs : l.foldlM f b with
  | none => rw [hs] at h; simp at h
  | some s =>
    rw [hs] at h
    refine ⟨s, rfl, ?_⟩
    simpa using h

/-- What `orbitColor` returns: the package-level variables unchanged, and a
pixel carrying its own column and row and a byte computed from the value of
`divergez` and `zp.depth`. -/
theorem fl_orbitColor_some (A : FloatOps F) (M : MathFns F) (fuel : Nat) (g : Globals F)
    (i j : Int) (min_x min_y max_x max_y : F) (p : Pixel) (g2 : Globals F)
    (h : Fl.orbitColor A M fuel g i j min_x min_y max_x max_y = some (p, g2)) :
    g2 = g ∧
    ∃ v, Fl.divergez A M fuel (Fl.fc A) (Fl.pixelCoord A i j min_x min_y max_x max_y)
        g.zp.depth = some v ∧
      p = ⟨j, i, if A.gt v (A.ofInt 0) = true then Fl.intensity A v g.zp.depth else 0⟩ := by
  unfold Fl.orbitColor at h
  cases hv : Fl.divergez A M fuel (Fl.fc A) (Fl.pixelCoord A i j min_x min_y max_x max_y)
      g.zp.depth with
  | none => rw [hv] at h; simp at h
  | some v =>
    rw [hv] at h
    by_cases hg : A.gt v (A.ofInt 0) = true
    · simp only [hg, if_true, Option.some.injEq, Prod.mk.injEq] at h
      exact ⟨h.2.symm, v, rfl, by rw [if_pos hg]; exact h.1.symm⟩
    · simp only [hg, Bool.false_eq_true, if_false, Option.some.injEq, Prod.mk.injEq] at h
      exact ⟨h.2.symm, v, rfl, by rw [if_neg hg]; exact h.1.symm⟩

/-- The pixel `orbitColor` returns depends on the package-level variables
only through `zp`, and not on the fuel. -/
theorem fl_orbitColor_unique (A : FloatOps F) (M : MathFns F) (fuel1 fuel2 : Nat)
    (g1 g2 : Globals F) (hzp : g1.zp = g2.zp) (i j : Int) (min_x min_y max_x max_y : F)
    (p1 p2 : Pixel) (s1 s2 : Globals F)
    (h1 : Fl.orbitColor A M fuel1 g1 i j min_x min_y max_x max_y = some (p1, s1))
    (h2 : Fl.orbitColor A M fuel2 g2 i j min_x min_y max_x max_y = some (p2, s2)) :
    p1 = p2 := by
  obtain ⟨_, v1, hv1, e1⟩ := fl_orbitColor_some A M fuel1 g1 i j _ _ _ _ p1 s1 h1
  obtain ⟨_, v2, hv2, e2⟩ := fl_orbitColor_some A M fuel2 g2 i j _ _ _ _ p2 s2 h2
  rw [hzp] at hv1 e1
  have := fl_divergez_unique A M (Fl.fc A) _ g2.zp.depth fuel1 fuel2 v1 v2 hv1 hv2
  rw [e1, e2, this]

/-- One row of the raster: when the inner loop returns, the package-level
variables are unchanged, only row `i` was written, and each sample of the row
is the grey of the byte `orbitColor` returned for that pixel. -/
theorem fl_renderRow_some (A : FloatOps F) (M : MathFns F) (fuel : Nat)
    (min_x min_y max_x max_y : F) (i : Nat) (img : Image) (g : Globals F)
    (hi : (i : Int) < img.h) (n : Nat) (hn : (n : Int) ≤ img.w) (out : Image)
    (g2 : Globals F)
    (h : (List.range n).foldlM (Fl.renderStep A M fuel min_x min_y max_x max_y i) (img, g) =
      some (out, g2)) :
    g2 = g ∧ out.w = img.w ∧ out.h = img.h ∧
      (∀ x y : Int, (y ≠ (i : Int) ∨ x < 0 ∨ (n : Int) ≤ x) → out.pix x y = img.pix x y) ∧
      (∀ j : Nat, j < n → ∃ b,
        Fl.orbitColor A M fuel g (i : Int) (j : Int) min_x min_y max_x max_y =
          some (⟨j, i, b⟩, g) ∧
        out.pix j i = ⟨b, b, b, 255⟩) := by
  induction n generalizing out g2 with
  | zero =>
    simp only [List.range_zero, List.foldlM_nil] at h
    have h2 := Option.some.inj h
    have e1 : img = out := congrArg Prod.fst h2
    have e2 : g = g2 := congrArg Prod.snd h2
    subst e1 e2
    exact ⟨rfl, rfl, rfl, fun _ _ _ => rfl, fun j hj => absurd hj (Nat.not_lt_zero j)⟩
  | succ n ih =>
    rw [List.range_succ] at h
    obtain ⟨s, hmid, hstep⟩ := foldlM_snoc_some _ _ _ _ _ h
    obtain ⟨mid, gm⟩ := s
    obtain ⟨hg, hw, hh, hframe, hpix⟩ := ih (by push_cast at hn; omega) mid gm hmid
    subst hg
    simp only [Fl.renderStep] at hstep
    cases hp : Fl.orbitColor A M fuel gm (i : Int) (n : Int) min_x min_y max_x max_y with
    | none => rw [hp] at hstep; simp at hstep
    | some q =>
        obtain ⟨p, gq⟩ := q
        rw [hp] at hstep
        obtain ⟨hgq, v, _, hpe⟩ := fl_orbitColor_some A M fuel gm _ _ _ _ _ _ p gq hp
        subst hgq
        simp only [Option.some.injEq, Prod.mk.injEq] at hstep
        obtain ⟨hout, hg2⟩ := hstep
        have hpx : p.x = (n : Int) := by rw [hpe]
        have hpy : p.y = (i : Int) := by rw [hpe]
        have hin : 0 ≤ (n : Int) ∧ (n : Int) < mid.w ∧ 0 ≤ (i : Int) ∧ (i : Int) < mid.h := by
          rw [hw, hh]; push_cast at hn; omega
        have hset := Image.set_of_in mid n i ⟨p.col, p.col, p.col, 255⟩ hin
        rw [setPixel, hpx, hpy, hset] at hout
        subst hout
        refine ⟨hg2.symm, hw, hh, ?_, ?_⟩
        · intro x y hxy
          have hne : ¬ (x = (n : Int) ∧ y = (i : Int)) := by
            push_cast at hxy; omega
          simp only [if_neg hne]
          exact hframe x y (by push_cast at hxy; omega)
        · intro j hj
          by_cases hjn : j = n
          · subst hjn
            refine ⟨p.col, ?_, by simp⟩
            rw [hp, hpe]
          · obtain ⟨b2, hb2, hp2⟩ := hpix j (by omega)
            refine ⟨b2, hb2, ?_⟩
            have hne : ¬ ((j : Int) = (n : Int)) := by omega
            simp only [hne, false_and, if_false]
            exact hp2

/-- The rows of the raster: when the outer loop returns after `m` rows, the
package-level variables are unchanged and each sample of these rows is the
grey of the byte `orbitColor` returned for that pixel. -/
theorem fl_renderRows_some (A : FloatOps F) (M : MathFns F) (fuel : Nat)
    (min_x min_y max_x max_y : F) (g : Globals F) (m : Nat) (hm : m ≤ win_h)
    (out : Image) (g2 : Globals F)
    (h : (List.range m).foldlM (Fl.renderRow A M fuel min_x min_y max_x max_y)
      (newRGBA (win_w : Int) (win_h : Int), g) = some (out, g2)) :
    g2 = g ∧ out.w = (win_w : Int) ∧ out.h = (win_h : Int) ∧
      (∀ i j : Nat, i < m → j < win_w → ∃ b,
        Fl.orbitColor A M fuel g (i : Int) (j : Int) min_x min_y max_x max_y =
          some (⟨j, i, b⟩, g) ∧
        out.pix j i = ⟨b, b, b, 255⟩) := by
  induction m generalizing out g2 with
  | zero =>
    simp only [List.range_zero, List.foldlM_nil] at h
    have h2 := Option.some.inj h
    have e1 : newRGBA (win_w : Int) (win_h : Int) = out := congrArg Prod.fst h2
    have e2 : g = g2 := congrArg Prod.snd h2
    subst e1 e2
    exact ⟨rfl, rfl, rfl, fun i j hi => absurd hi (Nat.not_lt_zero i)⟩
  | succ m ih =>
    rw [List.range_succ] at h
    obtain ⟨s, hmid, hrow⟩ := foldlM_snoc_some _ _ _ _ _ h
    obtain ⟨mid, gm⟩ := s
    obtain ⟨hg, hw, hh, hpix⟩ := ih (by omega) mid gm hmid
    subst hg
    simp only [Fl.renderRow] at hrow
    obtain ⟨hg2, hw2, hh2, hframe, hrowpix⟩ :=
      fl_renderRow_some A M fuel min_x min_y max_x max_y m mid gm
        (by rw [hh]; exact_mod_cast (by omega : m < win_h)) win_w (by rw [hw]) out g2 hrow
    refine ⟨hg2, by rw [hw2, hw], by rw [hh2, hh], ?_⟩
    intro i j hi hj
    by_cases him : i = m
    · subst him
      exact hrowpix j hj
    · obtain ⟨b, hb, hp⟩ := hpix i j (by omega) hj
      refine ⟨b, hb, ?_⟩
      rw [hframe j i (Or.inl (by omega))]
      exact hp

end FloatRender

section FloatRender2
variable {F : Type}

/-- A monadic left fold returns when each step returns on every state
satisfying an invariant that the steps preserve. -/
theorem foldlM_some_inv {α β : Type} (P : β → Prop) (f : β → α → Option β) (l : List α)
    (hstep : ∀ s a, P s → ∃ s2, f s a = some s2 ∧ P s2) (b : β) (hb : P b) :
    ∃ r, l.foldlM f b = some r ∧ P r := by
  induction l generalizing b with
  | nil => exact ⟨b, rfl, hb⟩
  | cons a l ih =>
    obtain ⟨s2, h2, hP⟩ := hstep b a hb
    obtain ⟨r, hr, hPr⟩ := ih s2 hP
    refine ⟨r, ?_, hPr⟩
    rw [List.foldlM_cons, h2]
    exact hr

/-- The float64 `divergez` returns: below the wrap of the counter, every fuel
of at least `iters + 1` gives a value. -/
theorem fl_divergez_returns (A : FloatOps F) (M : MathFns F) (f : Cx F → Cx F → Cx F)
    (c : Cx F) (iters fuel : Nat) (hN : iters + 1 < uintSize) (hfuel : iters + 1 ≤ fuel) :
    ∃ v, Fl.divergez A M fuel f c iters = some v := by
  obtain ⟨r, hr⟩ := fl_escapeLoop_returns A f c iters hN fuel 0 ⟨A.ofInt 0, A.ofInt 0⟩
    (Nat.zero_le _) (by omega)
  rw [fl_divergez_eq_map]
  have hr2 : Fl.escapeLoop A f c iters fuel 1 ⟨A.ofInt 0, A.ofInt 0⟩ = some r := hr
  rw [hr2]
  exact ⟨_, rfl⟩

/-- The float64 `orbitColor` returns a pixel and hands the package-level
variables back unchanged. -/
theorem fl_orbitColor_returns (A : FloatOps F) (M : MathFns F) (fuel : Nat) (g : Globals F)
    (i j : Int) (min_x min_y max_x max_y : F) (hN : g.zp.depth + 1 < uintSize)
    (hfuel : g.zp.depth + 1 ≤ fuel) :
    ∃ p, Fl.orbitColor A M fuel g i j min_x min_y max_x max_y = some (p, g) := by
  obtain ⟨v, hv⟩ := fl_divergez_returns A M (Fl.fc A)
    (Fl.pixelCoord A i j min_x min_y max_x max_y) g.zp.depth fuel hN hfuel
  unfold Fl.orbitColor
  rw [hv]
  by_cases hg : A.gt v (A.ofInt 0) = true
  · exact ⟨⟨j, i, Fl.intensity A v g.zp.depth⟩, by simp only [hg, if_true]⟩
  · exact ⟨⟨j, i, 0⟩, by simp only [hg, Bool.false_eq_true, if_false]⟩

/-- The float64 `renderMandelbrot` returns: for a depth below the wrap of the
counter, every fuel of at least `depth + 1` gives a raster, and the
package-level variables are handed back unchanged. -/
theorem fl_renderMandelbrot_returns (A : FloatOps F) (M : MathFns F) (fuel : Nat)
    (g : Globals F) (hN : g.zp.depth + 1 < uintSize) (hfuel : g.zp.depth + 1 ≤ fuel) :
    ∃ img, Fl.renderMandelbrot A M fuel g = some (img, g) := by
  have hstep : ∀ (i : Nat) (s : Image × Globals F) (j : Nat), s.2 = g →
      ∃ s2, Fl.renderStep A M fuel (A.sub g.zp.cx g.zp.r) (A.sub g.zp.cy g.zp.r)
        (A.add g.zp.cx g.zp.r) (A.add g.zp.cy g.zp.r) i s j = some s2 ∧ s2.2 = g := by
    intro i s j hs
    obtain ⟨p, hp⟩ := fl_orbitColor_returns A M fuel g (i : Int) (j : Int)
      (A.sub g.zp.cx g.zp.r) (A.sub g.zp.cy g.zp.r)
      (A.add g.zp.cx g.zp.r) (A.add g.zp.cy g.zp.r) hN hfuel
    unfold Fl.renderStep
    rw [hs, hp]
    exact ⟨_, rfl, rfl⟩
  have hrow : ∀ (s : Image × Globals F) (i : Nat), s.2 = g →
      ∃ s2, Fl.renderRow A M fuel (A.sub g.zp.cx g.zp.r) (A.sub g.zp.cy g.zp.r)
        (A.add g.zp.cx g.zp.r) (A.add g.zp.cy g.zp.r) s i = some s2 ∧ s2.2 = g := by
    intro s i hs
    exact foldlM_some_inv (fun s => s.2 = g) _ _ (hstep i) s hs
  obtain ⟨r, hr, hP⟩ := foldlM_some_inv (fun s => s.2 = g) _ (List.range win_h) hrow
    (newRGBA (win_w : Int) (win_h : Int), g) rfl
  obtain ⟨img, g2⟩ := r
  refine ⟨img, ?_⟩
  unfold Fl.renderMandelbrot
  rw [hr]
  have : g2 = g := hP
  rw [this]

/-- What a returned raster holds: the package-level variables are handed back
unchanged, the raster is 1024 by 768, and the colour at `(x, y)` is the grey
of the byte computed from the value of `divergez` at the pixel's own
coordinate and from `zp.depth`. -/
theorem fl_renderMandelbrot_some (A : FloatOps F) (M : MathFns F) (fuel : Nat)
    (g : Globals F) (img : Image) (g2 : Globals F)
    (h : Fl.renderMandelbrot A M fuel g = some (img, g2)) :
    g2 = g ∧ img.w = 1024 ∧ img.h = 768 ∧
      ∀ x y : Nat, x < 1024 → y < 768 → ∃ v,
        Fl.divergez A M fuel (Fl.fc A)
          (Fl.pixelCoord A (y : Int) (x : Int) (A.sub g.zp.cx g.zp.r) (A.sub g.zp.cy g.zp.r)
            (A.add g.zp.cx g.zp.r) (A.add g.zp.cy g.zp.r)) g.zp.depth = some v ∧
        img.colorAt x y =
          (if A.gt v (A.ofInt 0) = true then
            (⟨Fl.intensity A v g.zp.depth, Fl.intensity A v g.zp.depth,
              Fl.intensity A v g.zp.depth, 255⟩ : RGBA)
          else ⟨0, 0, 0, 255⟩) := by
  unfold Fl.renderMandelbrot at h
  obtain ⟨hg, hw, hh, hpix⟩ := fl_renderRows_some A M fuel (A.sub g.zp.cx g.zp.r)
    (A.sub g.zp.cy g.zp.r) (A.add g.zp.cx g.zp.r) (A.add g.zp.cy g.zp.r) g win_h (le_refl _)
    img g2 h
  refine ⟨hg, by rw [hw]; rfl, by rw [hh]; rfl, ?_⟩
  intro x y hx hy
  obtain ⟨b, hb, hp⟩ := hpix y x hy hx
  obtain ⟨_, v, hv, hpe⟩ := fl_orbitColor_some A M fuel g _ _ _ _ _ _ _ _ hb
  refine ⟨v, hv, ?_⟩
  have hin : 0 ≤ (x : Int) ∧ (x : Int) < img.w ∧ 0 ≤ (y : Int) ∧ (y : Int) < img.h := by
    rw [hw, hh]
    simp only [win_w, win_h]
    push_cast
    omega
  simp only [Image.colorAt, if_pos hin]
  rw [hp]
  have hbe : b = if A.gt v (A.ofInt 0) = true then Fl.intensity A v g.zp.depth else 0 :=
    congrArg Pixel.col hpe
  rw [hbe]
  split_ifs <;> rfl

/-- C14: a call of the float64 `renderMandelbrot` that returns hands the
package-level variables back unchanged (`zp` is read, never written), and the
raster is a function of `zp` alone: a second call that returns, started from
any package-level state whose `zp` is the one the first call left, gives a
raster of the same size with the same colour at every point; the colour at
`(x, y)` of the grid is determined by the value `divergez` returns at that
pixel's own coordinate and by `zp`, independently of every other pixel. -/
theorem C14_float_render_deterministic (A : FloatOps F) (M : MathFns F)
    (g1 g2 s1 s2 : Globals F) (img1 img2 : Image)
    (h1 : Fl.Renders A M g1 img1 s1) (h2 : Fl.Renders A M g2 img2 s2)
    (hzp : g2.zp = s1.zp) :
    s1 = g1 ∧ s2 = g2 ∧ img1.w = img2.w ∧ img1.h = img2.h ∧
    (∀ x y : Int, img1.colorAt x y = img2.colorAt x y) ∧
    ∀ x y : Nat, x < 1024 → y < 768 → ∃ fuel v,
      Fl.divergez A M fuel (Fl.fc A)
        (Fl.pixelCoord A (y : Int) (x : Int) (A.sub g1.zp.cx g1.zp.r)
          (A.sub g1.zp.cy g1.zp.r) (A.add g1.zp.cx g1.zp.r) (A.add g1.zp.cy g1.zp.r))
        g1.zp.depth = some v ∧
      img1.colorAt x y =
        (if A.gt v (A.ofInt 0) = true then
          (⟨Fl.intensity A v g1.zp.depth, Fl.intensity A v g1.zp.depth,
            Fl.intensity A v g1.zp.depth, 255⟩ : RGBA)
        else ⟨0, 0, 0, 255⟩) := by
  obtain ⟨fuel1, e1⟩ := h1
  obtain ⟨fuel2, e2⟩ := h2
  obtain ⟨hs1, hw1, hh1, hp1⟩ := fl_renderMandelbrot_some A M fuel1 g1 img1 s1 e1
  obtain ⟨hs2, hw2, hh2, hp2⟩ := fl_renderMandelbrot_some A M fuel2 g2 img2 s2 e2
  rw [hs1] at hzp
  refine ⟨hs1, hs2, by rw [hw1, hw2], by rw [hh1, hh2], ?_, ?_⟩
  · intro x y
    by_cases hin : 0 ≤ x ∧ x < 1024 ∧ 0 ≤ y ∧ y < 768
    · obtain ⟨hx0, hx, hy0, hy⟩ := hin
      obtain ⟨v1, hv1, hc1⟩ := hp1 x.toNat y.toNat (by omega) (by omega)
      obtain ⟨v2, hv2, hc2⟩ := hp2 x.toNat y.toNat (by omega) (by omega)
      rw [hzp] at hv2 hc2
      have hv : v1 = v2 := fl_divergez_unique A M (Fl.fc A) _ _ fuel1 fuel2 v1 v2 hv1 hv2
      rw [Int.toNat_of_nonneg hx0, Int.toNat_of_nonneg hy0] at hc1 hc2
      rw [hc1, hc2, hv]
    · have e1 : img1.colorAt x y = ⟨0, 0, 0, 0⟩ := by
        unfold Image.colorAt
        rw [hw1, hh1, if_neg hin]
      have e2 : img2.colorAt x y = ⟨0, 0, 0, 0⟩ := by
        unfold Image.colorAt
        rw [hw2, hh2, if_neg hin]
      rw [e1, e2]
  · intro x y hx hy
    obtain ⟨v1, hv1, hc1⟩ := hp1 x y hx hy
    exact ⟨fuel1, v1, hv1, hc1⟩

end FloatRender2

section FloatRenderWitness

/-- C14 (witness): the float64 program at the first zoom point of the
registry, rendered twice from package-level states that differ in everything
but `zp`; the library functions are arbitrary here, as the theorem holds for
every choice of them. -/
theorem C14_float_witness :
    ∃ img1 img2 : Image,
      (Fl.Renders ieee (⟨fun x => x, fun z => z.re, ieee.ofInt 1⟩ : MathFns F64)
          ⟨⟨ieee.ofInt 0, ieee.ofInt 0, ieee.ofInt 2, 50⟩, Fl.interestingPoints ieee⟩ img1
          ⟨⟨ieee.ofInt 0, ieee.ofInt 0, ieee.ofInt 2, 50⟩, Fl.interestingPoints ieee⟩ ∧
        Fl.Renders ieee (⟨fun x => x, fun z => z.re, ieee.ofInt 1⟩ : MathFns F64)
          ⟨⟨ieee.ofInt 0, ieee.ofInt 0, ieee.ofInt 2, 50⟩, []⟩ img2
          ⟨⟨ieee.ofInt 0, ieee.ofInt 0, ieee.ofInt 2, 50⟩, []⟩) ∧
      img1.w = img2.w ∧ img1.h = img2.h ∧
      ∀ x y : Int, img1.colorAt x y = img2.colorAt x y :=
  have hN : (50 : Nat) + 1 < uintSize := by norm_num [uintSize]
  have e1 := fl_renderMandelbrot_returns ieee
    (⟨fun x => x, fun z => z.re, ieee.ofInt 1⟩ : MathFns F64) 51
    ⟨⟨ieee.ofInt 0, ieee.ofInt 0, ieee.ofInt 2, 50⟩, Fl.interestingPoints ieee⟩ hN (le_refl _)
  have e2 := fl_renderMandelbrot_returns ieee
    (⟨fun x => x, fun z => z.re, ieee.ofInt 1⟩ : MathFns F64) 52
    ⟨⟨ieee.ofInt 0, ieee.ofInt 0, ieee.ofInt 2, 50⟩, []⟩ hN (by norm_num)
  Exists.elim e1 fun img1 h1 => Exists.elim e2 fun img2 h2 =>
    have h := C14_float_render_deterministic ieee
      (⟨fun x => x, fun z => z.re, ieee.ofInt 1⟩ : MathFns F64) _ _ _ _ img1 img2
      ⟨51, h1⟩ ⟨52, h2⟩ rfl
    ⟨img1, img2, ⟨⟨51, h1⟩, ⟨52, h2⟩⟩, h.2.2.1, h.2.2.2.1, h.2.2.2.2.1⟩

end FloatRenderWitness

/-! ## The float64 embedding: what the rounded operations return -/

section FloatRoundingA

/-- What `log2f` computes: with enough fuel, the position of the leading
binary digit. -/
theorem log2f_spec (fuel n : Nat) (hf : n ≤ fuel) (hn : 0 < n) :
    2 ^ F64.log2f fuel n ≤ n ∧ n < 2 ^ (F64.log2f fuel n + 1) := by
  induction fuel generalizing n with
  | zero => omega
  | succ fuel ih =>
    simp only [F64.log2f]
    split_ifs with h2
    · constructor <;> simp <;> omega
    · obtain ⟨h1, h3⟩ := ih (n / 2) (by omega) (by omega)
      rw [pow_succ] at h3
      rw [pow_succ, pow_succ, pow_succ]
      generalize 2 ^ F64.log2f fuel (n / 2) = p at h1 h3 ⊢
      omega

/-- The exponent `floorLog2 a d` is not above the binary logarithm of `a / d`. -/
theorem floorLog2_le (a d : Nat) (ha : 0 < a) (hd : 0 < d) :
    (2 : ℚ) ^ (F64.floorLog2 a d) * d ≤ a := by
  obtain ⟨hA, _⟩ := log2f_spec a a (le_refl _) ha
  obtain ⟨_, hD⟩ := log2f_spec d d (le_refl _) hd
  have hAq : (2 : ℚ) ^ ((F64.log2f a a : Nat) : Int) ≤ a := by
    rw [zpow_natCast]; exact_mod_cast hA
  have hDq : (d : ℚ) < (2 : ℚ) ^ (((F64.log2f d d : Nat) : Int) + 1) := by
    have : (((F64.log2f d d : Nat) : Int) + 1) = ((F64.log2f d d + 1 : Nat) : Int) := by
      push_cast; ring
    rw [this, zpow_natCast]; exact_mod_cast hD
  have hlow : (2 : ℚ) ^ (((F64.log2f a a : Nat) : Int) - ((F64.log2f d d : Nat) : Int) - 1) * d
      ≤ a := by
    have h2 : (2 : ℚ) ^ (((F64.log2f a a : Nat) : Int) - ((F64.log2f d d : Nat) : Int) - 1) *
        (2 : ℚ) ^ (((F64.log2f d d : Nat) : Int) + 1) = (2 : ℚ) ^ ((F64.log2f a a : Nat) : Int) := by
      rw [← zpow_add₀ (by norm_num : (2 : ℚ) ≠ 0)]
      congr 1; ring
    have hpos : (0 : ℚ) <
        (2 : ℚ) ^ (((F64.log2f a a : Nat) : Int) - ((F64.log2f d d : Nat) : Int) - 1) :=
      zpow_pos (by norm_num) _
    calc (2 : ℚ) ^ (((F64.log2f a a : Nat) : Int) - ((F64.log2f d d : Nat) : Int) - 1) * d
        ≤ (2 : ℚ) ^ (((F64.log2f a a : Nat) : Int) - ((F64.log2f d d : Nat) : Int) - 1) *
          (2 : ℚ) ^ (((F64.log2f d d : Nat) : Int) + 1) :=
          mul_le_mul_of_nonneg_left (le_of_lt hDq) (le_of_lt hpos)
      _ = (2 : ℚ) ^ ((F64.log2f a a : Nat) : Int) := h2
      _ ≤ a := hAq
  unfold F64.floorLog2
  simp only []
  split_ifs with h0 h1 h1
  · have e : (2 : ℚ) ^ (((F64.log2f a a : Nat) : Int) - ((F64.log2f d d : Nat) : Int)) =
        ((2 ^ (((F64.log2f a a : Nat) : Int) - ((F64.log2f d d : Nat) : Int)).toNat : Nat) : ℚ) := by
      conv_lhs => rw [← Int.toNat_of_nonneg h0]
      rw [zpow_natCast]; push_cast; rfl
    rw [e]
    have : ((2 ^ (((F64.log2f a a : Nat) : Int) - ((F64.log2f d d : Nat) : Int)).toNat : Nat) : ℚ)
        * d = ((d * 2 ^ (((F64.log2f a a : Nat) : Int) - ((F64.log2f d d : Nat) : Int)).toNat
          : Nat) : ℚ) := by
      push_cast; ring
    rw [this]
    exact_mod_cast h1
  · exact hlow
  · have hn : 0 ≤ -(((F64.log2f a a : Nat) : Int) - ((F64.log2f d d : Nat) : Int)) := by omega
    have e : (2 : ℚ) ^ (-(((F64.log2f a a : Nat) : Int) - ((F64.log2f d d : Nat) : Int))) =
        ((2 ^ (-(((F64.log2f a a : Nat) : Int) - ((F64.log2f d d : Nat) : Int))).toNat : Nat)
          : ℚ) := by
      conv_lhs => rw [← Int.toNat_of_nonneg hn]
      rw [zpow_natCast]; push_cast; rfl
    have h1q : (d : ℚ) ≤ (a : ℚ) *
        (2 : ℚ) ^ (-(((F64.log2f a a : Nat) : Int) - ((F64.log2f d d : Nat) : Int))) := by
      rw [e]; exact_mod_cast h1
    have hpos : (0 : ℚ) <
        (2 : ℚ) ^ (((F64.log2f a a : Nat) : Int) - ((F64.log2f d d : Nat) : Int)) :=
      zpow_pos (by norm_num) _
    calc (2 : ℚ) ^ (((F64.log2f a a : Nat) : Int) - ((F64.log2f d d : Nat) : Int)) * d
        ≤ (2 : ℚ) ^ (((F64.log2f a a : Nat) : Int) - ((F64.log2f d d : Nat) : Int)) *
          ((a : ℚ) *
            (2 : ℚ) ^ (-(((F64.log2f a a : Nat) : Int) - ((F64.log2f d d : Nat) : Int)))) :=
          mul_le_mul_of_nonneg_left h1q (le_of_lt hpos)
      _ = a := by
          rw [zpow_neg]
          field_simp
  · exact hlow

/-- The integer `rne num den` is within one half of `num / den`. -/
theorem rne_err (num den : Nat) (hden : 0 < den) :
    |((F64.rne num den : Nat) : ℚ) - (num : ℚ) / den| ≤ 1 / 2 := by
  have hdq : (0 : ℚ) < den := by exact_mod_cast hden
  have hsplit : (num : ℚ) = (den : ℚ) * ((num / den : Nat) : ℚ) + ((num % den : Nat) : ℚ) := by
    exact_mod_cast (Nat.div_add_mod num den).symm
  have hr : ((num % den : Nat) : ℚ) < den := by exact_mod_cast Nat.mod_lt num hden
  have hr0 : (0 : ℚ) ≤ ((num % den : Nat) : ℚ) := by positivity
  have key : ∀ m : ℚ, |m * den - num| ≤ den / 2 → |m - (num : ℚ) / den| ≤ 1 / 2 := by
    intro m hm
    have e : m - (num : ℚ) / den = (m * den - num) / den := by field_simp
    rw [e, abs_div, abs_of_pos hdq, div_le_iff₀ hdq]
    linarith
  apply key
  unfold F64.rne
  simp only []
  split_ifs with h1 h2
  · have h1q : (den : ℚ) < 2 * ((num % den : Nat) : ℚ) := by exact_mod_cast h1
    push_cast
    rw [abs_le]; constructor <;> nlinarith
  · have h2q : 2 * ((num % den : Nat) : ℚ) < (den : ℚ) := by exact_mod_cast h2
    rw [abs_le]; constructor <;> nlinarith
  · have h3 : 2 * (num % den) = den := by omega
    have h3q : 2 * ((num % den : Nat) : ℚ) = (den : ℚ) := by exact_mod_cast h3
    rcases Nat.mod_two_eq_zero_or_one (num / den) with h | h
    · rw [h]; push_cast
      rw [abs_le]; constructor <;> nlinarith
    · rw [h]; push_cast
      rw [abs_le]; constructor <;> nlinarith

/-- Rounding to the nearest integer does not pass an integer bound. -/
theorem rne_le (num den n : Nat) (hden : 0 < den) (h : num ≤ n * den) :
    F64.rne num den ≤ n := by
  have hq : num / den ≤ n := Nat.div_le_of_le_mul (by rw [Nat.mul_comm]; exact h)
  have hsplit := Nat.div_add_mod num den
  have hr := Nat.mod_lt num hden
  unfold F64.rne
  simp only []
  rcases Nat.lt_or_eq_of_le hq with hlt | heq
  · split_ifs
    · omega
    · omega
    · have := Nat.mod_lt (num / den) (by norm_num : 0 < 2)
      omega
  · have hr0 : num % den = 0 := by
      rw [heq] at hsplit
      have : den * n = n * den := Nat.mul_comm _ _
      omega
    rw [hr0]
    split_ifs <;> omega

/-- The integer `mant a d t` is within one half of `a * 2^t / d`. -/
theorem mant_err (a d : Nat) (t : Int) (hd : 0 < d) :
    |((F64.mant a d t : Nat) : ℚ) - (a : ℚ) * (2 : ℚ) ^ t / d| ≤ 1 / 2 := by
  unfold F64.mant
  split_ifs with ht
  · have h := rne_err (a * 2 ^ t.toNat) d hd
    have e : (((a * 2 ^ t.toNat : Nat)) : ℚ) = (a : ℚ) * (2 : ℚ) ^ t := by
      push_cast
      conv_rhs => rw [← Int.toNat_of_nonneg ht]
      rw [zpow_natCast]
    rw [e] at h
    exact h
  · have hk : 0 ≤ -t := by omega
    have hpos : 0 < d * 2 ^ (-t).toNat := Nat.mul_pos hd (by positivity)
    have h := rne_err a (d * 2 ^ (-t).toNat) hpos
    have e : (a : ℚ) / ((d * 2 ^ (-t).toNat : Nat) : ℚ) = (a : ℚ) * (2 : ℚ) ^ t / d := by
      have e2 : (2 : ℚ) ^ t = ((2 : ℚ) ^ ((-t).toNat))⁻¹ := by
        rw [← zpow_natCast, Int.toNat_of_nonneg hk, zpow_neg, inv_inv]
      rw [e2]
      push_cast
      have hdq : (d : ℚ) ≠ 0 := by exact_mod_cast (Nat.pos_iff_ne_zero.1 hd)
      field_simp
      left; ring
    rw [e] at h
    exact h

/-- The integer `mant a d t` does not pass an integer bound of `a * 2^t / d`. -/
theorem mant_le (a d : Nat) (t : Int) (hd : 0 < d) (n : Nat)
    (h : (a : ℚ) * (2 : ℚ) ^ t / d ≤ n) : F64.mant a d t ≤ n := by
  have hdq : (0 : ℚ) < d := by exact_mod_cast hd
  rw [div_le_iff₀ hdq] at h
  unfold F64.mant
  split_ifs with ht
  · apply rne_le _ _ _ hd
    have e : (((a * 2 ^ t.toNat : Nat)) : ℚ) = (a : ℚ) * (2 : ℚ) ^ t := by
      push_cast
      conv_rhs => rw [← Int.toNat_of_nonneg ht]
      rw [zpow_natCast]
    have : (((a * 2 ^ t.toNat : Nat)) : ℚ) ≤ ((n * d : Nat) : ℚ) := by
      rw [e]; push_cast; exact h
    exact_mod_cast this
  · have hk : 0 ≤ -t := by omega
    have hpos : 0 < d * 2 ^ (-t).toNat := Nat.mul_pos hd (by positivity)
    apply rne_le _ _ _ hpos
    have e2 : (2 : ℚ) ^ t = ((2 : ℚ) ^ ((-t).toNat))⁻¹ := by
      rw [← zpow_natCast, Int.toNat_of_nonneg hk, zpow_neg, inv_inv]
    rw [e2] at h
    have hp : (0 : ℚ) < (2 : ℚ) ^ ((-t).toNat) := by positivity
    have : ((a : Nat) : ℚ) ≤ ((n * (d * 2 ^ (-t).toNat) : Nat) : ℚ) := by
      push_cast
      have h3 : (a : ℚ) * ((2 : ℚ) ^ ((-t).toNat))⁻¹ * (2 : ℚ) ^ ((-t).toNat) ≤
          (n : ℚ) * d * (2 : ℚ) ^ ((-t).toNat) :=
        mul_le_mul_of_nonneg_right h (le_of_lt hp)
      have h4 : (a : ℚ) * ((2 : ℚ) ^ ((-t).toNat))⁻¹ * (2 : ℚ) ^ ((-t).toNat) = a := by
        field_simp
      rw [h4] at h3
      linarith
    exact_mod_cast this

/-- The exponent chosen by the rounding: `-1074` in the subnormal range,
otherwise 52 below the leading binary digit of the number. -/
theorem expo_cases (a d : Nat) (s : Int) (ha : 0 < a) (hd : 0 < d) :
    -1074 ≤ F64.expo a d s ∧
    (F64.expo a d s = -1074 ∨ (2 : ℚ) ^ (F64.expo a d s + 52) * d ≤ (a : ℚ) * (2 : ℚ) ^ s) := by
  have hL := floorLog2_le a d ha hd
  unfold F64.expo
  refine ⟨le_max_right _ _, ?_⟩
  rcases le_total (F64.floorLog2 a d + s - 52) (-1074) with h | h
  · left; exact max_eq_right h
  · right
    rw [max_eq_left h]
    have e : F64.floorLog2 a d + s - 52 + 52 = F64.floorLog2 a d + s := by ring
    rw [e, zpow_add₀ (by norm_num : (2 : ℚ) ≠ 0)]
    have hp : (0 : ℚ) < (2 : ℚ) ^ s := zpow_pos (by norm_num) _
    calc (2 : ℚ) ^ F64.floorLog2 a d * (2 : ℚ) ^ s * d
        = ((2 : ℚ) ^ F64.floorLog2 a d * d) * (2 : ℚ) ^ s := by ring
      _ ≤ (a : ℚ) * (2 : ℚ) ^ s := mul_le_mul_of_nonneg_right hL (le_of_lt hp)

/-- The three outcomes of `roundPos`: zero, a finite value equal to
`mant * 2^expo`, or an overflow, which needs an exponent of 971 at least. -/
theorem roundPos_cases (a d : Nat) (s : Int) :
    (F64.mant a d (s - F64.expo a d s) = 0 ∧ F64.roundPos a d s = F64.fin 0 0) ∨
    (∃ (m : Nat) (e : Int), F64.roundPos a d s = F64.fin (m : Int) e ∧
      (m : ℚ) * (2 : ℚ) ^ e =
        (F64.mant a d (s - F64.expo a d s) : ℚ) * (2 : ℚ) ^ (F64.expo a d s)) ∨
    (F64.roundPos a d s = F64.inf false ∧ 971 ≤ F64.expo a d s) := by
  unfold F64.roundPos
  simp only []
  split_ifs with h0 h1 h2 h3
  · left; exact ⟨h0, rfl⟩
  · right; right; exact ⟨rfl, by omega⟩
  · right; left
    refine ⟨2 ^ 52, F64.expo a d s + 1, by norm_num, ?_⟩
    rw [h1, zpow_add₀ (by norm_num : (2 : ℚ) ≠ 0)]
    push_cast
    ring
  · right; right; exact ⟨rfl, by omega⟩
  · right; left
    exact ⟨_, _, rfl, rfl⟩

end FloatRoundingA

section FloatRoundingB

/-- The value `roundPos` returns for a number below `2^1023`: finite,
non-negative, and within `2^-53` of the number (relative) plus `2^-1075`. -/
theorem roundPos_val (a d : Nat) (s : Int) (ha : 0 < a) (hd : 0 < d)
    (hx : (a : ℚ) * (2 : ℚ) ^ s / d < (2 : ℚ) ^ (1023 : Int)) :
    ∃ (m : Nat) (e : Int), F64.roundPos a d s = F64.fin (m : Int) e ∧
      |(m : ℚ) * (2 : ℚ) ^ e - (a : ℚ) * (2 : ℚ) ^ s / d| ≤
        (2 : ℚ) ^ (-53 : Int) * ((a : ℚ) * (2 : ℚ) ^ s / d) + (2 : ℚ) ^ (-1075 : Int) := by
  have hdq : (0 : ℚ) < d := by exact_mod_cast hd
  have haq : (0 : ℚ) < a := by exact_mod_cast ha
  obtain ⟨he1, he2⟩ := expo_cases a d s ha hd
  have hm := mant_err a d (s - F64.expo a d s) hd
  have hpe : (0 : ℚ) < (2 : ℚ) ^ (F64.expo a d s) := zpow_pos (by norm_num) _
  have hxpos : (0 : ℚ) < (a : ℚ) * (2 : ℚ) ^ s / d :=
    div_pos (mul_pos haq (zpow_pos (by norm_num) _)) hdq
  -- the error in units of the last digit
  have herr : |(F64.mant a d (s - F64.expo a d s) : ℚ) * (2 : ℚ) ^ (F64.expo a d s) -
      (a : ℚ) * (2 : ℚ) ^ s / d| ≤ (2 : ℚ) ^ (F64.expo a d s) / 2 := by
    have e : (F64.mant a d (s - F64.expo a d s) : ℚ) * (2 : ℚ) ^ (F64.expo a d s) -
        (a : ℚ) * (2 : ℚ) ^ s / d =
        ((F64.mant a d (s - F64.expo a d s) : ℚ) -
          (a : ℚ) * (2 : ℚ) ^ (s - F64.expo a d s) / d) * (2 : ℚ) ^ (F64.expo a d s) := by
      rw [zpow_sub₀ (by norm_num : (2 : ℚ) ≠ 0)]
      field_simp
      ring
    rw [e, abs_mul, abs_of_pos hpe]
    calc |(F64.mant a d (s - F64.expo a d s) : ℚ) -
          (a : ℚ) * (2 : ℚ) ^ (s - F64.expo a d s) / d| * (2 : ℚ) ^ (F64.expo a d s)
        ≤ 1 / 2 * (2 : ℚ) ^ (F64.expo a d s) := mul_le_mul_of_nonneg_right hm (le_of_lt hpe)
      _ = (2 : ℚ) ^ (F64.expo a d s) / 2 := by ring
  -- the unit of the last digit against the number
  have hulp : (2 : ℚ) ^ (F64.expo a d s) / 2 ≤
      (2 : ℚ) ^ (-53 : Int) * ((a : ℚ) * (2 : ℚ) ^ s / d) + (2 : ℚ) ^ (-1075 : Int) := by
    rcases he2 with h | h
    · rw [h]
      have : (2 : ℚ) ^ (-1074 : Int) / 2 = (2 : ℚ) ^ (-1075 : Int) := by
        rw [show (-1074 : Int) = -1075 + 1 by norm_num, zpow_add₀ (by norm_num : (2 : ℚ) ≠ 0)]
        simp
      rw [this]
      have : (0 : ℚ) ≤ (2 : ℚ) ^ (-53 : Int) * ((a : ℚ) * (2 : ℚ) ^ s / d) :=
        mul_nonneg (le_of_lt (zpow_pos (by norm_num) _)) (le_of_lt hxpos)
      linarith
    · have h2 : (2 : ℚ) ^ (F64.expo a d s + 52) ≤ (a : ℚ) * (2 : ℚ) ^ s / d := by
        rw [le_div_iff₀ hdq]; exact h
      have e : (2 : ℚ) ^ (F64.expo a d s) / 2 =
          (2 : ℚ) ^ (-53 : Int) * (2 : ℚ) ^ (F64.expo a d s + 52) := by
        rw [← zpow_add₀ (by norm_num : (2 : ℚ) ≠ 0)]
        rw [show (-53 : Int) + (F64.expo a d s + 52) = F64.expo a d s + (-1) by ring,
          zpow_add₀ (by norm_num : (2 : ℚ) ≠ 0)]
        simp [div_eq_mul_inv]
      rw [e]
      have h3 : (2 : ℚ) ^ (-53 : Int) * (2 : ℚ) ^ (F64.expo a d s + 52) ≤
          (2 : ℚ) ^ (-53 : Int) * ((a : ℚ) * (2 : ℚ) ^ s / d) :=
        mul_le_mul_of_nonneg_left h2 (le_of_lt (zpow_pos (by norm_num) _))
      have : (0 : ℚ) < (2 : ℚ) ^ (-1075 : Int) := zpow_pos (by norm_num) _
      linarith
  rcases roundPos_cases a d s with ⟨h0, hr⟩ | ⟨m, e, hr, hv⟩ | ⟨hr, hbig⟩
  · refine ⟨0, 0, by rw [hr]; rfl, ?_⟩
    rw [h0] at herr
    simp only [Nat.cast_zero, zero_mul] at herr ⊢
    exact le_trans herr hulp
  · refine ⟨m, e, hr, ?_⟩
    rw [hv]
    exact le_trans herr hulp
  · exfalso
    rcases he2 with h | h
    · omega
    · have h2 : (2 : ℚ) ^ (F64.expo a d s + 52) ≤ (a : ℚ) * (2 : ℚ) ^ s / d := by
        rw [le_div_iff₀ hdq]; exact h
      have h3 : (2 : ℚ) ^ (1023 : Int) ≤ (2 : ℚ) ^ (F64.expo a d s + 52) :=
        zpow_le_zpow_right₀ (by norm_num) (by omega)
      linarith

/-- Rounding does not pass a bound that is itself a `float64`: a number of at
most `M * 2^E`, with `M < 2^53` and `-1074 ≤ E ≤ 970`, is rounded to a finite
value of at most `M * 2^E`. -/
theorem roundPos_le (a d : Nat) (s : Int) (ha : 0 < a) (hd : 0 < d) (M : Nat) (E : Int)
    (hM : M < 2 ^ 53) (hE1 : -1074 ≤ E) (hE2 : E ≤ 970)
    (hx : (a : ℚ) * (2 : ℚ) ^ s / d ≤ (M : ℚ) * (2 : ℚ) ^ E) :
    ∃ (m : Nat) (e : Int), F64.roundPos a d s = F64.fin (m : Int) e ∧
      (m : ℚ) * (2 : ℚ) ^ e ≤ (M : ℚ) * (2 : ℚ) ^ E := by
  have hdq : (0 : ℚ) < d := by exact_mod_cast hd
  obtain ⟨he1, he2⟩ := expo_cases a d s ha hd
  have hpe : (0 : ℚ) < (2 : ℚ) ^ (F64.expo a d s) := zpow_pos (by norm_num) _
  have hMq : (M : ℚ) < (2 : ℚ) ^ (53 : Int) := by
    have : ((M : Nat) : ℚ) < ((2 ^ 53 : Nat) : ℚ) := by exact_mod_cast hM
    rw [show (53 : Int) = ((53 : Nat) : Int) by norm_num, zpow_natCast]
    exact_mod_cast this
  -- the exponent chosen is at most `E`
  have heE : F64.expo a d s ≤ E := by
    by_contra hcon
    push_neg at hcon
    rcases he2 with h | h
    · omega
    · have h2 : (2 : ℚ) ^ (F64.expo a d s + 52) ≤ (a : ℚ) * (2 : ℚ) ^ s / d := by
        rw [le_div_iff₀ hdq]; exact h
      have h3 : (2 : ℚ) ^ (E + 53) ≤ (2 : ℚ) ^ (F64.expo a d s + 52) :=
        zpow_le_zpow_right₀ (by norm_num) (by omega)
      have h4 : (M : ℚ) * (2 : ℚ) ^ E < (2 : ℚ) ^ (E + 53) := by
        rw [zpow_add₀ (by norm_num : (2 : ℚ) ≠ 0), mul_comm ((2 : ℚ) ^ E)]
        exact mul_lt_mul_of_pos_right hMq (zpow_pos (by norm_num) _)
      linarith
  -- the bound in units of the last digit is an integer
  have hk : 0 ≤ E - F64.expo a d s := by omega
  have hn : (a : ℚ) * (2 : ℚ) ^ (s - F64.expo a d s) / d ≤
      ((M * 2 ^ (E - F64.expo a d s).toNat : Nat) : ℚ) := by
    have e1 : ((M * 2 ^ (E - F64.expo a d s).toNat : Nat) : ℚ) =
        (M : ℚ) * (2 : ℚ) ^ E / (2 : ℚ) ^ (F64.expo a d s) := by
      push_cast
      rw [← zpow_natCast, Int.toNat_of_nonneg hk, zpow_sub₀ (by norm_num : (2 : ℚ) ≠ 0)]
      ring
    have e2 : (a : ℚ) * (2 : ℚ) ^ (s - F64.expo a d s) / d =
        (a : ℚ) * (2 : ℚ) ^ s / d / (2 : ℚ) ^ (F64.expo a d s) := by
      rw [zpow_sub₀ (by norm_num : (2 : ℚ) ≠ 0)]
      field_simp
      ring
    rw [e1, e2]
    exact div_le_div_of_nonneg_right hx (le_of_lt hpe)
  have hm := mant_le a d (s - F64.expo a d s) hd _ hn
  have hmq : (F64.mant a d (s - F64.expo a d s) : ℚ) * (2 : ℚ) ^ (F64.expo a d s) ≤
      (M : ℚ) * (2 : ℚ) ^ E := by
    have h1 : (F64.mant a d (s - F64.expo a d s) : ℚ) ≤
        ((M * 2 ^ (E - F64.expo a d s).toNat : Nat) : ℚ) := by exact_mod_cast hm
    have e1 : ((M * 2 ^ (E - F64.expo a d s).toNat : Nat) : ℚ) * (2 : ℚ) ^ (F64.expo a d s) =
        (M : ℚ) * (2 : ℚ) ^ E := by
      push_cast
      rw [← zpow_natCast, Int.toNat_of_nonneg hk, zpow_sub₀ (by norm_num : (2 : ℚ) ≠ 0)]
      field_simp
    rw [← e1]
    exact mul_le_mul_of_nonneg_right h1 (le_of_lt hpe)
  rcases roundPos_cases a d s with ⟨h0, hr⟩ | ⟨m, e, hr, hv⟩ | ⟨hr, hbig⟩
  · refine ⟨0, 0, by rw [hr]; rfl, ?_⟩
    simp only [Nat.cast_zero, zero_mul]
    exact mul_nonneg (Nat.cast_nonneg _) (le_of_lt (zpow_pos (by norm_num) _))
  · exact ⟨m, e, hr, by rw [hv]; exact hmq⟩
  · omega

end FloatRoundingB

section FloatRoundingC

/-- The value `round` returns for a number of magnitude below `2^1023`: finite,
of the sign of the number, and within `2^-53` of it (relative) plus
`2^-1075`. -/
theorem round_val (n : Int) (d : Nat) (s : Int) (hd : 0 < d)
    (hx : |(n : ℚ) * (2 : ℚ) ^ s / d| < (2 : ℚ) ^ (1023 : Int)) :
    ∃ (m e : Int), F64.round n d s = F64.fin m e ∧ (0 ≤ n → 0 ≤ m) ∧ (n ≤ 0 → m ≤ 0) ∧
      |(m : ℚ) * (2 : ℚ) ^ e - (n : ℚ) * (2 : ℚ) ^ s / d| ≤
        (2 : ℚ) ^ (-53 : Int) * |(n : ℚ) * (2 : ℚ) ^ s / d| + (2 : ℚ) ^ (-1075 : Int) := by
  have hdq : (0 : ℚ) < d := by exact_mod_cast hd
  have hp : (0 : ℚ) < (2 : ℚ) ^ s := zpow_pos (by norm_num) _
  unfold F64.round
  rw [if_neg (by omega)]
  by_cases h0 : n = 0
  · rw [if_pos h0]
    refine ⟨0, 0, rfl, fun _ => le_refl _, fun _ => le_refl _, ?_⟩
    rw [h0]
    simp only [Int.cast_zero, zero_mul, zero_div, sub_zero, abs_zero, mul_zero, zero_add]
    exact le_of_lt (zpow_pos (by norm_num) _)
  rw [if_neg h0]
  by_cases hneg : n < 0
  · rw [if_pos hneg]
    have hnat : ((n.natAbs : Nat) : ℚ) = -(n : ℚ) := by
      rw [Nat.cast_natAbs, abs_of_neg hneg]; push_cast; rfl
    have hxn : (n : ℚ) * (2 : ℚ) ^ s / d < 0 := by
      apply div_neg_of_neg_of_pos _ hdq
      exact mul_neg_of_neg_of_pos (by exact_mod_cast hneg) hp
    have hx2 : ((n.natAbs : Nat) : ℚ) * (2 : ℚ) ^ s / d < (2 : ℚ) ^ (1023 : Int) := by
      rw [abs_of_neg hxn] at hx
      rw [hnat]
      have : -(n : ℚ) * (2 : ℚ) ^ s / d = -((n : ℚ) * (2 : ℚ) ^ s / d) := by ring
      rw [this]; exact hx
    obtain ⟨m, e, hr, herr⟩ := roundPos_val n.natAbs d s (by omega) hd hx2
    refine ⟨-(m : Int), e, by rw [hr]; rfl, fun h => by omega, fun _ => by omega, ?_⟩
    rw [hnat] at herr
    rw [abs_of_neg hxn]
    have e1 : ((-(m : Int) : Int) : ℚ) * (2 : ℚ) ^ e - (n : ℚ) * (2 : ℚ) ^ s / d =
        -((m : ℚ) * (2 : ℚ) ^ e - -((n : ℚ) * (2 : ℚ) ^ s / d)) := by
      push_cast; ring
    rw [e1, abs_neg]
    have e2 : -(n : ℚ) * (2 : ℚ) ^ s / d = -((n : ℚ) * (2 : ℚ) ^ s / d) := by ring
    rw [e2] at herr
    exact herr
  · rw [if_neg hneg]
    have hpos : 0 < n := by omega
    have hnat : ((n.natAbs : Nat) : ℚ) = (n : ℚ) := by
      rw [Nat.cast_natAbs, abs_of_nonneg (by omega : 0 ≤ n)]
    have hxp : 0 < (n : ℚ) * (2 : ℚ) ^ s / d :=
      div_pos (mul_pos (by exact_mod_cast hpos) hp) hdq
    have hx2 : ((n.natAbs : Nat) : ℚ) * (2 : ℚ) ^ s / d < (2 : ℚ) ^ (1023 : Int) := by
      rw [abs_of_pos hxp] at hx
      rw [hnat]; exact hx
    obtain ⟨m, e, hr, herr⟩ := roundPos_val n.natAbs d s (by omega) hd hx2
    refine ⟨(m : Int), e, hr, fun _ => by omega, fun h => by omega, ?_⟩
    rw [hnat] at herr
    rw [abs_of_pos hxp]
    exact_mod_cast herr

/-- Rounding a non-negative number does not pass a bound that is itself a
`float64`. -/
theorem round_le (n : Int) (d : Nat) (s : Int) (hd : 0 < d) (hn : 0 ≤ n) (M : Nat) (E : Int)
    (hM : M < 2 ^ 53) (hE1 : -1074 ≤ E) (hE2 : E ≤ 970)
    (hx : (n : ℚ) * (2 : ℚ) ^ s / d ≤ (M : ℚ) * (2 : ℚ) ^ E) :
    ∃ (m e : Int), F64.round n d s = F64.fin m e ∧ 0 ≤ m ∧
      (m : ℚ) * (2 : ℚ) ^ e ≤ (M : ℚ) * (2 : ℚ) ^ E := by
  unfold F64.round
  rw [if_neg (by omega)]
  by_cases h0 : n = 0
  · rw [if_pos h0]
    refine ⟨0, 0, rfl, le_refl _, ?_⟩
    simp only [Int.cast_zero, zero_mul]
    exact mul_nonneg (Nat.cast_nonneg _) (le_of_lt (zpow_pos (by norm_num) _))
  rw [if_neg h0, if_neg (by omega)]
  have hnat : ((n.natAbs : Nat) : ℚ) = (n : ℚ) := by
    rw [Nat.cast_natAbs, abs_of_nonneg (by omega : 0 ≤ n)]
  obtain ⟨m, e, hr, hle⟩ := roundPos_le n.natAbs d s (by omega) hd M E hM hE1 hE2
    (by rw [hnat]; exact hx)
  exact ⟨(m : Int), e, hr, by omega, by exact_mod_cast hle⟩

/-- The two operands of an addition brought to the smaller exponent. -/
theorem align_val (m1 e1 m2 e2 : Int) :
    ((m1 * 2 ^ (e1 - min e1 e2).toNat + m2 * 2 ^ (e2 - min e1 e2).toNat : Int) : ℚ) *
        (2 : ℚ) ^ (min e1 e2) =
      (m1 : ℚ) * (2 : ℚ) ^ e1 + (m2 : ℚ) * (2 : ℚ) ^ e2 := by
  have h1 : 0 ≤ e1 - min e1 e2 := by have := min_le_left e1 e2; omega
  have h2 : 0 ≤ e2 - min e1 e2 := by have := min_le_right e1 e2; omega
  have p1 : (2 : ℚ) ^ ((e1 - min e1 e2).toNat) * (2 : ℚ) ^ (min e1 e2) = (2 : ℚ) ^ e1 := by
    rw [← zpow_natCast, Int.toNat_of_nonneg h1, ← zpow_add₀ (by norm_num : (2 : ℚ) ≠ 0)]
    congr 1; ring
  have p2 : (2 : ℚ) ^ ((e2 - min e1 e2).toNat) * (2 : ℚ) ^ (min e1 e2) = (2 : ℚ) ^ e2 := by
    rw [← zpow_natCast, Int.toNat_of_nonneg h2, ← zpow_add₀ (by norm_num : (2 : ℚ) ≠ 0)]
    congr 1; ring
  push_cast
  rw [add_mul, mul_assoc, mul_assoc, p1, p2]

/-- Go's `x + y` on finite values whose sum has magnitude below `2^1023`: the
result is finite and within `2^-53` of the sum (relative) plus `2^-1075`. -/
theorem add_val (x y : F64) (hx : x.isFin = true) (hy : y.isFin = true)
    (hs : |x.val + y.val| < (2 : ℚ) ^ (1023 : Int)) :
    (F64.add x y).isFin = true ∧
      |(F64.add x y).val - (x.val + y.val)| ≤
        (2 : ℚ) ^ (-53 : Int) * |x.val + y.val| + (2 : ℚ) ^ (-1075 : Int) := by
  have hpos : (0 : ℚ) ≤ (2 : ℚ) ^ (-53 : Int) * |x.val + y.val| + (2 : ℚ) ^ (-1075 : Int) :=
    add_nonneg (mul_nonneg (le_of_lt (zpow_pos (by norm_num) _)) (abs_nonneg _))
      (le_of_lt (zpow_pos (by norm_num) _))
  cases x with
  | inf b => simp [F64.isFin] at hx
  | nan => simp [F64.isFin] at hx
  | fin m1 e1 =>
    cases y with
    | inf b => simp [F64.isFin] at hy
    | nan => simp [F64.isFin] at hy
    | fin m2 e2 =>
      simp only [F64.add]
      by_cases h1 : m1 = 0
      · rw [if_pos h1]
        refine ⟨rfl, ?_⟩
        have : (F64.fin m2 e2).val - ((F64.fin m1 e1).val + (F64.fin m2 e2).val) = 0 := by
          simp [F64.val, h1]
        rw [this, abs_zero]; exact hpos
      rw [if_neg h1]
      by_cases h2 : m2 = 0
      · rw [if_pos h2]
        refine ⟨rfl, ?_⟩
        have : (F64.fin m1 e1).val - ((F64.fin m1 e1).val + (F64.fin m2 e2).val) = 0 := by
          simp [F64.val, h2]
        rw [this, abs_zero]; exact hpos
      rw [if_neg h2]
      have hal := align_val m1 e1 m2 e2
      have hex : ((m1 * 2 ^ (e1 - min e1 e2).toNat + m2 * 2 ^ (e2 - min e1 e2).toNat : Int) : ℚ) *
          (2 : ℚ) ^ (min e1 e2) / ((1 : Nat) : ℚ) = (F64.fin m1 e1).val + (F64.fin m2 e2).val := by
        rw [Nat.cast_one, div_one, hal]; rfl
      obtain ⟨m, e, hr, _, _, herr⟩ := round_val
        (m1 * 2 ^ (e1 - min e1 e2).toNat + m2 * 2 ^ (e2 - min e1 e2).toNat) 1 (min e1 e2)
        (by norm_num) (by rw [hex]; exact hs)
      rw [hex] at herr
      rw [hr]
      exact ⟨rfl, herr⟩

/-- Go's `x + y` on finite values with a non-negative sum does not pass a
bound that is itself a `float64`. -/
theorem add_le (x y : F64) (hx : x.isFin = true) (hy : y.isFin = true)
    (h0 : 0 ≤ x.val + y.val) (M : Nat) (E : Int)
    (hM : M < 2 ^ 53) (hE1 : -1074 ≤ E) (hE2 : E ≤ 970)
    (hs : x.val + y.val ≤ (M : ℚ) * (2 : ℚ) ^ E) :
    (F64.add x y).isFin = true ∧ 0 ≤ (F64.add x y).val ∧
      (F64.add x y).val ≤ (M : ℚ) * (2 : ℚ) ^ E := by
  cases x with
  | inf b => simp [F64.isFin] at hx
  | nan => simp [F64.isFin] at hx
  | fin m1 e1 =>
    cases y with
    | inf b => simp [F64.isFin] at hy
    | nan => simp [F64.isFin] at hy
    | fin m2 e2 =>
      simp only [F64.add]
      by_cases h1 : m1 = 0
      · rw [if_pos h1]
        have : (F64.fin m1 e1).val + (F64.fin m2 e2).val = (F64.fin m2 e2).val := by
          simp [F64.val, h1]
        rw [this] at h0 hs
        exact ⟨rfl, h0, hs⟩
      rw [if_neg h1]
      by_cases h2 : m2 = 0
      · rw [if_pos h2]
        have : (F64.fin m1 e1).val + (F64.fin m2 e2).val = (F64.fin m1 e1).val := by
          simp [F64.val, h2]
        rw [this] at h0 hs
        exact ⟨rfl, h0, hs⟩
      rw [if_neg h2]
      have hal := align_val m1 e1 m2 e2
      have hex : ((m1 * 2 ^ (e1 - min e1 e2).toNat + m2 * 2 ^ (e2 - min e1 e2).toNat : Int) : ℚ) *
          (2 : ℚ) ^ (min e1 e2) / ((1 : Nat) : ℚ) = (F64.fin m1 e1).val + (F64.fin m2 e2).val := by
        rw [Nat.cast_one, div_one, hal]; rfl
      have hp : (0 : ℚ) < (2 : ℚ) ^ (min e1 e2) := zpow_pos (by norm_num) _
      have hn : 0 ≤ m1 * 2 ^ (e1 - min e1 e2).toNat + m2 * 2 ^ (e2 - min e1 e2).toNat := by
        have h3 : (0 : ℚ) ≤
            ((m1 * 2 ^ (e1 - min e1 e2).toNat + m2 * 2 ^ (e2 - min e1 e2).toNat : Int) : ℚ) := by
          have h4 : (0 : ℚ) ≤
              ((m1 * 2 ^ (e1 - min e1 e2).toNat + m2 * 2 ^ (e2 - min e1 e2).toNat : Int) : ℚ) *
                (2 : ℚ) ^ (min e1 e2) := by
            rw [hal]; exact h0
          exact nonneg_of_mul_nonneg_left h4 hp
        exact_mod_cast h3
      obtain ⟨m, e, hr, hm0, hle⟩ := round_le
        (m1 * 2 ^ (e1 - min e1 e2).toNat + m2 * 2 ^ (e2 - min e1 e2).toNat) 1 (min e1 e2)
        (by norm_num) hn M E hM hE1 hE2 (by rw [hex]; exact hs)
      rw [hr]
      refine ⟨rfl, ?_, hle⟩
      exact mul_nonneg (by exact_mod_cast hm0) (le_of_lt (zpow_pos (by norm_num) _))

end FloatRoundingC

section FloatRoundingD

theorem val_neg (x : F64) : (F64.neg x).val = -x.val := by
  cases x <;> simp [F64.neg, F64.val]

theorem isFin_neg (x : F64) : (F64.neg x).isFin = x.isFin := by
  cases x <;> rfl

/-- Go's `x - y` on finite values whose difference has magnitude below
`2^1023`. -/
theorem sub_val (x y : F64) (hx : x.isFin = true) (hy : y.isFin = true)
    (hs : |x.val - y.val| < (2 : ℚ) ^ (1023 : Int)) :
    (F64.sub x y).isFin = true ∧
      |(F64.sub x y).val - (x.val - y.val)| ≤
        (2 : ℚ) ^ (-53 : Int) * |x.val - y.val| + (2 : ℚ) ^ (-1075 : Int) := by
  have h := add_val x (F64.neg y) hx (by rw [isFin_neg]; exact hy)
    (by rw [val_neg, ← sub_eq_add_neg]; exact hs)
  rw [val_neg, ← sub_eq_add_neg] at h
  exact h

/-- Go's `x - y` on finite values with a non-negative difference does not pass
a bound that is itself a `float64`. -/
theorem sub_le (x y : F64) (hx : x.isFin = true) (hy : y.isFin = true)
    (h0 : 0 ≤ x.val - y.val) (M : Nat) (E : Int)
    (hM : M < 2 ^ 53) (hE1 : -1074 ≤ E) (hE2 : E ≤ 970)
    (hs : x.val - y.val ≤ (M : ℚ) * (2 : ℚ) ^ E) :
    (F64.sub x y).isFin = true ∧ 0 ≤ (F64.sub x y).val ∧
      (F64.sub x y).val ≤ (M : ℚ) * (2 : ℚ) ^ E := by
  have h := add_le x (F64.neg y) hx (by rw [isFin_neg]; exact hy)
    (by rw [val_neg, ← sub_eq_add_neg]; exact h0) M E hM hE1 hE2
    (by rw [val_neg, ← sub_eq_add_neg]; exact hs)
  exact h

/-- Go's `x * y` on finite values whose product has magnitude below
`2^1023`. -/
theorem mul_val (x y : F64) (hx : x.isFin = true) (hy : y.isFin = true)
    (hs : |x.val * y.val| < (2 : ℚ) ^ (1023 : Int)) :
    (F64.mul x y).isFin = true ∧
      |(F64.mul x y).val - x.val * y.val| ≤
        (2 : ℚ) ^ (-53 : Int) * |x.val * y.val| + (2 : ℚ) ^ (-1075 : Int) := by
  cases x with
  | inf b => simp [F64.isFin] at hx
  | nan => simp [F64.isFin] at hx
  | fin m1 e1 =>
    cases y with
    | inf b => simp [F64.isFin] at hy
    | nan => simp [F64.isFin] at hy
    | fin m2 e2 =>
      simp only [F64.mul]
      have hex : ((m1 * m2 : Int) : ℚ) * (2 : ℚ) ^ (e1 + e2) / ((1 : Nat) : ℚ) =
          (F64.fin m1 e1).val * (F64.fin m2 e2).val := by
        rw [Nat.cast_one, div_one, zpow_add₀ (by norm_num : (2 : ℚ) ≠ 0)]
        simp only [F64.val]
        push_cast; ring
      obtain ⟨m, e, hr, _, _, herr⟩ := round_val (m1 * m2) 1 (e1 + e2) (by norm_num)
        (by rw [hex]; exact hs)
      rw [hex] at herr
      rw [hr]
      exact ⟨rfl, herr⟩

/-- Go's `x * y` on finite non-negative values does not pass a bound that is
itself a `float64`. -/
theorem mul_le (x y : F64) (hx : x.isFin = true) (hy : y.isFin = true)
    (hx0 : 0 ≤ x.val) (hy0 : 0 ≤ y.val) (M : Nat) (E : Int)
    (hM : M < 2 ^ 53) (hE1 : -1074 ≤ E) (hE2 : E ≤ 970)
    (hs : x.val * y.val ≤ (M : ℚ) * (2 : ℚ) ^ E) :
    (F64.mul x y).isFin = true ∧ 0 ≤ (F64.mul x y).val ∧
      (F64.mul x y).val ≤ (M : ℚ) * (2 : ℚ) ^ E := by
  cases x with
  | inf b => simp [F64.isFin] at hx
  | nan => simp [F64.isFin] at hx
  | fin m1 e1 =>
    cases y with
    | inf b => simp [F64.isFin] at hy
    | nan => simp [F64.isFin] at hy
    | fin m2 e2 =>
      simp only [F64.mul]
      have hex : ((m1 * m2 : Int) : ℚ) * (2 : ℚ) ^ (e1 + e2) / ((1 : Nat) : ℚ) =
          (F64.fin m1 e1).val * (F64.fin m2 e2).val := by
        rw [Nat.cast_one, div_one, zpow_add₀ (by norm_num : (2 : ℚ) ≠ 0)]
        simp only [F64.val]
        push_cast; ring
      have hm1 : 0 ≤ m1 := by
        have h : (0 : ℚ) ≤ (m1 : ℚ) := by
          simp only [F64.val] at hx0
          exact nonneg_of_mul_nonneg_left hx0 (zpow_pos (by norm_num) _)
        exact_mod_cast h
      have hm2 : 0 ≤ m2 := by
        have h : (0 : ℚ) ≤ (m2 : ℚ) := by
          simp only [F64.val] at hy0
          exact nonneg_of_mul_nonneg_left hy0 (zpow_pos (by norm_num) _)
        exact_mod_cast h
      obtain ⟨m, e, hr, hm0, hle⟩ := round_le (m1 * m2) 1 (e1 + e2) (by norm_num)
        (mul_nonneg hm1 hm2) M E hM hE1 hE2 (by rw [hex]; exact hs)
      rw [hr]
      exact ⟨rfl, mul_nonneg (by exact_mod_cast hm0) (le_of_lt (zpow_pos (by norm_num) _)), hle⟩

/-- The quotient of two finite values, as `round` is given it. -/
theorem div_exact (m1 e1 m2 e2 : Int) (h2 : m2 ≠ 0) :
    (((if m2 < 0 then -m1 else m1) : Int) : ℚ) * (2 : ℚ) ^ (e1 - e2) / ((m2.natAbs : Nat) : ℚ) =
      (F64.fin m1 e1).val / (F64.fin m2 e2).val := by
  have hm2 : (m2 : ℚ) ≠ 0 := by exact_mod_cast h2
  have hp2 : (2 : ℚ) ^ e2 ≠ 0 := zpow_ne_zero _ (by norm_num)
  simp only [F64.val]
  rw [zpow_sub₀ (by norm_num : (2 : ℚ) ≠ 0), Nat.cast_natAbs]
  by_cases hneg : m2 < 0
  · rw [if_pos hneg, abs_of_neg hneg]
    push_cast
    field_simp
    left; ring
  · rw [if_neg hneg, abs_of_nonneg (by omega : 0 ≤ m2)]
    field_simp
    left; ring

/-- Go's `x / y` on finite values, `y` not zero, whose quotient has magnitude
below `2^1023`. -/
theorem div_val (x y : F64) (hx : x.isFin = true) (hy : y.isFin = true) (hy0 : y.val ≠ 0)
    (hs : |x.val / y.val| < (2 : ℚ) ^ (1023 : Int)) :
    (F64.div x y).isFin = true ∧
      |(F64.div x y).val - x.val / y.val| ≤
        (2 : ℚ) ^ (-53 : Int) * |x.val / y.val| + (2 : ℚ) ^ (-1075 : Int) := by
  cases x with
  | inf b => simp [F64.isFin] at hx
  | nan => simp [F64.isFin] at hx
  | fin m1 e1 =>
    cases y with
    | inf b => simp [F64.isFin] at hy
    | nan => simp [F64.isFin] at hy
    | fin m2 e2 =>
      have h2 : m2 ≠ 0 := by
        intro h
        apply hy0
        simp [F64.val, h]
      simp only [F64.div]
      rw [if_neg h2]
      have hex := div_exact m1 e1 m2 e2 h2
      obtain ⟨m, e, hr, _, _, herr⟩ := round_val (if m2 < 0 then -m1 else m1) m2.natAbs
        (e1 - e2) (by omega) (by rw [hex]; exact hs)
      rw [hex] at herr
      rw [hr]
      exact ⟨rfl, herr⟩

/-- Go's `x / y` on finite values, `x` non-negative and `y` positive, does not
pass a bound that is itself a `float64`. -/
theorem div_le (x y : F64) (hx : x.isFin = true) (hy : y.isFin = true)
    (hx0 : 0 ≤ x.val) (hy0 : 0 < y.val) (M : Nat) (E : Int)
    (hM : M < 2 ^ 53) (hE1 : -1074 ≤ E) (hE2 : E ≤ 970)
    (hs : x.val / y.val ≤ (M : ℚ) * (2 : ℚ) ^ E) :
    (F64.div x y).isFin = true ∧ 0 ≤ (F64.div x y).val ∧
      (F64.div x y).val ≤ (M : ℚ) * (2 : ℚ) ^ E := by
  cases x with
  | inf b => simp [F64.isFin] at hx
  | nan => simp [F64.isFin] at hx
  | fin m1 e1 =>
    cases y with
    | inf b => simp [F64.isFin] at hy
    | nan => simp [F64.isFin] at hy
    | fin m2 e2 =>
      have hm2 : 0 < m2 := by
        have h : (0 : ℚ) < (m2 : ℚ) := by
          simp only [F64.val] at hy0
          exact pos_of_mul_pos_left hy0 (le_of_lt (zpow_pos (by norm_num) _))
        exact_mod_cast h
      have hm1 : 0 ≤ m1 := by
        have h : (0 : ℚ) ≤ (m1 : ℚ) := by
          simp only [F64.val] at hx0
          exact nonneg_of_mul_nonneg_left hx0 (zpow_pos (by norm_num) _)
        exact_mod_cast h
      simp only [F64.div]
      rw [if_neg (by omega)]
      have hex := div_exact m1 e1 m2 e2 (by omega)
      obtain ⟨m, e, hr, hm0, hle⟩ := round_le (if m2 < 0 then -m1 else m1) m2.natAbs
        (e1 - e2) (by omega) (by rw [if_neg (by omega)]; exact hm1) M E hM hE1 hE2
        (by rw [hex]; exact hs)
      rw [hr]
      exact ⟨rfl, mul_nonneg (by exact_mod_cast hm0) (le_of_lt (zpow_pos (by norm_num) _)), hle⟩

/-- Go's `x > y` on finite values compares the values. -/
theorem gt_iff (x y : F64) (hx : x.isFin = true) (hy : y.isFin = true) :
    F64.gt x y = true ↔ y.val < x.val := by
  cases x with
  | inf b => simp [F64.isFin] at hx
  | nan => simp [F64.isFin] at hx
  | fin m1 e1 =>
    cases y with
    | inf b => simp [F64.isFin] at hy
    | nan => simp [F64.isFin] at hy
    | fin m2 e2 =>
      simp only [F64.gt, decide_eq_true_eq, F64.val]
      have h1 : 0 ≤ e1 - min e1 e2 := by have := min_le_left e1 e2; omega
      have h2 : 0 ≤ e2 - min e1 e2 := by have := min_le_right e1 e2; omega
      have hp : (0 : ℚ) < (2 : ℚ) ^ (min e1 e2) := zpow_pos (by norm_num) _
      have p1 : ((m1 * 2 ^ (e1 - min e1 e2).toNat : Int) : ℚ) * (2 : ℚ) ^ (min e1 e2) =
          (m1 : ℚ) * (2 : ℚ) ^ e1 := by
        push_cast
        rw [mul_assoc, ← zpow_natCast, Int.toNat_of_nonneg h1,
          ← zpow_add₀ (by norm_num : (2 : ℚ) ≠ 0)]
        congr 2; ring
      have p2 : ((m2 * 2 ^ (e2 - min e1 e2).toNat : Int) : ℚ) * (2 : ℚ) ^ (min e1 e2) =
          (m2 : ℚ) * (2 : ℚ) ^ e2 := by
        push_cast
        rw [mul_assoc, ← zpow_natCast, Int.toNat_of_nonneg h2,
          ← zpow_add₀ (by norm_num : (2 : ℚ) ≠ 0)]
        congr 2; ring
      rw [← p1, ← p2]
      constructor
      · intro h
        have hq : ((m2 * 2 ^ (e2 - min e1 e2).toNat : Int) : ℚ) <
            ((m1 * 2 ^ (e1 - min e1 e2).toNat : Int) : ℚ) := by exact_mod_cast h
        exact mul_lt_mul_of_pos_right hq hp
      · intro h
        have hq := lt_of_mul_lt_mul_right h (le_of_lt hp)
        exact_mod_cast hq

/-- Go's `int(x)` on a finite value of magnitude below `2^63` discards the
fraction: the floor of a non-negative value, the ceiling of a negative one. -/
theorem toInt_val (x : F64) (hx : x.isFin = true) (hr : |x.val| < (2 : ℚ) ^ (63 : Nat)) :
    F64.toInt x = if 0 ≤ x.val then ⌊x.val⌋ else ⌈x.val⌉ := by
  cases x with
  | inf b => simp [F64.isFin] at hx
  | nan => simp [F64.isFin] at hx
  | fin m e =>
    -- the truncated value
    have key : (if 0 ≤ e then m * 2 ^ e.toNat else Int.tdiv m (2 ^ (-e).toNat)) =
        if 0 ≤ (F64.fin m e).val then ⌊(F64.fin m e).val⌋ else ⌈(F64.fin m e).val⌉ := by
      simp only [F64.val]
      by_cases he : 0 ≤ e
      · rw [if_pos he]
        have hv : (m : ℚ) * (2 : ℚ) ^ e = ((m * 2 ^ e.toNat : Int) : ℚ) := by
          push_cast
          rw [← zpow_natCast, Int.toNat_of_nonneg he]
        rw [hv]
        split_ifs
        · rw [Int.floor_intCast]
        · rw [Int.ceil_intCast]
      · rw [if_neg he]
        have hk : 0 ≤ -e := by omega
        have hv : (m : ℚ) * (2 : ℚ) ^ e = (m : ℚ) / ((2 ^ (-e).toNat : Nat) : ℚ) := by
          have : (2 : ℚ) ^ e = ((2 : ℚ) ^ ((-e).toNat))⁻¹ := by
            rw [← zpow_natCast, Int.toNat_of_nonneg hk, zpow_neg, inv_inv]
          rw [this]; push_cast; rw [div_eq_mul_inv]
        have hD : (0 : ℚ) < ((2 ^ (-e).toNat : Nat) : ℚ) := by positivity
        rw [hv]
        by_cases hm : 0 ≤ m
        · have h0 : (0 : ℚ) ≤ (m : ℚ) / ((2 ^ (-e).toNat : Nat) : ℚ) :=
            div_nonneg (by exact_mod_cast hm) (le_of_lt hD)
          rw [if_pos h0, Rat.floor_intCast_div_natCast,
            Int.tdiv_eq_ediv hm (by positivity)]
          push_cast; rfl
        · have hmn : m < 0 := by omega
          have h0 : ¬ (0 : ℚ) ≤ (m : ℚ) / ((2 ^ (-e).toNat : Nat) : ℚ) := by
            rw [not_le]
            exact div_neg_of_neg_of_pos (by exact_mod_cast hmn) hD
          rw [if_neg h0]
          have e1 : (m : ℚ) / ((2 ^ (-e).toNat : Nat) : ℚ) =
              -(((-m : Int) : ℚ) / ((2 ^ (-e).toNat : Nat) : ℚ)) := by
            push_cast; ring
          rw [e1, Int.ceil_neg, Rat.floor_intCast_div_natCast]
          have e2 : m = -(-m) := by ring
          conv_lhs => rw [e2, Int.neg_tdiv, Int.tdiv_eq_ediv (by omega) (by positivity)]
          push_cast; rfl
    have hrange : -(2 ^ 63 : Int) ≤
          (if 0 ≤ e then m * 2 ^ e.toNat else Int.tdiv m (2 ^ (-e).toNat)) ∧
        (if 0 ≤ e then m * 2 ^ e.toNat else Int.tdiv m (2 ^ (-e).toNat)) < (2 ^ 63 : Int) := by
      rw [key]
      rw [abs_lt] at hr
      obtain ⟨hr1, hr2⟩ := hr
      split_ifs with h0
      · constructor
        · have : (0 : Int) ≤ ⌊(F64.fin m e).val⌋ := Int.floor_nonneg.2 h0
          omega
        · have h1 : ((⌊(F64.fin m e).val⌋ : Int) : ℚ) ≤ (F64.fin m e).val := Int.floor_le _
          have h2 : ((⌊(F64.fin m e).val⌋ : Int) : ℚ) < (((2 : Int) ^ 63 : Int) : ℚ) := by
            push_cast; linarith
          exact_mod_cast h2
      · push_neg at h0
        constructor
        · have h1 : (F64.fin m e).val ≤ ((⌈(F64.fin m e).val⌉ : Int) : ℚ) := Int.le_ceil _
          have h2 : (((-(2 : Int) ^ 63) : Int) : ℚ) < ((⌈(F64.fin m e).val⌉ : Int) : ℚ) := by
            push_cast; linarith
          have h3 : (-(2 : Int) ^ 63) < ⌈(F64.fin m e).val⌉ := by exact_mod_cast h2
          omega
        · have : ⌈(F64.fin m e).val⌉ ≤ 0 := Int.ceil_le.2 (by simpa using le_of_lt h0)
          omega
    simp only [F64.toInt]
    rw [if_pos hrange]
    exact key

end FloatRoundingD

/-! ## The float64 embedding: the intensity byte -/

section FloatIntensity

theorem ofInt_zero_eq : F64.ofInt 0 = F64.fin 0 0 := by decide!

theorem ofInt_one_eq : F64.ofInt 1 = F64.fin 4503599627370496 (-52) := by decide!

theorem ofInt_255_eq : F64.ofInt 255 = F64.fin 8972014882652160 (-45) := by decide!

theorem ofInt_one_val : (F64.ofInt 1).val = 1 := by
  rw [ofInt_one_eq]
  simp only [F64.val]
  rw [zpow_neg]
  norm_num

theorem ofInt_255_val : (F64.ofInt 255).val = 255 := by
  rw [ofInt_255_eq]
  simp only [F64.val]
  rw [zpow_neg]
  norm_num

theorem eta_le_u : (2 : ℚ) ^ (-1075 : Int) ≤ (2 : ℚ) ^ (-53 : Int) :=
  zpow_le_zpow_right₀ (by norm_num) (by norm_num)

theorem u_le : (2 : ℚ) ^ (-53 : Int) ≤ 1 / 4 := by
  rw [zpow_neg]
  norm_num

/-- Go's `float64(n)` of a positive `uint` is a finite positive value. -/
theorem ofUint_pos (n : Nat) (hn : 0 < n) (hu : n < uintSize) :
    (ieee.ofUint n).isFin = true ∧ 0 < (ieee.ofUint n).val := by
  have hnq : (1 : ℚ) ≤ (n : ℚ) := by exact_mod_cast hn
  have hx : ((n : Int) : ℚ) * (2 : ℚ) ^ (0 : Int) / ((1 : Nat) : ℚ) = (n : ℚ) := by simp
  have hlt : |((n : Int) : ℚ) * (2 : ℚ) ^ (0 : Int) / ((1 : Nat) : ℚ)| <
      (2 : ℚ) ^ (1023 : Int) := by
    rw [hx, abs_of_pos (by linarith)]
    have h1 : (n : ℚ) < ((2 ^ 64 : Nat) : ℚ) := by
      have : n < 2 ^ 64 := hu
      exact_mod_cast this
    have h2 : ((2 ^ 64 : Nat) : ℚ) = (2 : ℚ) ^ (64 : Int) := by norm_num
    have h3 : (2 : ℚ) ^ (64 : Int) ≤ (2 : ℚ) ^ (1023 : Int) :=
      zpow_le_zpow_right₀ (by norm_num) (by norm_num)
    linarith
  obtain ⟨m, e, hr, _, _, herr⟩ := round_val (n : Int) 1 0 (by norm_num) hlt
  rw [hx, abs_of_pos (by linarith : (0 : ℚ) < (n : ℚ))] at herr
  have hval : (ieee.ofUint n) = F64.fin m e := hr
  rw [hval]
  refine ⟨rfl, ?_⟩
  simp only [F64.val]
  have h1 := (abs_le.1 herr).1
  have hu1 := u_le
  have hu0 : (0 : ℚ) < (2 : ℚ) ^ (-53 : Int) := zpow_pos (by norm_num) _
  have he := eta_le_u
  have hun : (2 : ℚ) ^ (-53 : Int) * (n : ℚ) ≤ 1 / 4 * (n : ℚ) :=
    mul_le_mul_of_nonneg_right hu1 (by linarith)
  generalize (2 : ℚ) ^ (-53 : Int) = u at h1 hu1 he hun
  generalize (2 : ℚ) ^ (-1075 : Int) = η at h1 he
  generalize (m : ℚ) * (2 : ℚ) ^ e = w at h1 ⊢
  linarith

/-- In the escape branch of the float64 `orbitColor`, for a smoothed value `v`
with `0 < v ≤ float64(depth)` and `0 < depth`: the factor
`k = 1.0 - v/float64(depth)` as the program computes it lies in `0..1`, the
product `k*255.0` lies in `0..255`, the conversion `int(k*255.0)` is its floor
and lies in `0..255`, the mask `& 0xff` changes nothing, and the byte of the
pixel is that integer. -/
theorem fl_intensity_in_range (M : MathFns F64) (fuel : Nat) (g : Globals F64) (i j : Int)
    (min_x min_y max_x max_y v : F64)
    (hv : Fl.divergez ieee M fuel (Fl.fc ieee)
      (Fl.pixelCoord ieee i j min_x min_y max_x max_y) g.zp.depth = some v)
    (hpos : ieee.gt v (ieee.ofInt 0) = true) (hd : 0 < g.zp.depth)
    (hu : g.zp.depth < uintSize) (hle : ieee.gt v (ieee.ofUint g.zp.depth) = false) :
    (Fl.factor ieee v g.zp.depth).isFin = true ∧
    0 ≤ (Fl.factor ieee v g.zp.depth).val ∧ (Fl.factor ieee v g.zp.depth).val ≤ 1 ∧
    (Fl.scaled ieee v g.zp.depth).isFin = true ∧
    0 ≤ (Fl.scaled ieee v g.zp.depth).val ∧ (Fl.scaled ieee v g.zp.depth).val ≤ 255 ∧
    ieee.toInt (Fl.scaled ieee v g.zp.depth) = ⌊(Fl.scaled ieee v g.zp.depth).val⌋ ∧
    0 ≤ ieee.toInt (Fl.scaled ieee v g.zp.depth) ∧
    ieee.toInt (Fl.scaled ieee v g.zp.depth) ≤ 255 ∧
    ieee.toInt (Fl.scaled ieee v g.zp.depth) % 256 = ieee.toInt (Fl.scaled ieee v g.zp.depth) ∧
    Fl.orbitColor ieee M fuel g i j min_x min_y max_x max_y =
      some (⟨j, i, (ieee.toInt (Fl.scaled ieee v g.zp.depth)).toNat⟩, g) := by
  obtain ⟨hdf, hdpos⟩ := ofUint_pos g.zp.depth hd hu
  have hz : ieee.ofInt 0 = F64.fin 0 0 := ofInt_zero_eq
  -- the smoothed value is finite, positive and at most `float64(depth)`
  have hvf : v.isFin = true := by
    cases v with
    | fin m e => rfl
    | nan => simp [ieee, F64.gt] at hpos
    | inf b =>
      exfalso
      cases hD : ieee.ofUint g.zp.depth with
      | fin m e =>
        rw [hD] at hle
        rw [hz] at hpos
        simp only [ieee, F64.gt] at hpos hle
        simp at hpos hle
        rw [hpos] at hle
        exact absurd hle (by decide)
      | nan => rw [hD] at hdf; simp [F64.isFin] at hdf
      | inf c => rw [hD] at hdf; simp [F64.isFin] at hdf
  have hv0 : 0 < v.val := by
    have h := (gt_iff v (F64.fin 0 0) hvf rfl).1 (by rw [← hz]; exact hpos)
    simpa [F64.val] using h
  have hvd : v.val ≤ (ieee.ofUint g.zp.depth).val := by
    by_contra hcon
    push_neg at hcon
    have h := (gt_iff v (ieee.ofUint g.zp.depth) hvf hdf).2 hcon
    have h2 : ieee.gt v (ieee.ofUint g.zp.depth) = true := h
    rw [hle] at h2
    exact absurd h2 (by decide)
  have one_eq : (1 : ℚ) = ((1 : Nat) : ℚ) * (2 : ℚ) ^ (0 : Int) := by norm_num
  have c255_eq : (255 : ℚ) = ((255 : Nat) : ℚ) * (2 : ℚ) ^ (0 : Int) := by norm_num
  -- the quotient
  have hq := div_le v (ieee.ofUint g.zp.depth) hvf hdf (le_of_lt hv0) hdpos 1 0
    (by norm_num) (by norm_num) (by norm_num)
    (by rw [← one_eq]; exact (div_le_one hdpos).2 hvd)
  rw [← one_eq] at hq
  obtain ⟨hqf, hq0, hq1⟩ := hq
  -- the factor
  have hone : (F64.ofInt 1).isFin = true := by rw [ofInt_one_eq]; rfl
  have hk := sub_le (F64.ofInt 1) (F64.div v (ieee.ofUint g.zp.depth)) hone hqf
    (by rw [ofInt_one_val]; linarith) 1 0 (by norm_num) (by norm_num) (by norm_num)
    (by rw [ofInt_one_val, ← one_eq]; linarith)
  rw [← one_eq] at hk
  obtain ⟨hkf, hk0, hk1⟩ := hk
  have hkdef : Fl.factor ieee v g.zp.depth =
      F64.sub (F64.ofInt 1) (F64.div v (ieee.ofUint g.zp.depth)) := rfl
  -- the product
  have h255 : (F64.ofInt 255).isFin = true := by rw [ofInt_255_eq]; rfl
  have hP := mul_le (Fl.factor ieee v g.zp.depth) (F64.ofInt 255) (by rw [hkdef]; exact hkf)
    h255 (by rw [hkdef]; exact hk0) (by rw [ofInt_255_val]; norm_num) 255 0
    (by norm_num) (by norm_num) (by norm_num)
    (by rw [ofInt_255_val, ← c255_eq, hkdef]; nlinarith)
  rw [← c255_eq] at hP
  have hPdef : Fl.scaled ieee v g.zp.depth =
      F64.mul (Fl.factor ieee v g.zp.depth) (F64.ofInt 255) := rfl
  rw [← hPdef] at hP
  obtain ⟨hPf, hP0, hP255⟩ := hP
  -- the conversion
  have hT : F64.toInt (Fl.scaled ieee v g.zp.depth) = ⌊(Fl.scaled ieee v g.zp.depth).val⌋ := by
    rw [toInt_val _ hPf (by rw [abs_of_nonneg hP0]; norm_num; linarith), if_pos hP0]
  have hT0 : 0 ≤ ⌊(Fl.scaled ieee v g.zp.depth).val⌋ := Int.floor_nonneg.2 hP0
  have hT255 : ⌊(Fl.scaled ieee v g.zp.depth).val⌋ ≤ 255 := by
    have h := Int.floor_mono hP255
    rw [show (255 : ℚ) = ((255 : Int) : ℚ) by norm_num, Int.floor_intCast] at h
    exact h
  have hTi : ieee.toInt (Fl.scaled ieee v g.zp.depth) =
      ⌊(Fl.scaled ieee v g.zp.depth).val⌋ := hT
  have hmod : ieee.toInt (Fl.scaled ieee v g.zp.depth) % 256 =
      ieee.toInt (Fl.scaled ieee v g.zp.depth) := by
    rw [hTi]
    exact Int.emod_eq_of_lt hT0 (by omega)
  refine ⟨by rw [hkdef]; exact hkf, by rw [hkdef]; exact hk0, by rw [hkdef]; exact hk1,
    hPf, hP0, hP255, hTi, by rw [hTi]; exact hT0, by rw [hTi]; exact hT255, hmod, ?_⟩
  unfold Fl.orbitColor
  rw [hv]
  simp only [hpos, if_true, Fl.intensity, hmod]

end FloatIntensity

section FloatIntensityClaims

/-- The result of `roundPos` is a non-negative finite value or `+Inf`. -/
theorem roundPos_shape (a d : Nat) (s : Int) :
    (∃ (m : Nat) (e : Int), F64.roundPos a d s = F64.fin (m : Int) e) ∨
      F64.roundPos a d s = F64.inf false := by
  rcases roundPos_cases a d s with ⟨_, hr⟩ | ⟨m, e, hr, _⟩ | ⟨hr, _⟩
  · left; exact ⟨0, 0, by rw [hr]; rfl⟩
  · left; exact ⟨m, e, hr⟩
  · right; exact hr

/-- The result of `round` has the sign of the number rounded. -/
theorem round_shape (n : Int) (d : Nat) (s : Int) (hd : 0 < d) :
    (0 ≤ n → (∃ (m e : Int), F64.round n d s = F64.fin m e ∧ 0 ≤ m) ∨
      F64.round n d s = F64.inf false) ∧
    (n ≤ 0 → (∃ (m e : Int), F64.round n d s = F64.fin m e ∧ m ≤ 0) ∨
      F64.round n d s = F64.inf true) := by
  unfold F64.round
  rw [if_neg (by omega)]
  by_cases h0 : n = 0
  · rw [if_pos h0]
    exact ⟨fun _ => Or.inl ⟨0, 0, rfl, le_refl _⟩, fun _ => Or.inl ⟨0, 0, rfl, le_refl _⟩⟩
  rw [if_neg h0]
  by_cases hneg : n < 0
  · rw [if_pos hneg]
    refine ⟨fun h => absurd h (by omega), fun _ => ?_⟩
    rcases roundPos_shape n.natAbs d s with ⟨m, e, hr⟩ | hr
    · left; exact ⟨-(m : Int), e, by rw [hr]; rfl, by omega⟩
    · right; rw [hr]; rfl
  · rw [if_neg hneg]
    refine ⟨fun _ => ?_, fun h => absurd h (by omega)⟩
    rcases roundPos_shape n.natAbs d s with ⟨m, e, hr⟩ | hr
    · left; exact ⟨(m : Int), e, hr, by omega⟩
    · right; exact hr

/-- In the escape branch of the float64 `orbitColor` (smoothed value `v > 0`,
`0 < depth`) the factor `k = 1.0 - v/float64(depth)`, when finite, is at most
1. -/
theorem fl_factor_le_one (v : F64) (depth : Nat)
    (hpos : ieee.gt v (ieee.ofInt 0) = true) (hd : 0 < depth) (hu : depth < uintSize)
    (hk : (Fl.factor ieee v depth).isFin = true) :
    (Fl.factor ieee v depth).val ≤ 1 := by
  obtain ⟨hdf, hdpos⟩ := ofUint_pos depth hd hu
  have hz : ieee.ofInt 0 = F64.fin 0 0 := ofInt_zero_eq
  have hkdef : Fl.factor ieee v depth =
      F64.add (F64.ofInt 1) (F64.neg (F64.div v (ieee.ofUint depth))) := rfl
  rw [hkdef] at hk ⊢
  rw [ofInt_one_eq] at hk ⊢
  obtain ⟨md, ed, hD⟩ : ∃ md ed, ieee.ofUint depth = F64.fin md ed := by
    cases hD : ieee.ofUint depth with
    | nan => rw [hD] at hdf; simp [F64.isFin] at hdf
    | inf c => rw [hD] at hdf; simp [F64.isFin] at hdf
    | fin md ed => exact ⟨md, ed, rfl⟩
  rw [hD] at hdpos hk ⊢
  · have hmd : 0 < md := by
      have h : (0 : ℚ) < (md : ℚ) := by
        simp only [F64.val] at hdpos
        exact pos_of_mul_pos_left hdpos (le_of_lt (zpow_pos (by norm_num) _))
      exact_mod_cast h
    cases v with
    | nan => simp [ieee, F64.gt] at hpos
    | inf b =>
      rw [hz] at hpos
      simp only [ieee, F64.gt] at hpos
      simp at hpos
      subst hpos
      have hmd2 : ¬ md < 0 := by omega
      simp [F64.div, F64.neg, F64.add, F64.isFin, hmd2] at hk
    | fin mv ev =>
      have hmv : 0 < mv := by
        have h := (gt_iff (F64.fin mv ev) (F64.fin 0 0) rfl rfl).1 (by rw [← hz]; exact hpos)
        simp only [F64.val] at h
        have h2 : (0 : ℚ) < (mv : ℚ) := by
          have h3 : (0 : ℚ) < (mv : ℚ) * (2 : ℚ) ^ ev := by simpa using h
          exact pos_of_mul_pos_left h3 (le_of_lt (zpow_pos (by norm_num) _))
        exact_mod_cast h2
      have hdiv : F64.div (F64.fin mv ev) (F64.fin md ed) =
          F64.round mv md.natAbs (ev - ed) := by
        simp only [F64.div]
        rw [if_neg (by omega), if_neg (by omega)]
      rw [hdiv] at hk ⊢
      rcases (round_shape mv md.natAbs (ev - ed) (by omega)).1 (le_of_lt hmv) with
        ⟨mq, eq, hq, hmq⟩ | hq
      · rw [hq] at hk ⊢
        simp only [F64.neg, F64.add] at hk ⊢
        have h52 : (4503599627370496 : Int) ≠ 0 := by norm_num
        rw [if_neg h52] at hk ⊢
        by_cases hq0 : -mq = 0
        · rw [if_pos hq0]
          simp only [F64.val]
          rw [zpow_neg]
          norm_num
        · rw [if_neg hq0] at hk ⊢
          have hal := align_val 4503599627370496 (-52) (-mq) eq
          have hone : ((4503599627370496 : Int) : ℚ) * (2 : ℚ) ^ (-52 : Int) = 1 := by
            rw [zpow_neg]; norm_num
          rw [hone] at hal
          have hqv : (0 : ℚ) ≤ (mq : ℚ) * (2 : ℚ) ^ eq :=
            mul_nonneg (by exact_mod_cast hmq) (le_of_lt (zpow_pos (by norm_num) _))
          have hp : (0 : ℚ) < (2 : ℚ) ^ (min (-52) eq) := zpow_pos (by norm_num) _
          by_cases hn : 0 ≤ 4503599627370496 * 2 ^ (-52 - min (-52) eq).toNat +
              -mq * 2 ^ (eq - min (-52) eq).toNat
          · obtain ⟨m, e, hr, _, hle⟩ := round_le _ 1 (min (-52) eq) (by norm_num) hn 1 0
              (by norm_num) (by norm_num) (by norm_num)
              (by
                rw [Nat.cast_one, div_one, hal]
                push_cast
                norm_num
                linarith only [hqv])
            rw [hr]
            simp only [F64.val]
            have : ((1 : Nat) : ℚ) * (2 : ℚ) ^ (0 : Int) = 1 := by norm_num
            rw [this] at hle
            exact hle
          · rcases (round_shape _ 1 (min (-52) eq) (by norm_num)).2 (le_of_lt (not_le.1 hn)) with
              ⟨m, e, hr, hm⟩ | hr
            · rw [hr]
              simp only [F64.val]
              have : (m : ℚ) * (2 : ℚ) ^ e ≤ 0 :=
                mul_nonpos_of_nonpos_of_nonneg (by exact_mod_cast hm)
                  (le_of_lt (zpow_pos (by norm_num) _))
              linarith only [this]
            · rw [hr] at hk
              simp [F64.isFin] at hk
      · rw [hq] at hk
        simp [F64.neg, F64.add, F64.isFin] at hk

/-- C19 (as amended): in the escape branch of the float64 `orbitColor`
(smoothed value `v > 0`, `0 < depth`) the factor `k = 1.0 - v/float64(depth)` as
the program computes it, when finite, is at most 1 (it can be 1); and when
`v ≤ float64(depth)`, `k` lies in `0..1`, the product `k*255.0` lies in
`0..255`, the conversion `int(k*255.0)` is its floor and lies in `0..255`, the
mask `& 0xff` changes nothing, and the byte of the pixel is that integer; so a
negative converted value, the only one that wraps, needs
`v > float64(depth)`. -/
theorem C19_float_intensity_range (M : MathFns F64) (fuel : Nat) (g : Globals F64) (i j : Int)
    (min_x min_y max_x max_y v : F64)
    (hv : Fl.divergez ieee M fuel (Fl.fc ieee)
      (Fl.pixelCoord ieee i j min_x min_y max_x max_y) g.zp.depth = some v)
    (hpos : ieee.gt v (ieee.ofInt 0) = true) (hd : 0 < g.zp.depth)
    (hu : g.zp.depth < uintSize) :
    ((Fl.factor ieee v g.zp.depth).isFin = true → (Fl.factor ieee v g.zp.depth).val ≤ 1) ∧
    (ieee.gt v (ieee.ofUint g.zp.depth) = false →
      ((Fl.factor ieee v g.zp.depth).isFin = true ∧
      0 ≤ (Fl.factor ieee v g.zp.depth).val ∧ (Fl.factor ieee v g.zp.depth).val ≤ 1 ∧
      (Fl.scaled ieee v g.zp.depth).isFin = true ∧
      0 ≤ (Fl.scaled ieee v g.zp.depth).val ∧ (Fl.scaled ieee v g.zp.depth).val ≤ 255 ∧
      ieee.toInt (Fl.scaled ieee v g.zp.depth) = ⌊(Fl.scaled ieee v g.zp.depth).val⌋ ∧
      0 ≤ ieee.toInt (Fl.scaled ieee v g.zp.depth) ∧
      ieee.toInt (Fl.scaled ieee v g.zp.depth) ≤ 255 ∧
      ieee.toInt (Fl.scaled ieee v g.zp.depth) % 256 = ieee.toInt (Fl.scaled ieee v g.zp.depth) ∧
      Fl.orbitColor ieee M fuel g i j min_x min_y max_x max_y =
        some (⟨j, i, (ieee.toInt (Fl.scaled ieee v g.zp.depth)).toNat⟩, g))) :=
  ⟨fl_factor_le_one v g.zp.depth hpos hd hu,
    fun hle => fl_intensity_in_range M fuel g i j min_x min_y max_x max_y v hv hpos hd hu hle⟩

/-- C19 (witness): the float64 pixel whose coordinate is `c = 3`, at depth 50,
with library functions chosen so that the smoothed value is `1.25`: the byte is
`int(k*255.0)` itself. -/
theorem C19_float_witness :
    (Fl.divergez ieee (⟨fun x => x, fun z => z.re, F64.ofInt 16⟩ : MathFns F64) 3 (Fl.fc ieee)
        (Fl.pixelCoord ieee 0 0 (F64.ofInt 3) (F64.ofInt 0) (F64.ofInt 3) (F64.ofInt 0)) 50 =
        some (F64.lit 5 4) ∧
      ieee.gt (F64.lit 5 4) (ieee.ofInt 0) = true ∧
      ieee.gt (F64.lit 5 4) (ieee.ofUint 50) = false) ∧
    ieee.toInt (Fl.scaled ieee (F64.lit 5 4) 50) % 256 =
      ieee.toInt (Fl.scaled ieee (F64.lit 5 4) 50) ∧
    Fl.orbitColor ieee (⟨fun x => x, fun z => z.re, F64.ofInt 16⟩ : MathFns F64) 3
        ⟨⟨F64.ofInt 3, F64.ofInt 0, F64.ofInt 0, 50⟩, []⟩ 0 0
        (F64.ofInt 3) (F64.ofInt 0) (F64.ofInt 3) (F64.ofInt 0) =
      some (⟨0, 0, (ieee.toInt (Fl.scaled ieee (F64.lit 5 4) 50)).toNat⟩,
        ⟨⟨F64.ofInt 3, F64.ofInt 0, F64.ofInt 0, 50⟩, []⟩) :=
  have hv : Fl.divergez ieee (⟨fun x => x, fun z => z.re, F64.ofInt 16⟩ : MathFns F64) 3
      (Fl.fc ieee)
      (Fl.pixelCoord ieee 0 0 (F64.ofInt 3) (F64.ofInt 0) (F64.ofInt 3) (F64.ofInt 0)) 50 =
      some (F64.lit 5 4) := by decide!
  have hpos : ieee.gt (F64.lit 5 4) (ieee.ofInt 0) = true := by decide!
  have hle : ieee.gt (F64.lit 5 4) (ieee.ofUint 50) = false := by decide!
  have h := (C19_float_intensity_range
    (⟨fun x => x, fun z => z.re, F64.ofInt 16⟩ : MathFns F64)
    3 ⟨⟨F64.ofInt 3, F64.ofInt 0, F64.ofInt 0, 50⟩, []⟩ 0 0
    (F64.ofInt 3) (F64.ofInt 0) (F64.ofInt 3) (F64.ofInt 0) (F64.lit 5 4) hv hpos
    (by decide) (by norm_num [uintSize])).2 hle
  ⟨⟨hv, hpos, hle⟩, h.2.2.2.2.2.2.2.2.2.1, h.2.2.2.2.2.2.2.2.2.2⟩

/-- C19 (counterexample): the float64 value `v = 6 * 2^-52`, about `1.33e-15`,
at depth 50 satisfies `0 < v ≤ depth`; the quotient `v/50` is below half the
spacing of `float64` at 1, so the factor `k = 1.0 - v/50` is exactly `1.0`, not
below 1; `int(k*255.0)` is 255, outside `0..254`, and the byte is 255 with no
wrap. Every pixel whose smoothed value is this `v` gets the byte 255. -/
theorem C19_float_counterexample :
    ieee.gt (F64.round 6 1 (-52)) (ieee.ofInt 0) = true ∧
    ieee.gt (F64.round 6 1 (-52)) (ieee.ofUint 50) = false ∧
    Fl.factor ieee (F64.round 6 1 (-52)) 50 = ieee.ofInt 1 ∧
    ieee.toInt (Fl.scaled ieee (F64.round 6 1 (-52)) 50) = 255 ∧
    Fl.intensity ieee (F64.round 6 1 (-52)) 50 = 255 ∧
    ∀ (M : MathFns F64) (fuel : Nat) (g : Globals F64) (i j : Int)
      (min_x min_y max_x max_y : F64), g.zp.depth = 50 →
      Fl.divergez ieee M fuel (Fl.fc ieee)
        (Fl.pixelCoord ieee i j min_x min_y max_x max_y) g.zp.depth =
        some (F64.round 6 1 (-52)) →
      Fl.orbitColor ieee M fuel g i j min_x min_y max_x max_y = some (⟨j, i, 255⟩, g) := by
  have hpos : ieee.gt (F64.round 6 1 (-52)) (ieee.ofInt 0) = true := by decide!
  have hb : Fl.intensity ieee (F64.round 6 1 (-52)) 50 = 255 := by decide!
  refine ⟨hpos, by decide!, by decide!, by decide!, hb, ?_⟩
  intro M fuel g i j min_x min_y max_x max_y hd hv
  unfold Fl.orbitColor
  rw [hv]
  simp only [hpos, if_true, hd, hb]

/-- C6 (as amended): when the float64 `divergez` returns a smoothed value
`v > 0`, the intensity byte of `orbitColor` is `int(P) & 0xFF`, where
`P = k*255.0` and `k = 1.0 - v/float64(depth)` are the `float64` values the
program computes (each operation rounded), and `int` discards the fraction of
`P`: for a finite `P` of magnitude below `2^63` it is `floor(P)` when `P ≥ 0`
and `ceil(P)` when `P` is negative. -/
theorem C6_float_intensity_truncates (M : MathFns F64) (fuel : Nat) (g : Globals F64)
    (i j : Int) (min_x min_y max_x max_y v : F64)
    (hv : Fl.divergez ieee M fuel (Fl.fc ieee)
      (Fl.pixelCoord ieee i j min_x min_y max_x max_y) g.zp.depth = some v)
    (hpos : ieee.gt v (ieee.ofInt 0) = true) :
    Fl.orbitColor ieee M fuel g i j min_x min_y max_x max_y =
      some (⟨j, i, (ieee.toInt (Fl.scaled ieee v g.zp.depth) % 256).toNat⟩, g) ∧
    Fl.scaled ieee v g.zp.depth =
      ieee.mul (ieee.sub (ieee.ofInt 1) (ieee.div v (ieee.ofUint g.zp.depth)))
        (ieee.ofInt 255) ∧
    ((Fl.scaled ieee v g.zp.depth).isFin = true →
      |(Fl.scaled ieee v g.zp.depth).val| < (2 : ℚ) ^ (63 : Nat) →
      (0 ≤ (Fl.scaled ieee v g.zp.depth).val →
        ieee.toInt (Fl.scaled ieee v g.zp.depth) = ⌊(Fl.scaled ieee v g.zp.depth).val⌋) ∧
      ((Fl.scaled ieee v g.zp.depth).val < 0 →
        ieee.toInt (Fl.scaled ieee v g.zp.depth) = ⌈(Fl.scaled ieee v g.zp.depth).val⌉)) := by
  refine ⟨?_, rfl, ?_⟩
  · unfold Fl.orbitColor
    rw [hv]
    simp only [hpos, if_true, Fl.intensity]
  · intro hf hr
    have h := toInt_val _ hf hr
    have h2 : ieee.toInt (Fl.scaled ieee v g.zp.depth) =
        if 0 ≤ (Fl.scaled ieee v g.zp.depth).val then ⌊(Fl.scaled ieee v g.zp.depth).val⌋
        else ⌈(Fl.scaled ieee v g.zp.depth).val⌉ := h
    constructor
    · intro h0; rw [h2, if_pos h0]
    · intro h0; rw [h2, if_neg (not_le.2 h0)]

/-- C6 (witness): the float64 pixel whose coordinate is `c = 3`, at depth 2,
with library functions chosen so that the smoothed value is 3: the factor is
`-0.5`, the product `-127.5`, the conversion gives `-127` (the ceiling, not the
floor `-128`) and the byte is 129. -/
theorem C6_float_witness :
    (Fl.divergez ieee (⟨fun _ => F64.ofInt (-1), fun z => z.re, F64.ofInt 1⟩ : MathFns F64) 3
        (Fl.fc ieee)
        (Fl.pixelCoord ieee 0 0 (F64.ofInt 3) (F64.ofInt 0) (F64.ofInt 3) (F64.ofInt 0)) 2 =
        some (F64.ofInt 3) ∧
      ieee.gt (F64.ofInt 3) (ieee.ofInt 0) = true) ∧
    Fl.orbitColor ieee (⟨fun _ => F64.ofInt (-1), fun z => z.re, F64.ofInt 1⟩ : MathFns F64) 3
        ⟨⟨F64.ofInt 3, F64.ofInt 0, F64.ofInt 0, 2⟩, []⟩ 0 0
        (F64.ofInt 3) (F64.ofInt 0) (F64.ofInt 3) (F64.ofInt 0) =
      some (⟨0, 0, (ieee.toInt (Fl.scaled ieee (F64.ofInt 3) 2) % 256).toNat⟩,
        ⟨⟨F64.ofInt 3, F64.ofInt 0, F64.ofInt 0, 2⟩, []⟩) ∧
    Fl.scaled ieee (F64.ofInt 3) 2 = F64.lit (-255) 2 ∧
    ieee.toInt (Fl.scaled ieee (F64.ofInt 3) 2) = -127 ∧
    (ieee.toInt (Fl.scaled ieee (F64.ofInt 3) 2) % 256).toNat = 129 :=
  have hv : Fl.divergez ieee
      (⟨fun _ => F64.ofInt (-1), fun z => z.re, F64.ofInt 1⟩ : MathFns F64) 3 (Fl.fc ieee)
      (Fl.pixelCoord ieee 0 0 (F64.ofInt 3) (F64.ofInt 0) (F64.ofInt 3) (F64.ofInt 0)) 2 =
      some (F64.ofInt 3) := by decide!
  have hpos : ieee.gt (F64.ofInt 3) (ieee.ofInt 0) = true := by decide!
  have h := C6_float_intensity_truncates
    (⟨fun _ => F64.ofInt (-1), fun z => z.re, F64.ofInt 1⟩ : MathFns F64)
    3 ⟨⟨F64.ofInt 3, F64.ofInt 0, F64.ofInt 0, 2⟩, []⟩ 0 0
    (F64.ofInt 3) (F64.ofInt 0) (F64.ofInt 3) (F64.ofInt 0) (F64.ofInt 3) hv hpos
  ⟨⟨hv, hpos⟩, h.1, by decide!, by decide!, by decide!⟩

end FloatIntensityClaims

/-! ## The float64 embedding: the pixel mapping against exact arithmetic -/

section FloatError

theorem near_exact (x : F64) (hx : x.isFin = true) : F64.Near x x.val 0 :=
  ⟨hx, by simp⟩

theorem near_mono (x : F64) (q ε ε2 : ℚ) (h : F64.Near x q ε) (hε : ε ≤ ε2) :
    F64.Near x q ε2 :=
  ⟨h.1, le_trans h.2 hε⟩

/-- A value near `q` has magnitude at most `|q| + ε`. -/
theorem near_abs (x : F64) (q ε : ℚ) (h : F64.Near x q ε) : |x.val| ≤ |q| + ε := by
  have h1 : |x.val| ≤ |q| + |x.val - q| := by
    have := abs_add q (x.val - q)
    simpa using this
  linarith [h.2]

/-- The error of a rounded sum. -/
theorem near_add (x y : F64) (qx qy εx εy B : ℚ) (hx : F64.Near x qx εx)
    (hy : F64.Near y qy εy) (hB : |qx + qy| + εx + εy ≤ B)
    (hB2 : B < (2 : ℚ) ^ (1023 : Int)) :
    F64.Near (F64.add x y) (qx + qy)
      (εx + εy + (2 : ℚ) ^ (-53 : Int) * B + (2 : ℚ) ^ (-1075 : Int)) := by
  have hu : (0 : ℚ) < (2 : ℚ) ^ (-53 : Int) := zpow_pos (by norm_num) _
  have hd : |x.val + y.val - (qx + qy)| ≤ εx + εy := by
    have e : x.val + y.val - (qx + qy) = (x.val - qx) + (y.val - qy) := by ring
    rw [e]
    exact le_trans (abs_add _ _) (add_le_add hx.2 hy.2)
  have hs : |x.val + y.val| ≤ B := by
    have h1 : |x.val + y.val| ≤ |qx + qy| + |x.val + y.val - (qx + qy)| := by
      have := abs_add (qx + qy) (x.val + y.val - (qx + qy))
      simpa using this
    linarith
  obtain ⟨hf, herr⟩ := add_val x y hx.1 hy.1 (lt_of_le_of_lt hs hB2)
  refine ⟨hf, ?_⟩
  have e : (F64.add x y).val - (qx + qy) =
      ((F64.add x y).val - (x.val + y.val)) + (x.val + y.val - (qx + qy)) := by ring
  rw [e]
  have h2 := abs_add ((F64.add x y).val - (x.val + y.val)) (x.val + y.val - (qx + qy))
  have h3 : (2 : ℚ) ^ (-53 : Int) * |x.val + y.val| ≤ (2 : ℚ) ^ (-53 : Int) * B :=
    mul_le_mul_of_nonneg_left hs (le_of_lt hu)
  linarith

/-- The error of a rounded difference. -/
theorem near_sub (x y : F64) (qx qy εx εy B : ℚ) (hx : F64.Near x qx εx)
    (hy : F64.Near y qy εy) (hB : |qx - qy| + εx + εy ≤ B)
    (hB2 : B < (2 : ℚ) ^ (1023 : Int)) :
    F64.Near (F64.sub x y) (qx - qy)
      (εx + εy + (2 : ℚ) ^ (-53 : Int) * B + (2 : ℚ) ^ (-1075 : Int)) := by
  have hy2 : F64.Near (F64.neg y) (-qy) εy := by
    refine ⟨by rw [isFin_neg]; exact hy.1, ?_⟩
    rw [val_neg]
    have e : -y.val - -qy = -(y.val - qy) := by ring
    rw [e, abs_neg]
    exact hy.2
  have h := near_add x (F64.neg y) qx (-qy) εx εy B hx hy2
    (by rw [← sub_eq_add_neg]; exact hB) hB2
  rw [← sub_eq_add_neg] at h
  exact h

/-- The error of a rounded product. -/
theorem near_mul (x y : F64) (qx qy εx εy Bx By : ℚ) (hx : F64.Near x qx εx)
    (hy : F64.Near y qy εy) (hBx : |qx| + εx ≤ Bx) (hBy : |qy| + εy ≤ By)
    (hB2 : Bx * By < (2 : ℚ) ^ (1023 : Int)) :
    F64.Near (F64.mul x y) (qx * qy)
      (Bx * εy + By * εx + (2 : ℚ) ^ (-53 : Int) * (Bx * By) + (2 : ℚ) ^ (-1075 : Int)) := by
  have hu : (0 : ℚ) < (2 : ℚ) ^ (-53 : Int) := zpow_pos (by norm_num) _
  have hvx : |x.val| ≤ Bx := le_trans (near_abs x qx εx hx) hBx
  have hvy : |y.val| ≤ By := le_trans (near_abs y qy εy hy) hBy
  have hqy : |qy| ≤ By := by
    have := abs_nonneg (y.val - qy)
    linarith [hy.2]
  have hεx : 0 ≤ εx := le_trans (abs_nonneg _) hx.2
  have hεy : 0 ≤ εy := le_trans (abs_nonneg _) hy.2
  have hBx0 : 0 ≤ Bx := le_trans (abs_nonneg _) hvx
  have hBy0 : 0 ≤ By := le_trans (abs_nonneg _) hvy
  have hd : |x.val * y.val - qx * qy| ≤ Bx * εy + By * εx := by
    have e : x.val * y.val - qx * qy = x.val * (y.val - qy) + qy * (x.val - qx) := by ring
    rw [e]
    refine le_trans (abs_add _ _) ?_
    rw [abs_mul, abs_mul]
    have h1 : |x.val| * |y.val - qy| ≤ Bx * εy :=
      mul_le_mul hvx hy.2 (abs_nonneg _) hBx0
    have h2 : |qy| * |x.val - qx| ≤ By * εx :=
      mul_le_mul hqy hx.2 (abs_nonneg _) hBy0
    linarith
  have hs : |x.val * y.val| ≤ Bx * By := by
    rw [abs_mul]
    exact mul_le_mul hvx hvy (abs_nonneg _) hBx0
  obtain ⟨hf, herr⟩ := mul_val x y hx.1 hy.1 (lt_of_le_of_lt hs hB2)
  refine ⟨hf, ?_⟩
  have e : (F64.mul x y).val - qx * qy =
      ((F64.mul x y).val - x.val * y.val) + (x.val * y.val - qx * qy) := by ring
  rw [e]
  have h2 := abs_add ((F64.mul x y).val - x.val * y.val) (x.val * y.val - qx * qy)
  have h3 : (2 : ℚ) ^ (-53 : Int) * |x.val * y.val| ≤ (2 : ℚ) ^ (-53 : Int) * (Bx * By) :=
    mul_le_mul_of_nonneg_left hs (le_of_lt hu)
  linarith

/-- The error of a rounded quotient by a value known exactly. -/
theorem near_div (x y : F64) (qx εx c B : ℚ) (hx : F64.Near x qx εx)
    (hy : y.isFin = true) (hyv : y.val = c) (hc : 0 < c) (hB : |qx| + εx ≤ B * c)
    (hB2 : B < (2 : ℚ) ^ (1023 : Int)) :
    F64.Near (F64.div x y) (qx / c)
      (εx / c + (2 : ℚ) ^ (-53 : Int) * B + (2 : ℚ) ^ (-1075 : Int)) := by
  have hu : (0 : ℚ) < (2 : ℚ) ^ (-53 : Int) := zpow_pos (by norm_num) _
  have hvx : |x.val| ≤ B * c := le_trans (near_abs x qx εx hx) hB
  have hs : |x.val / y.val| ≤ B := by
    rw [hyv, abs_div, abs_of_pos hc, div_le_iff₀ hc]
    exact hvx
  obtain ⟨hf, herr⟩ := div_val x y hx.1 hy (by rw [hyv]; exact ne_of_gt hc)
    (lt_of_le_of_lt hs hB2)
  refine ⟨hf, ?_⟩
  have hd : |x.val / y.val - qx / c| ≤ εx / c := by
    rw [hyv]
    have e : x.val / c - qx / c = (x.val - qx) / c := by ring
    rw [e, abs_div, abs_of_pos hc]
    exact div_le_div_of_nonneg_right hx.2 (le_of_lt hc)
  have e : (F64.div x y).val - qx / c =
      ((F64.div x y).val - x.val / y.val) + (x.val / y.val - qx / c) := by ring
  rw [e]
  have h2 := abs_add ((F64.div x y).val - x.val / y.val) (x.val / y.val - qx / c)
  have h3 : (2 : ℚ) ^ (-53 : Int) * |x.val / y.val| ≤ (2 : ℚ) ^ (-53 : Int) * B :=
    mul_le_mul_of_nonneg_left hs (le_of_lt hu)
  linarith

/-- The error of Go's `float64(n)`. -/
theorem near_ofInt (n : Int) (B : ℚ) (hB : |(n : ℚ)| ≤ B) (hB2 : B < (2 : ℚ) ^ (1023 : Int)) :
    F64.Near (F64.ofInt n) n ((2 : ℚ) ^ (-53 : Int) * B + (2 : ℚ) ^ (-1075 : Int)) := by
  have hu : (0 : ℚ) < (2 : ℚ) ^ (-53 : Int) := zpow_pos (by norm_num) _
  have hx : (n : ℚ) * (2 : ℚ) ^ (0 : Int) / ((1 : Nat) : ℚ) = (n : ℚ) := by simp
  obtain ⟨m, e, hr, _, _, herr⟩ := round_val n 1 0 (by norm_num)
    (by rw [hx]; exact lt_of_le_of_lt hB hB2)
  rw [hx] at herr
  have hv : F64.ofInt n = F64.fin m e := hr
  rw [hv]
  refine ⟨rfl, ?_⟩
  have h3 : (2 : ℚ) ^ (-53 : Int) * |(n : ℚ)| ≤ (2 : ℚ) ^ (-53 : Int) * B :=
    mul_le_mul_of_nonneg_left hB (le_of_lt hu)
  simp only [F64.val]
  linarith

end FloatError

section FloatConstants

theorem ofInt_1024_eq : F64.ofInt 1024 = F64.fin 4503599627370496 (-42) := by decide!

theorem ofInt_768_eq : F64.ofInt 768 = F64.fin 6755399441055744 (-43) := by decide!

/-- The constant `ratio` of the program is the `float64` nearest to `4/3`,
`1.3333333333333333`. -/
theorem fl_ratio_eq : Fl.ratio ieee = F64.fin 6004799503160661 (-52) := by decide!

/-- The constant `(ratio-1)*0.5` of the program, `0.16666666666666663`. -/
theorem fl_shift_eq :
    ieee.mul (ieee.sub (Fl.ratio ieee) (ieee.ofInt 1)) (ieee.lit 1 2) =
      F64.fin 6004799503160660 (-55) := by decide!

theorem fl_ratio_not_lt_one : ieee.gt (ieee.ofInt 1) (Fl.ratio ieee) = false := by decide!

theorem fl_ratio_gt_one : ieee.gt (Fl.ratio ieee) (ieee.ofInt 1) = true := by decide!

/-- The float64 mapping of `orbitColor` with the branch on the constant `ratio`
resolved (`ratio > 1`): only the column is corrected, the real part depends on
the column alone and the imaginary part on the row alone. -/
theorem fl_pixelCoord_eq (i j : Int) (min_x min_y max_x max_y : F64) :
    Fl.pixelCoord ieee i j min_x min_y max_x max_y =
      ⟨F64.add min_x
          (F64.mul
            (F64.sub (F64.mul (F64.div (F64.ofInt j) (F64.ofInt 1024)) (Fl.ratio ieee))
              (F64.fin 6004799503160660 (-55)))
            (F64.sub max_x min_x)),
        F64.add min_y
          (F64.mul (F64.div (F64.ofInt i) (F64.ofInt 768)) (F64.sub max_y min_y))⟩ := by
  simp only [Fl.pixelCoord, fl_ratio_not_lt_one, fl_ratio_gt_one, Bool.false_eq_true,
    if_false, if_true, fl_shift_eq]
  rfl

theorem val_1024 : (F64.ofInt 1024).isFin = true ∧ (F64.ofInt 1024).val = 1024 := by
  rw [ofInt_1024_eq]
  refine ⟨rfl, ?_⟩
  simp only [F64.val]
  rw [zpow_neg]
  norm_num

theorem val_768 : (F64.ofInt 768).isFin = true ∧ (F64.ofInt 768).val = 768 := by
  rw [ofInt_768_eq]
  refine ⟨rfl, ?_⟩
  simp only [F64.val]
  rw [zpow_neg]
  norm_num

theorem u_eq : (2 : ℚ) ^ (-53 : Int) = 1 / 9007199254740992 := by
  rw [zpow_neg]
  norm_num

theorem near_ratio : F64.Near (Fl.ratio ieee) (4 / 3) (1 / 9007199254740992) := by
  rw [fl_ratio_eq]
  refine ⟨rfl, ?_⟩
  simp only [F64.val]
  rw [zpow_neg]
  norm_num [abs_le]

theorem near_shift : F64.Near (F64.fin 6004799503160660 (-55)) (1 / 6) (1 / 9007199254740992) := by
  refine ⟨rfl, ?_⟩
  simp only [F64.val]
  rw [zpow_neg]
  norm_num [abs_le]

end FloatConstants

section FloatMappingError

theorem near_add_le (x y : F64) (qx qy εx εy B ε η : ℚ) (hη : (2 : ℚ) ^ (-1075 : Int) ≤ η)
    (hx : F64.Near x qx εx) (hy : F64.Near y qy εy)
    (hq1 : -(B - εx - εy) ≤ qx + qy) (hq2 : qx + qy ≤ B - εx - εy)
    (hB2 : B < (2 : ℚ) ^ (1023 : Int))
    (hε : εx + εy + 1 / 9007199254740992 * B + η ≤ ε) :
    F64.Near (F64.add x y) (qx + qy) ε := by
  have h := near_add x y qx qy εx εy B hx hy
    (by have := abs_le.2 ⟨hq1, hq2⟩; linarith) hB2
  rw [u_eq] at h
  generalize (2 : ℚ) ^ (-1075 : Int) = e at hη h
  exact near_mono _ _ _ _ h (by linarith)

theorem near_sub_le (x y : F64) (qx qy εx εy B ε η : ℚ) (hη : (2 : ℚ) ^ (-1075 : Int) ≤ η)
    (hx : F64.Near x qx εx) (hy : F64.Near y qy εy)
    (hq1 : -(B - εx - εy) ≤ qx - qy) (hq2 : qx - qy ≤ B - εx - εy)
    (hB2 : B < (2 : ℚ) ^ (1023 : Int))
    (hε : εx + εy + 1 / 9007199254740992 * B + η ≤ ε) :
    F64.Near (F64.sub x y) (qx - qy) ε := by
  have h := near_sub x y qx qy εx εy B hx hy
    (by have := abs_le.2 ⟨hq1, hq2⟩; linarith) hB2
  rw [u_eq] at h
  generalize (2 : ℚ) ^ (-1075 : Int) = e at hη h
  exact near_mono _ _ _ _ h (by linarith)

theorem near_mul_le (x y : F64) (qx qy εx εy Bx By ε η : ℚ)
    (hη : (2 : ℚ) ^ (-1075 : Int) ≤ η)
    (hx : F64.Near x qx εx) (hy : F64.Near y qy εy)
    (hx1 : -(Bx - εx) ≤ qx) (hx2 : qx ≤ Bx - εx) (hy1 : -(By - εy) ≤ qy) (hy2 : qy ≤ By - εy)
    (hB2 : Bx * By < (2 : ℚ) ^ (1023 : Int))
    (hε : Bx * εy + By * εx + 1 / 9007199254740992 * (Bx * By) + η ≤ ε) :
    F64.Near (F64.mul x y) (qx * qy) ε := by
  have h := near_mul x y qx qy εx εy Bx By hx hy
    (by have := abs_le.2 ⟨hx1, hx2⟩; linarith) (by have := abs_le.2 ⟨hy1, hy2⟩; linarith) hB2
  rw [u_eq] at h
  generalize (2 : ℚ) ^ (-1075 : Int) = e at hη h
  exact near_mono _ _ _ _ h (by linarith)

theorem near_div_le (x y : F64) (qx εx c B ε η : ℚ) (hη : (2 : ℚ) ^ (-1075 : Int) ≤ η)
    (hx : F64.Near x qx εx) (hy : y.isFin = true ∧ y.val = c) (hc : 0 < c)
    (hq1 : -(B * c - εx) ≤ qx) (hq2 : qx ≤ B * c - εx)
    (hB2 : B < (2 : ℚ) ^ (1023 : Int))
    (hε : εx / c + 1 / 9007199254740992 * B + η ≤ ε) :
    F64.Near (F64.div x y) (qx / c) ε := by
  have h := near_div x y qx εx c B hx hy.1 hy.2 hc
    (by have := abs_le.2 ⟨hq1, hq2⟩; linarith) hB2
  rw [u_eq] at h
  generalize (2 : ℚ) ^ (-1075 : Int) = e at hη h
  exact near_mono _ _ _ _ h (by linarith)

theorem near_ofInt_le (n : Int) (B ε η : ℚ) (hη : (2 : ℚ) ^ (-1075 : Int) ≤ η)
    (h1 : -B ≤ (n : ℚ)) (h2 : (n : ℚ) ≤ B) (hB2 : B < (2 : ℚ) ^ (1023 : Int))
    (hε : 1 / 9007199254740992 * B + η ≤ ε) :
    F64.Near (F64.ofInt n) n ε := by
  have h := near_ofInt n B (abs_le.2 ⟨h1, h2⟩) hB2
  rw [u_eq] at h
  generalize (2 : ℚ) ^ (-1075 : Int) = e at hη h
  exact near_mono _ _ _ _ h (by linarith)

/-- The float64 mapping against the exact one: for a zoom point of finite
`float64` values of magnitude at most `S`, `2^-1000 ≤ S ≤ 2^1000`, and a pixel
of the grid, the coordinate the program computes is finite and within
`2^-47 * S` of the point `(cx - r*4/3 + col*(2r/768), cy - r + row*(2r/768))`
of exact arithmetic. -/
theorem fl_pixelCoord_near (cx cy r : F64) (S : ℚ) (hcx : cx.isFin = true)
    (hcy : cy.isFin = true) (hr : r.isFin = true)
    (hC : |cx.val| ≤ S) (hD : |cy.val| ≤ S) (hR : |r.val| ≤ S)
    (hS1 : (2 : ℚ) ^ (-1000 : Int) ≤ S) (hS2 : S ≤ (2 : ℚ) ^ (1000 : Int))
    (i j : Int) (hi0 : 0 ≤ i) (hi : i < 768) (hj0 : 0 ≤ j) (hj : j < 1024) :
    F64.Near
      (Fl.pixelCoord ieee i j (ieee.sub cx r) (ieee.sub cy r) (ieee.add cx r)
        (ieee.add cy r)).re
      (cx.val - r.val * (4 / 3) + (j : ℚ) * (2 * r.val / 768)) ((2 : ℚ) ^ (-47 : Int) * S) ∧
    F64.Near
      (Fl.pixelCoord ieee i j (ieee.sub cx r) (ieee.sub cy r) (ieee.add cx r)
        (ieee.add cy r)).im
      (cy.val - r.val + (i : ℚ) * (2 * r.val / 768)) ((2 : ℚ) ^ (-47 : Int) * S) := by
  have hS0 : 0 < S := lt_of_lt_of_le (zpow_pos (by norm_num) _) hS1
  obtain ⟨hC1, hC2⟩ := abs_le.1 hC
  obtain ⟨hD1, hD2⟩ := abs_le.1 hD
  obtain ⟨hR1, hR2⟩ := abs_le.1 hR
  have hiq0 : (0 : ℚ) ≤ (i : ℚ) := by exact_mod_cast hi0
  have hiq : (i : ℚ) ≤ 767 := by exact_mod_cast (by omega : i ≤ 767)
  have hjq0 : (0 : ℚ) ≤ (j : ℚ) := by exact_mod_cast hj0
  have hjq : (j : ℚ) ≤ 1023 := by exact_mod_cast (by omega : j ≤ 1023)
  -- the constants of the rounding against `S`
  have hηS : (2 : ℚ) ^ (-1075 : Int) ≤ 1 / 9007199254740992 * S := by
    have e : (2 : ℚ) ^ (-1075 : Int) = (2 : ℚ) ^ (-75 : Int) * (2 : ℚ) ^ (-1000 : Int) := by
      rw [← zpow_add₀ (by norm_num : (2 : ℚ) ≠ 0)]; norm_num
    have h75 : (2 : ℚ) ^ (-75 : Int) ≤ 1 / 9007199254740992 := by
      rw [← u_eq]; exact zpow_le_zpow_right₀ (by norm_num) (by norm_num)
    have h75p : (0 : ℚ) < (2 : ℚ) ^ (-75 : Int) := zpow_pos (by norm_num) _
    rw [e]
    calc (2 : ℚ) ^ (-75 : Int) * (2 : ℚ) ^ (-1000 : Int)
        ≤ (2 : ℚ) ^ (-75 : Int) * S := mul_le_mul_of_nonneg_left hS1 (le_of_lt h75p)
      _ ≤ 1 / 9007199254740992 * S := mul_le_mul_of_nonneg_right h75 (le_of_lt hS0)
  have hη1 : (2 : ℚ) ^ (-1075 : Int) ≤ 1 / 9007199254740992 := by
    rw [← u_eq]; exact eta_le_u
  have hbig : ∀ B : ℚ, B ≤ 16 * S → B < (2 : ℚ) ^ (1023 : Int) := by
    intro B hB
    have e : (2 : ℚ) ^ (1023 : Int) = (2 : ℚ) ^ (23 : Int) * (2 : ℚ) ^ (1000 : Int) := by
      rw [← zpow_add₀ (by norm_num : (2 : ℚ) ≠ 0)]; norm_num
    have h23 : (2 : ℚ) ^ (23 : Int) = 8388608 := by norm_num
    have hp : (0 : ℚ) < (2 : ℚ) ^ (1000 : Int) := zpow_pos (by norm_num) _
    rw [e, h23]
    generalize (2 : ℚ) ^ (1000 : Int) = T at hS2 hp
    linarith
  have hbig1 : ∀ B : ℚ, B ≤ 2048 → B < (2 : ℚ) ^ (1023 : Int) := by
    intro B hB
    have h1 : (2 : ℚ) ^ (12 : Int) ≤ (2 : ℚ) ^ (1023 : Int) :=
      zpow_le_zpow_right₀ (by norm_num) (by norm_num)
    have h12 : (2 : ℚ) ^ (12 : Int) = 4096 := by norm_num
    rw [h12] at h1
    linarith
  have h47 : (2 : ℚ) ^ (-47 : Int) = 64 / 9007199254740992 := by
    rw [zpow_neg]; norm_num
  rw [fl_pixelCoord_eq, h47]
  -- the extents
  have ha : F64.Near (F64.sub cx r) (cx.val - r.val) (3 / 9007199254740992 * S) :=
    near_sub_le cx r cx.val r.val 0 0 (2 * S) _ _ hηS (near_exact cx hcx) (near_exact r hr)
      (by linarith only [hS0, hC1, hC2, hD1, hD2, hR1, hR2, hiq0, hiq, hjq0, hjq])
      (by linarith only [hS0, hC1, hC2, hD1, hD2, hR1, hR2, hiq0, hiq, hjq0, hjq])
      (hbig _ (by linarith only [hS0]))
      (by linarith only [hS0, hC1, hC2, hD1, hD2, hR1, hR2, hiq0, hiq, hjq0, hjq])
  have hb : F64.Near (F64.add cx r) (cx.val + r.val) (3 / 9007199254740992 * S) :=
    near_add_le cx r cx.val r.val 0 0 (2 * S) _ _ hηS (near_exact cx hcx) (near_exact r hr)
      (by linarith only [hS0, hC1, hC2, hD1, hD2, hR1, hR2, hiq0, hiq, hjq0, hjq])
      (by linarith only [hS0, hC1, hC2, hD1, hD2, hR1, hR2, hiq0, hiq, hjq0, hjq])
      (hbig _ (by linarith only [hS0]))
      (by linarith only [hS0, hC1, hC2, hD1, hD2, hR1, hR2, hiq0, hiq, hjq0, hjq])
  have hw : F64.Near (F64.sub (F64.add cx r) (F64.sub cx r))
      (cx.val + r.val - (cx.val - r.val)) (10 / 9007199254740992 * S) :=
    near_sub_le _ _ _ _ _ _ (3 * S) _ _ hηS hb ha
      (by linarith only [hS0, hC1, hC2, hD1, hD2, hR1, hR2, hiq0, hiq, hjq0, hjq])
      (by linarith only [hS0, hC1, hC2, hD1, hD2, hR1, hR2, hiq0, hiq, hjq0, hjq])
      (hbig _ (by linarith only [hS0]))
      (by linarith only [hS0, hC1, hC2, hD1, hD2, hR1, hR2, hiq0, hiq, hjq0, hjq])
  have ha2 : F64.Near (F64.sub cy r) (cy.val - r.val) (3 / 9007199254740992 * S) :=
    near_sub_le cy r cy.val r.val 0 0 (2 * S) _ _ hηS (near_exact cy hcy) (near_exact r hr)
      (by linarith only [hS0, hC1, hC2, hD1, hD2, hR1, hR2, hiq0, hiq, hjq0, hjq])
      (by linarith only [hS0, hC1, hC2, hD1, hD2, hR1, hR2, hiq0, hiq, hjq0, hjq])
      (hbig _ (by linarith only [hS0]))
      (by linarith only [hS0, hC1, hC2, hD1, hD2, hR1, hR2, hiq0, hiq, hjq0, hjq])
  have hb2 : F64.Near (F64.add cy r) (cy.val + r.val) (3 / 9007199254740992 * S) :=
    near_add_le cy r cy.val r.val 0 0 (2 * S) _ _ hηS (near_exact cy hcy) (near_exact r hr)
      (by linarith only [hS0, hC1, hC2, hD1, hD2, hR1, hR2, hiq0, hiq, hjq0, hjq])
      (by linarith only [hS0, hC1, hC2, hD1, hD2, hR1, hR2, hiq0, hiq, hjq0, hjq])
      (hbig _ (by linarith only [hS0]))
      (by linarith only [hS0, hC1, hC2, hD1, hD2, hR1, hR2, hiq0, hiq, hjq0, hjq])
  have hh : F64.Near (F64.sub (F64.add cy r) (F64.sub cy r))
      (cy.val + r.val - (cy.val - r.val)) (10 / 9007199254740992 * S) :=
    near_sub_le _ _ _ _ _ _ (3 * S) _ _ hηS hb2 ha2
      (by linarith only [hS0, hC1, hC2, hD1, hD2, hR1, hR2, hiq0, hiq, hjq0, hjq])
      (by linarith only [hS0, hC1, hC2, hD1, hD2, hR1, hR2, hiq0, hiq, hjq0, hjq])
      (hbig _ (by linarith only [hS0]))
      (by linarith only [hS0, hC1, hC2, hD1, hD2, hR1, hR2, hiq0, hiq, hjq0, hjq])
  -- the normalised column
  have hjf : F64.Near (F64.ofInt j) (j : ℚ) (1025 / 9007199254740992) :=
    near_ofInt_le j 1024 _ _ hη1 (by linarith only [hjq0, hjq])
    (by linarith only [hS0, hC1, hC2, hD1, hD2, hR1, hR2, hiq0, hiq, hjq0, hjq])
    (hbig1 _ (by norm_num))
      (by norm_num)
  have hnx : F64.Near (F64.div (F64.ofInt j) (F64.ofInt 1024)) ((j : ℚ) / 1024)
      (4 / 9007199254740992) :=
    near_div_le _ _ _ _ 1024 1 _ _ hη1 hjf val_1024 (by norm_num)
      (by linarith only [hS0, hC1, hC2, hD1, hD2, hR1, hR2, hiq0, hiq, hjq0, hjq])
      (by linarith only [hS0, hC1, hC2, hD1, hD2, hR1, hR2, hiq0, hiq, hjq0, hjq])
      (hbig1 _ (by norm_num))
      (by norm_num)
  have hp : F64.Near (F64.mul (F64.div (F64.ofInt j) (F64.ofInt 1024)) (Fl.ratio ieee))
      ((j : ℚ) / 1024 * (4 / 3)) (10 / 9007199254740992) :=
    near_mul_le _ _ _ _ _ _ 1 (3 / 2) _ _ hη1 hnx near_ratio
      (by linarith only [hS0, hC1, hC2, hD1, hD2, hR1, hR2, hiq0, hiq, hjq0, hjq])
      (by linarith only [hS0, hC1, hC2, hD1, hD2, hR1, hR2, hiq0, hiq, hjq0, hjq])
      (by norm_num)
      (by norm_num)
      (hbig1 _ (by norm_num))
      (by norm_num)
  have hn1 : F64.Near
      (F64.sub (F64.mul (F64.div (F64.ofInt j) (F64.ofInt 1024)) (Fl.ratio ieee))
        (F64.fin 6004799503160660 (-55)))
      ((j : ℚ) / 1024 * (4 / 3) - 1 / 6) (14 / 9007199254740992) :=
    near_sub_le _ _ _ _ _ _ 2 _ _ hη1 hp near_shift
      (by linarith only [hS0, hC1, hC2, hD1, hD2, hR1, hR2, hiq0, hiq, hjq0, hjq])
      (by linarith only [hS0, hC1, hC2, hD1, hD2, hR1, hR2, hiq0, hiq, hjq0, hjq])
      (hbig1 _ (by norm_num))
      (by norm_num)
  have ht : F64.Near
      (F64.mul
        (F64.sub (F64.mul (F64.div (F64.ofInt j) (F64.ofInt 1024)) (Fl.ratio ieee))
          (F64.fin 6004799503160660 (-55)))
        (F64.sub (F64.add cx r) (F64.sub cx r)))
      (((j : ℚ) / 1024 * (4 / 3) - 1 / 6) * (cx.val + r.val - (cx.val - r.val)))
      (46 / 9007199254740992 * S) :=
    near_mul_le _ _ _ _ _ _ (5 / 4) (17 / 8 * S) _ _ hηS hn1 hw
      (by linarith only [hS0, hC1, hC2, hD1, hD2, hR1, hR2, hiq0, hiq, hjq0, hjq])
      (by linarith only [hS0, hC1, hC2, hD1, hD2, hR1, hR2, hiq0, hiq, hjq0, hjq])
      (by linarith only [hS0, hC1, hC2, hD1, hD2, hR1, hR2, hiq0, hiq, hjq0, hjq])
      (by linarith only [hS0, hC1, hC2, hD1, hD2, hR1, hR2, hiq0, hiq, hjq0, hjq])
      (hbig _ (by linarith only [hS0]))
      (by linarith only [hS0, hC1, hC2, hD1, hD2, hR1, hR2, hiq0, hiq, hjq0, hjq])
  have hx : F64.Near
      (F64.add (F64.sub cx r)
        (F64.mul
          (F64.sub (F64.mul (F64.div (F64.ofInt j) (F64.ofInt 1024)) (Fl.ratio ieee))
            (F64.fin 6004799503160660 (-55)))
          (F64.sub (F64.add cx r) (F64.sub cx r))))
      (cx.val - r.val +
        ((j : ℚ) / 1024 * (4 / 3) - 1 / 6) * (cx.val + r.val - (cx.val - r.val)))
      (64 / 9007199254740992 * S) := by
    have hjr1 : (j : ℚ) * r.val ≤ 1023 * S := by nlinarith only [hjq0, hjq, hR1, hR2, hS0]
    have hjr2 : -(1023 * S) ≤ (j : ℚ) * r.val := by nlinarith only [hjq0, hjq, hR1, hR2, hS0]
    exact near_add_le _ _ _ _ _ _ (5 * S) _ _ hηS ha ht
      (by linarith only [hS0, hC1, hC2, hD1, hD2, hR1, hR2, hiq0, hiq, hjq0, hjq, hjr1, hjr2])
      (by linarith only [hS0, hC1, hC2, hD1, hD2, hR1, hR2, hiq0, hiq, hjq0, hjq, hjr1, hjr2])
      (hbig _ (by linarith only [hS0]))
      (by linarith only [hS0, hC1, hC2, hD1, hD2, hR1, hR2, hiq0, hiq, hjq0, hjq, hjr1, hjr2])
  -- the normalised row
  have hif : F64.Near (F64.ofInt i) (i : ℚ) (769 / 9007199254740992) :=
    near_ofInt_le i 768 _ _ hη1 (by linarith only [hiq0, hiq])
    (by linarith only [hS0, hC1, hC2, hD1, hD2, hR1, hR2, hiq0, hiq, hjq0, hjq])
    (hbig1 _ (by norm_num))
      (by norm_num)
  have hny : F64.Near (F64.div (F64.ofInt i) (F64.ofInt 768)) ((i : ℚ) / 768)
      (4 / 9007199254740992) :=
    near_div_le _ _ _ _ 768 1 _ _ hη1 hif val_768 (by norm_num)
      (by linarith only [hS0, hC1, hC2, hD1, hD2, hR1, hR2, hiq0, hiq, hjq0, hjq])
      (by linarith only [hS0, hC1, hC2, hD1, hD2, hR1, hR2, hiq0, hiq, hjq0, hjq])
      (hbig1 _ (by norm_num))
      (by norm_num)
  have ht2 : F64.Near
      (F64.mul (F64.div (F64.ofInt i) (F64.ofInt 768)) (F64.sub (F64.add cy r) (F64.sub cy r)))
      ((i : ℚ) / 768 * (cy.val + r.val - (cy.val - r.val)))
      (22 / 9007199254740992 * S) :=
    near_mul_le _ _ _ _ _ _ 1 (17 / 8 * S) _ _ hηS hny hh
      (by linarith only [hS0, hC1, hC2, hD1, hD2, hR1, hR2, hiq0, hiq, hjq0, hjq])
      (by linarith only [hS0, hC1, hC2, hD1, hD2, hR1, hR2, hiq0, hiq, hjq0, hjq])
      (by linarith only [hS0, hC1, hC2, hD1, hD2, hR1, hR2, hiq0, hiq, hjq0, hjq])
      (by linarith only [hS0, hC1, hC2, hD1, hD2, hR1, hR2, hiq0, hiq, hjq0, hjq])
      (hbig _ (by linarith only [hS0]))
      (by linarith only [hS0, hC1, hC2, hD1, hD2, hR1, hR2, hiq0, hiq, hjq0, hjq])
  have hy : F64.Near
      (F64.add (F64.sub cy r)
        (F64.mul (F64.div (F64.ofInt i) (F64.ofInt 768))
          (F64.sub (F64.add cy r) (F64.sub cy r))))
      (cy.val - r.val + (i : ℚ) / 768 * (cy.val + r.val - (cy.val - r.val)))
      (64 / 9007199254740992 * S) := by
    have hir1 : (i : ℚ) * r.val ≤ 767 * S := by nlinarith only [hiq0, hiq, hR1, hR2, hS0]
    have hir2 : -(767 * S) ≤ (i : ℚ) * r.val := by nlinarith only [hiq0, hiq, hR1, hR2, hS0]
    exact near_add_le _ _ _ _ _ _ (5 * S) _ _ hηS ha2 ht2
      (by linarith only [hS0, hC1, hC2, hD1, hD2, hR1, hR2, hiq0, hiq, hjq0, hjq, hir1, hir2])
      (by linarith only [hS0, hC1, hC2, hD1, hD2, hR1, hR2, hiq0, hiq, hjq0, hjq, hir1, hir2])
      (hbig _ (by linarith only [hS0]))
      (by linarith only [hS0, hC1, hC2, hD1, hD2, hR1, hR2, hiq0, hiq, hjq0, hjq, hir1, hir2])
  have ex : cx.val - r.val +
      ((j : ℚ) / 1024 * (4 / 3) - 1 / 6) * (cx.val + r.val - (cx.val - r.val)) =
      cx.val - r.val * (4 / 3) + (j : ℚ) * (2 * r.val / 768) := by ring
  have ey : cy.val - r.val + (i : ℚ) / 768 * (cy.val + r.val - (cy.val - r.val)) =
      cy.val - r.val + (i : ℚ) * (2 * r.val / 768) := by ring
  rw [ex] at hx
  rw [ey] at hy
  exact ⟨hx, hy⟩

end FloatMappingError

section FloatMappingSteps

theorem ofInt_two_eq : F64.ofInt 2 = F64.fin 4503599627370496 (-51) := by decide!

theorem val_zero : (F64.ofInt 0).isFin = true ∧ (F64.ofInt 0).val = 0 := by
  rw [ofInt_zero_eq]
  exact ⟨rfl, by simp [F64.val]⟩

theorem val_two : (F64.ofInt 2).isFin = true ∧ (F64.ofInt 2).val = 2 := by
  rw [ofInt_two_eq]
  refine ⟨rfl, ?_⟩
  simp only [F64.val]
  rw [zpow_neg]
  norm_num

/-- Row 0 of the float64 mapping has exactly the imaginary part `min_y`. -/
theorem fl_im_row_zero (j : Int) (min_x min_y max_x max_y : F64)
    (hb : min_y.isFin = true) (hd : (F64.sub max_y min_y).isFin = true) :
    (Fl.pixelCoord ieee 0 j min_x min_y max_x max_y).im.isFin = true ∧
    (Fl.pixelCoord ieee 0 j min_x min_y max_x max_y).im.val = min_y.val := by
  rw [fl_pixelCoord_eq]
  have h0 : F64.div (F64.ofInt 0) (F64.ofInt 768) = F64.fin 0 0 := by decide!
  simp only [h0]
  cases hD : F64.sub max_y min_y with
  | inf b => rw [hD] at hd; simp [F64.isFin] at hd
  | nan => rw [hD] at hd; simp [F64.isFin] at hd
  | fin m e =>
    have hm : F64.mul (F64.fin 0 0) (F64.fin m e) = F64.fin 0 0 := by
      simp [F64.mul, F64.round]
    rw [hm]
    cases min_y with
    | inf b => simp [F64.isFin] at hb
    | nan => simp [F64.isFin] at hb
    | fin m1 e1 =>
      by_cases h1 : m1 = 0
      · simp [F64.add, h1, F64.val, F64.isFin]
      · simp [F64.add, h1, F64.val, F64.isFin]

/-- C8 (as amended): in the float64 program the constant `ratio` exceeds 1, and
the mapped point is
`real = min_real + ((col/W)*ratio - (ratio-1)*0.5) * (max_real - min_real)`,
`imag = min_imag + (row/H) * (max_imag - min_imag)` with every operation rounded
to `float64`; for a zoom point of finite values of magnitude at most `S`
(`2^-1000 ≤ S ≤ 2^1000`) the step of the real part between horizontally
adjacent pixels and the step of the imaginary part between vertically adjacent
pixels are each within `2^-46 * S` of `2r/H`: they agree up to rounding, not
exactly. -/
theorem C8_float_mapping_undistorted (cx cy r : F64) (S : ℚ) (hcx : cx.isFin = true)
    (hcy : cy.isFin = true) (hr : r.isFin = true)
    (hC : |cx.val| ≤ S) (hD : |cy.val| ≤ S) (hR : |r.val| ≤ S)
    (hS1 : (2 : ℚ) ^ (-1000 : Int) ≤ S) (hS2 : S ≤ (2 : ℚ) ^ (1000 : Int))
    (i j : Int) (hi0 : 0 ≤ i) (hi : i + 1 < 768) (hj0 : 0 ≤ j) (hj : j + 1 < 1024)
    (min_x min_y max_x max_y : F64) :
    ieee.gt (Fl.ratio ieee) (ieee.ofInt 1) = true ∧
    Fl.pixelCoord ieee i j min_x min_y max_x max_y =
      ⟨ieee.add min_x
          (ieee.mul
            (ieee.sub (ieee.mul (ieee.div (ieee.ofInt j) (ieee.ofInt 1024)) (Fl.ratio ieee))
              (ieee.mul (ieee.sub (Fl.ratio ieee) (ieee.ofInt 1)) (ieee.lit 1 2)))
            (ieee.sub max_x min_x)),
        ieee.add min_y
          (ieee.mul (ieee.div (ieee.ofInt i) (ieee.ofInt 768)) (ieee.sub max_y min_y))⟩ ∧
    |((Fl.pixelCoord ieee i (j + 1) (ieee.sub cx r) (ieee.sub cy r) (ieee.add cx r)
          (ieee.add cy r)).re.val -
        (Fl.pixelCoord ieee i j (ieee.sub cx r) (ieee.sub cy r) (ieee.add cx r)
          (ieee.add cy r)).re.val) - 2 * r.val / 768| ≤ (2 : ℚ) ^ (-46 : Int) * S ∧
    |((Fl.pixelCoord ieee (i + 1) j (ieee.sub cx r) (ieee.sub cy r) (ieee.add cx r)
          (ieee.add cy r)).im.val -
        (Fl.pixelCoord ieee i j (ieee.sub cx r) (ieee.sub cy r) (ieee.add cx r)
          (ieee.add cy r)).im.val) - 2 * r.val / 768| ≤ (2 : ℚ) ^ (-46 : Int) * S := by
  have h46 : (2 : ℚ) ^ (-46 : Int) = 2 * (2 : ℚ) ^ (-47 : Int) := by
    rw [show (-46 : Int) = 1 + (-47) by norm_num, zpow_add₀ (by norm_num : (2 : ℚ) ≠ 0)]
    norm_num
  obtain ⟨hx0, hy0⟩ := fl_pixelCoord_near cx cy r S hcx hcy hr hC hD hR hS1 hS2 i j hi0
    (by omega) hj0 (by omega)
  obtain ⟨hx1, _⟩ := fl_pixelCoord_near cx cy r S hcx hcy hr hC hD hR hS1 hS2 i (j + 1) hi0
    (by omega) (by omega) hj
  obtain ⟨_, hy1⟩ := fl_pixelCoord_near cx cy r S hcx hcy hr hC hD hR hS1 hS2 (i + 1) j
    (by omega) hi hj0 (by omega)
  refine ⟨fl_ratio_gt_one, ?_, ?_, ?_⟩
  · simp only [Fl.pixelCoord, fl_ratio_not_lt_one, fl_ratio_gt_one, Bool.false_eq_true,
      if_false, if_true]
    rfl
  · have a1 := abs_le.1 hx1.2
    have a0 := abs_le.1 hx0.2
    rw [h46, abs_le]
    push_cast at a1
    constructor <;> linarith only [a1.1, a1.2, a0.1, a0.2]
  · have a1 := abs_le.1 hy1.2
    have a0 := abs_le.1 hy0.2
    rw [h46, abs_le]
    push_cast at a1
    constructor <;> linarith only [a1.1, a1.2, a0.1, a0.2]

/-- C8 (witness): the first zoom point of the registry, `{0, 0, 2, 50}`, and the
pixel of row 3, column 5. -/
theorem C8_float_witness :
    |((Fl.pixelCoord ieee 3 (5 + 1) (ieee.sub (F64.ofInt 0) (F64.ofInt 2))
          (ieee.sub (F64.ofInt 0) (F64.ofInt 2)) (ieee.add (F64.ofInt 0) (F64.ofInt 2))
          (ieee.add (F64.ofInt 0) (F64.ofInt 2))).re.val -
        (Fl.pixelCoord ieee 3 5 (ieee.sub (F64.ofInt 0) (F64.ofInt 2))
          (ieee.sub (F64.ofInt 0) (F64.ofInt 2)) (ieee.add (F64.ofInt 0) (F64.ofInt 2))
          (ieee.add (F64.ofInt 0) (F64.ofInt 2))).re.val) - 2 * (F64.ofInt 2).val / 768| ≤
      (2 : ℚ) ^ (-46 : Int) * 2 :=
  have h0 : |(F64.ofInt 0).val| ≤ (2 : ℚ) := by rw [val_zero.2]; norm_num
  have h2 : |(F64.ofInt 2).val| ≤ (2 : ℚ) := by rw [val_two.2]; norm_num
  have hS1 : (2 : ℚ) ^ (-1000 : Int) ≤ 2 :=
    le_trans (zpow_le_zpow_right₀ (by norm_num) (by norm_num : (-1000 : Int) ≤ 1))
      (by norm_num)
  have hS2 : (2 : ℚ) ≤ (2 : ℚ) ^ (1000 : Int) :=
    le_trans (by norm_num : (2 : ℚ) ≤ (2 : ℚ) ^ (1 : Int))
      (zpow_le_zpow_right₀ (by norm_num) (by norm_num))
  (C8_float_mapping_undistorted (F64.ofInt 0) (F64.ofInt 0) (F64.ofInt 2) 2 val_zero.1
    val_zero.1 val_two.1 h0 h0 h2 hS1 hS2 3 5 (by norm_num) (by norm_num) (by norm_num)
    (by norm_num) (F64.ofInt 0) (F64.ofInt 0) (F64.ofInt 0) (F64.ofInt 0)).2.2.1

/-- C8 (counterexample): at the first zoom point of the registry,
`{0, 0, 2, 50}`, the float64 program maps the pixels `(0, 0)`, `(0, 1)`
(next column) and `(1, 0)` (next row) to real parts `-2.6666666666666665`,
`-2.661458333333333` and imaginary parts `-2`, `-1.9947916666666667`: the
horizontal step is `0.005208333333333481`, the vertical step
`0.005208333333333259`, and neither is `2r/H = 1/192`. -/
theorem C8_float_counterexample :
    (Fl.pixelCoord ieee 0 1 (ieee.sub (F64.ofInt 0) (F64.ofInt 2))
        (ieee.sub (F64.ofInt 0) (F64.ofInt 2)) (ieee.add (F64.ofInt 0) (F64.ofInt 2))
        (ieee.add (F64.ofInt 0) (F64.ofInt 2))).re.val -
      (Fl.pixelCoord ieee 0 0 (ieee.sub (F64.ofInt 0) (F64.ofInt 2))
        (ieee.sub (F64.ofInt 0) (F64.ofInt 2)) (ieee.add (F64.ofInt 0) (F64.ofInt 2))
        (ieee.add (F64.ofInt 0) (F64.ofInt 2))).re.val =
      11728124029611 / 2251799813685248 ∧
    (Fl.pixelCoord ieee 1 0 (ieee.sub (F64.ofInt 0) (F64.ofInt 2))
        (ieee.sub (F64.ofInt 0) (F64.ofInt 2)) (ieee.add (F64.ofInt 0) (F64.ofInt 2))
        (ieee.add (F64.ofInt 0) (F64.ofInt 2))).im.val -
      (Fl.pixelCoord ieee 0 0 (ieee.sub (F64.ofInt 0) (F64.ofInt 2))
        (ieee.sub (F64.ofInt 0) (F64.ofInt 2)) (ieee.add (F64.ofInt 0) (F64.ofInt 2))
        (ieee.add (F64.ofInt 0) (F64.ofInt 2))).im.val =
      23456248059221 / 4503599627370496 ∧
    (11728124029611 / 2251799813685248 : ℚ) ≠ 23456248059221 / 4503599627370496 ∧
    (11728124029611 / 2251799813685248 : ℚ) ≠ 2 * (F64.ofInt 2).val / 768 ∧
    (23456248059221 / 4503599627370496 : ℚ) ≠ 2 * (F64.ofInt 2).val / 768 := by
  have e00 : Fl.pixelCoord ieee 0 0 (ieee.sub (F64.ofInt 0) (F64.ofInt 2))
      (ieee.sub (F64.ofInt 0) (F64.ofInt 2)) (ieee.add (F64.ofInt 0) (F64.ofInt 2))
      (ieee.add (F64.ofInt 0) (F64.ofInt 2)) =
      ⟨F64.fin (-6004799503160661) (-51), F64.fin (-4503599627370496) (-51)⟩ := by decide!
  have e01 : (Fl.pixelCoord ieee 0 1 (ieee.sub (F64.ofInt 0) (F64.ofInt 2))
      (ieee.sub (F64.ofInt 0) (F64.ofInt 2)) (ieee.add (F64.ofInt 0) (F64.ofInt 2))
      (ieee.add (F64.ofInt 0) (F64.ofInt 2))).re = F64.fin (-5993071379131050) (-51) := by
    decide!
  have e10 : (Fl.pixelCoord ieee 1 0 (ieee.sub (F64.ofInt 0) (F64.ofInt 2))
      (ieee.sub (F64.ofInt 0) (F64.ofInt 2)) (ieee.add (F64.ofInt 0) (F64.ofInt 2))
      (ieee.add (F64.ofInt 0) (F64.ofInt 2))).im = F64.fin (-8983743006681771) (-52) := by
    decide!
  rw [e00, e01, e10, val_two.2]
  simp only [F64.val]
  rw [zpow_neg, zpow_neg]
  norm_num

end FloatMappingSteps

section FloatMappingInjective

/-- For a zoom point of finite `float64` values whose radius
is not too small against the centre, `|cx|, |cy| ≤ 2^36 * r`, with
`2^-1000 ≤ r ≤ 2^964`, the float64 mapping of `orbitColor` sends two distinct
pixels of the grid to distinct coordinates. -/
theorem fl_pixelCoord_inj (cx cy r : F64) (hcx : cx.isFin = true)
    (hcy : cy.isFin = true) (hr : r.isFin = true)
    (hr1 : (2 : ℚ) ^ (-1000 : Int) ≤ r.val) (hr2 : r.val ≤ (2 : ℚ) ^ (964 : Int))
    (hC : |cx.val| ≤ (2 : ℚ) ^ (36 : Int) * r.val)
    (hD : |cy.val| ≤ (2 : ℚ) ^ (36 : Int) * r.val)
    (i j i2 j2 : Int) (hi0 : 0 ≤ i) (hi : i < 768) (hj0 : 0 ≤ j) (hj : j < 1024)
    (hi20 : 0 ≤ i2) (hi2 : i2 < 768) (hj20 : 0 ≤ j2) (hj2 : j2 < 1024)
    (hne : i ≠ i2 ∨ j ≠ j2) :
    Fl.pixelCoord ieee i j (ieee.sub cx r) (ieee.sub cy r) (ieee.add cx r) (ieee.add cy r) ≠
      Fl.pixelCoord ieee i2 j2 (ieee.sub cx r) (ieee.sub cy r) (ieee.add cx r)
        (ieee.add cy r) := by
  have hR0 : 0 < r.val := lt_of_lt_of_le (zpow_pos (by norm_num) _) hr1
  have h36 : (2 : ℚ) ^ (36 : Int) = 68719476736 := by norm_num
  have hS1 : (2 : ℚ) ^ (-1000 : Int) ≤ (2 : ℚ) ^ (36 : Int) * r.val := by
    rw [h36]; linarith only [hr1, hR0]
  have hS2 : (2 : ℚ) ^ (36 : Int) * r.val ≤ (2 : ℚ) ^ (1000 : Int) := by
    have e : (2 : ℚ) ^ (1000 : Int) = (2 : ℚ) ^ (36 : Int) * (2 : ℚ) ^ (964 : Int) := by
      rw [← zpow_add₀ (by norm_num : (2 : ℚ) ≠ 0)]; norm_num
    rw [e]
    exact mul_le_mul_of_nonneg_left hr2 (le_of_lt (zpow_pos (by norm_num) _))
  have hR : |r.val| ≤ (2 : ℚ) ^ (36 : Int) * r.val := by
    rw [abs_of_pos hR0, h36]; linarith only [hR0]
  obtain ⟨hx1, hy1⟩ := fl_pixelCoord_near cx cy r _ hcx hcy hr hC hD hR hS1 hS2 i j hi0 hi
    hj0 hj
  obtain ⟨hx2, hy2⟩ := fl_pixelCoord_near cx cy r _ hcx hcy hr hC hD hR hS1 hS2 i2 j2 hi20
    hi2 hj20 hj2
  have hε : (2 : ℚ) ^ (-47 : Int) * ((2 : ℚ) ^ (36 : Int) * r.val) = r.val / 2048 := by
    rw [← mul_assoc, ← zpow_add₀ (by norm_num : (2 : ℚ) ≠ 0)]
    rw [show (-47 : Int) + 36 = -11 by norm_num, zpow_neg]
    norm_num
    ring
  intro heq
  rw [heq] at hx1 hy1
  have a1 := abs_le.1 hx1.2
  have a2 := abs_le.1 hx2.2
  have b1 := abs_le.1 hy1.2
  have b2 := abs_le.1 hy2.2
  rw [hε] at a1 a2 b1 b2
  rcases hne with h | h
  · rcases lt_or_gt_of_ne h with hlt | hgt
    · have hd : (i : ℚ) + 1 ≤ (i2 : ℚ) := by exact_mod_cast (by omega : i + 1 ≤ i2)
      nlinarith only [b1.1, b1.2, b2.1, b2.2, hd, hR0]
    · have hd : (i2 : ℚ) + 1 ≤ (i : ℚ) := by exact_mod_cast (by omega : i2 + 1 ≤ i)
      nlinarith only [b1.1, b1.2, b2.1, b2.2, hd, hR0]
  · rcases lt_or_gt_of_ne h with hlt | hgt
    · have hd : (j : ℚ) + 1 ≤ (j2 : ℚ) := by exact_mod_cast (by omega : j + 1 ≤ j2)
      nlinarith only [a1.1, a1.2, a2.1, a2.2, hd, hR0]
    · have hd : (j2 : ℚ) + 1 ≤ (j : ℚ) := by exact_mod_cast (by omega : j2 + 1 ≤ j)
      nlinarith only [a1.1, a1.2, a2.1, a2.2, hd, hR0]

/-- The `float64` value of a decimal constant of the source is finite and
within rounding of the constant. -/
theorem near_lit (n : Int) (d : Nat) (hd : 0 < d) (B : ℚ) (hB : |(n : ℚ) / d| ≤ B)
    (hB2 : B < (2 : ℚ) ^ (1023 : Int)) :
    F64.Near (F64.lit n d) ((n : ℚ) / d)
      ((2 : ℚ) ^ (-53 : Int) * B + (2 : ℚ) ^ (-1075 : Int)) := by
  have hu : (0 : ℚ) < (2 : ℚ) ^ (-53 : Int) := zpow_pos (by norm_num) _
  have hx : (n : ℚ) * (2 : ℚ) ^ (0 : Int) / (d : ℚ) = (n : ℚ) / d := by simp
  obtain ⟨m, e, hr, _, _, herr⟩ := round_val n d 0 hd
    (by rw [hx]; exact lt_of_le_of_lt hB hB2)
  rw [hx] at herr
  have hv : F64.lit n d = F64.fin m e := hr
  rw [hv]
  refine ⟨rfl, ?_⟩
  have h3 : (2 : ℚ) ^ (-53 : Int) * |(n : ℚ) / d| ≤ (2 : ℚ) ^ (-53 : Int) * B :=
    mul_le_mul_of_nonneg_left hB (le_of_lt hu)
  simp only [F64.val]
  linarith

/-- A zoom point written with decimal constants `cx, cy` of magnitude at most 2
and `1/10000 ≤ r ≤ 2` meets the conditions under which the float64 mapping is
injective. -/
theorem zoom_conditions (a1 a2 a3 : Int) (b1 b2 b3 : Nat) (h1 : 0 < b1) (h2 : 0 < b2)
    (h3 : 0 < b3) (hc1 : |(a1 : ℚ) / b1| ≤ 2) (hc2 : |(a2 : ℚ) / b2| ≤ 2)
    (hr1 : 1 / 10000 ≤ (a3 : ℚ) / b3) (hr2 : (a3 : ℚ) / b3 ≤ 2) :
    (F64.lit a1 b1).isFin = true ∧ (F64.lit a2 b2).isFin = true ∧
    (F64.lit a3 b3).isFin = true ∧
    (2 : ℚ) ^ (-1000 : Int) ≤ (F64.lit a3 b3).val ∧
    (F64.lit a3 b3).val ≤ (2 : ℚ) ^ (964 : Int) ∧
    |(F64.lit a1 b1).val| ≤ (2 : ℚ) ^ (36 : Int) * (F64.lit a3 b3).val ∧
    |(F64.lit a2 b2).val| ≤ (2 : ℚ) ^ (36 : Int) * (F64.lit a3 b3).val := by
  have hbig : (2 : ℚ) < (2 : ℚ) ^ (1023 : Int) :=
    lt_of_lt_of_le (by norm_num : (2 : ℚ) < (2 : ℚ) ^ (2 : Int))
      (zpow_le_zpow_right₀ (by norm_num) (by norm_num))
  have hr3 : |(a3 : ℚ) / b3| ≤ 2 := by
    rw [abs_le]; constructor <;> linarith only [hr1, hr2]
  have n1 := near_lit a1 b1 h1 2 hc1 hbig
  have n2 := near_lit a2 b2 h2 2 hc2 hbig
  have n3 := near_lit a3 b3 h3 2 hr3 hbig
  have hη := eta_le_u
  rw [u_eq] at n1 n2 n3 hη
  generalize (2 : ℚ) ^ (-1075 : Int) = η at n1 n2 n3 hη
  have v1 := near_abs _ _ _ n1
  have v2 := near_abs _ _ _ n2
  have v3 := abs_le.1 n3.2
  have h36 : (2 : ℚ) ^ (36 : Int) = 68719476736 := by norm_num
  have hlo : (2 : ℚ) ^ (-1000 : Int) ≤ 1 / 32768 :=
    le_trans (zpow_le_zpow_right₀ (by norm_num) (by norm_num : (-1000 : Int) ≤ -15))
      (by rw [zpow_neg]; norm_num)
  have hhi : (4 : ℚ) ≤ (2 : ℚ) ^ (964 : Int) :=
    le_trans (by norm_num : (4 : ℚ) ≤ (2 : ℚ) ^ (2 : Int))
      (zpow_le_zpow_right₀ (by norm_num) (by norm_num))
  generalize (2 : ℚ) ^ (-1000 : Int) = lo at hlo ⊢
  generalize (2 : ℚ) ^ (964 : Int) = hi at hhi ⊢
  refine ⟨n1.1, n2.1, n3.1, ?_, ?_, ?_, ?_⟩
  · linarith only [v3.1, hr1, hη, hlo]
  · linarith only [v3.2, hr2, hη, hhi]
  · rw [h36]; linarith only [v1, hc1, v3.1, hr1, hη]
  · rw [h36]; linarith only [v2, hc2, v3.1, hr1, hη]

/-- The float64 mapping is injective on the grid for each of the 13 zoom points
of the registry. -/
theorem fl_registry_injective (z : ZoomPoint F64) (hz : z ∈ Fl.interestingPoints ieee)
    (i j i2 j2 : Int) (hi0 : 0 ≤ i) (hi : i < 768) (hj0 : 0 ≤ j) (hj : j < 1024)
    (hi20 : 0 ≤ i2) (hi2 : i2 < 768) (hj20 : 0 ≤ j2) (hj2 : j2 < 1024)
    (hne : i ≠ i2 ∨ j ≠ j2) :
    Fl.pixelCoord ieee i j (ieee.sub z.cx z.r) (ieee.sub z.cy z.r) (ieee.add z.cx z.r)
        (ieee.add z.cy z.r) ≠
      Fl.pixelCoord ieee i2 j2 (ieee.sub z.cx z.r) (ieee.sub z.cy z.r) (ieee.add z.cx z.r)
        (ieee.add z.cy z.r) := by
  have key : ∀ (a1 a2 a3 : Int) (b1 b2 b3 : Nat) (n : Nat), 0 < b1 → 0 < b2 → 0 < b3 →
      |(a1 : ℚ) / b1| ≤ 2 → |(a2 : ℚ) / b2| ≤ 2 → 1 / 10000 ≤ (a3 : ℚ) / b3 →
      (a3 : ℚ) / b3 ≤ 2 → z = ⟨ieee.lit a1 b1, ieee.lit a2 b2, ieee.lit a3 b3, n⟩ →
      Fl.pixelCoord ieee i j (ieee.sub z.cx z.r) (ieee.sub z.cy z.r) (ieee.add z.cx z.r)
          (ieee.add z.cy z.r) ≠
        Fl.pixelCoord ieee i2 j2 (ieee.sub z.cx z.r) (ieee.sub z.cy z.r) (ieee.add z.cx z.r)
          (ieee.add z.cy z.r) := by
    intro a1 a2 a3 b1 b2 b3 n h1 h2 h3 hc1 hc2 hr1 hr2 hzeq
    obtain ⟨f1, f2, f3, c1, c2, c3, c4⟩ := zoom_conditions a1 a2 a3 b1 b2 b3 h1 h2 h3 hc1 hc2
      hr1 hr2
    rw [hzeq]
    exact fl_pixelCoord_inj (F64.lit a1 b1) (F64.lit a2 b2) (F64.lit a3 b3) f1 f2 f3 c1 c2 c3
      c4 i j i2 j2 hi0 hi hj0 hj hi20 hi2 hj20 hj2 hne
  simp only [Fl.interestingPoints, List.mem_cons, List.mem_singleton, List.not_mem_nil,
    or_false] at hz
  rcases hz with h | h | h | h | h | h | h | h | h | h | h | h | h
  · have h0 : z = ⟨ieee.lit 0 1, ieee.lit 0 1, ieee.lit 2 1, 50⟩ := h
    exact key 0 0 2 1 1 1 50 (by norm_num) (by norm_num) (by norm_num) (by norm_num)
      (by norm_num) (by norm_num) (by norm_num) h0
  · exact key (-747) 1 1 1000 10 1000 800 (by norm_num) (by norm_num) (by norm_num)
      (by norm_num [abs_le]) (by norm_num [abs_le]) (by norm_num) (by norm_num) h
  · exact key (-747) 1 1 1000 10 10000 1000 (by norm_num) (by norm_num) (by norm_num)
      (by norm_num [abs_le]) (by norm_num [abs_le]) (by norm_num) (by norm_num) h
  · exact key (-88) 654 5 1000 1000 1000 500 (by norm_num) (by norm_num) (by norm_num)
      (by norm_num [abs_le]) (by norm_num [abs_le]) (by norm_num) (by norm_num) h
  · exact key (-88) 656 1 1000 1000 1000 800 (by norm_num) (by norm_num) (by norm_num)
      (by norm_num [abs_le]) (by norm_num [abs_le]) (by norm_num) (by norm_num) h
  · exact key (-88) 656 1 1000 1000 10000 1000 (by norm_num) (by norm_num) (by norm_num)
      (by norm_num [abs_le]) (by norm_num [abs_le]) (by norm_num) (by norm_num) h
  · exact key 274 482 5 1000 1000 1000 500 (by norm_num) (by norm_num) (by norm_num)
      (by norm_num [abs_le]) (by norm_num [abs_le]) (by norm_num) (by norm_num) h
  · exact key (-1002) 836 1 10000 1000 10000 1000 (by norm_num) (by norm_num) (by norm_num)
      (by norm_num [abs_le]) (by norm_num [abs_le]) (by norm_num) (by norm_num) h
  · exact key (-100) 836 1 1000 1000 1000 750 (by norm_num) (by norm_num) (by norm_num)
      (by norm_num [abs_le]) (by norm_num [abs_le]) (by norm_num) (by norm_num) h
  · exact key (-1002) 8383 1 10000 10000 10 500 (by norm_num) (by norm_num) (by norm_num)
      (by norm_num [abs_le]) (by norm_num [abs_le]) (by norm_num) (by norm_num) h
  · exact key (-136) 5 1 100 1000 10 500 (by norm_num) (by norm_num) (by norm_num)
      (by norm_num [abs_le]) (by norm_num [abs_le]) (by norm_num) (by norm_num) h
  · exact key (-13683) 5 1 10000 1000 10000 2000 (by norm_num) (by norm_num) (by norm_num)
      (by norm_num [abs_le]) (by norm_num [abs_le]) (by norm_num) (by norm_num) h
  · exact key (-13685) 5 5 10000 1000 10000 2000 (by norm_num) (by norm_num) (by norm_num)
      (by norm_num [abs_le]) (by norm_num [abs_le]) (by norm_num) (by norm_num) h

/-- C9 (as amended): for a zoom point of finite `float64` values whose radius
is not too small against the centre, `|cx|, |cy| ≤ 2^36 * r`, with
`2^-1000 ≤ r ≤ 2^964`, the float64 mapping of `orbitColor` sends two distinct
pixels of the grid to distinct coordinates. -/
theorem C9_float_mapping_injective (cx cy r : F64) (hcx : cx.isFin = true)
    (hcy : cy.isFin = true) (hr : r.isFin = true)
    (hr1 : (2 : ℚ) ^ (-1000 : Int) ≤ r.val) (hr2 : r.val ≤ (2 : ℚ) ^ (964 : Int))
    (hC : |cx.val| ≤ (2 : ℚ) ^ (36 : Int) * r.val)
    (hD : |cy.val| ≤ (2 : ℚ) ^ (36 : Int) * r.val)
    (i j i2 j2 : Int) (hi0 : 0 ≤ i) (hi : i < 768) (hj0 : 0 ≤ j) (hj : j < 1024)
    (hi20 : 0 ≤ i2) (hi2 : i2 < 768) (hj20 : 0 ≤ j2) (hj2 : j2 < 1024)
    (hne : i ≠ i2 ∨ j ≠ j2) :
    Fl.pixelCoord ieee i j (ieee.sub cx r) (ieee.sub cy r) (ieee.add cx r) (ieee.add cy r) ≠
      Fl.pixelCoord ieee i2 j2 (ieee.sub cx r) (ieee.sub cy r) (ieee.add cx r)
        (ieee.add cy r) :=
  fl_pixelCoord_inj cx cy r hcx hcy hr hr1 hr2 hC hD i j i2 j2 hi0 hi hj0 hj hi20 hi2 hj20 hj2 hne

/-- C9 (witness): the first zoom point of the registry, `{0, 0, 2, 50}`, and the
neighbouring pixels `(3, 5)` and `(3, 6)`. -/
theorem C9_float_witness :
    Fl.pixelCoord ieee 3 5 (ieee.sub (F64.ofInt 0) (F64.ofInt 2))
        (ieee.sub (F64.ofInt 0) (F64.ofInt 2)) (ieee.add (F64.ofInt 0) (F64.ofInt 2))
        (ieee.add (F64.ofInt 0) (F64.ofInt 2)) ≠
      Fl.pixelCoord ieee 3 6 (ieee.sub (F64.ofInt 0) (F64.ofInt 2))
        (ieee.sub (F64.ofInt 0) (F64.ofInt 2)) (ieee.add (F64.ofInt 0) (F64.ofInt 2))
        (ieee.add (F64.ofInt 0) (F64.ofInt 2)) :=
  have h36 : (2 : ℚ) ^ (36 : Int) = 68719476736 := by norm_num
  have h0 : |(F64.ofInt 0).val| ≤ (2 : ℚ) ^ (36 : Int) * (F64.ofInt 2).val := by
    rw [val_zero.2, val_two.2, h36]; norm_num
  have hr1 : (2 : ℚ) ^ (-1000 : Int) ≤ (F64.ofInt 2).val := by
    rw [val_two.2]
    exact le_trans (zpow_le_zpow_right₀ (by norm_num) (by norm_num : (-1000 : Int) ≤ 1))
      (by norm_num)
  have hr2 : (F64.ofInt 2).val ≤ (2 : ℚ) ^ (964 : Int) := by
    rw [val_two.2]
    exact le_trans (by norm_num : (2 : ℚ) ≤ (2 : ℚ) ^ (1 : Int))
      (zpow_le_zpow_right₀ (by norm_num) (by norm_num))
  C9_float_mapping_injective (F64.ofInt 0) (F64.ofInt 0) (F64.ofInt 2) val_zero.1 val_zero.1
    val_two.1 hr1 hr2 h0 h0 3 5 3 6 (by norm_num) (by norm_num) (by norm_num) (by norm_num)
    (by norm_num) (by norm_num) (by norm_num) (by norm_num) (Or.inr (by norm_num))

/-- C9 (counterexample): the zoom point `cx = 1`, `cy = 0`, `r = 2^-60` has
`r > 0`, yet the float64 program maps the distinct pixels `(0, 0)` and `(0, 1)`
of the grid to the same coordinate `(1, -2^-60)`: the radius is below the
spacing of `float64` at 1. -/
theorem C9_float_counterexample :
    ieee.gt (F64.round 1 1 (-60)) (ieee.ofInt 0) = true ∧
    Fl.pixelCoord ieee 0 0 (ieee.sub (F64.ofInt 1) (F64.round 1 1 (-60)))
        (ieee.sub (F64.ofInt 0) (F64.round 1 1 (-60)))
        (ieee.add (F64.ofInt 1) (F64.round 1 1 (-60)))
        (ieee.add (F64.ofInt 0) (F64.round 1 1 (-60))) =
      Fl.pixelCoord ieee 0 1 (ieee.sub (F64.ofInt 1) (F64.round 1 1 (-60)))
        (ieee.sub (F64.ofInt 0) (F64.round 1 1 (-60)))
        (ieee.add (F64.ofInt 1) (F64.round 1 1 (-60)))
        (ieee.add (F64.ofInt 0) (F64.round 1 1 (-60))) ∧
    Fl.pixelCoord ieee 0 0 (ieee.sub (F64.ofInt 1) (F64.round 1 1 (-60)))
        (ieee.sub (F64.ofInt 0) (F64.round 1 1 (-60)))
        (ieee.add (F64.ofInt 1) (F64.round 1 1 (-60)))
        (ieee.add (F64.ofInt 0) (F64.round 1 1 (-60))) =
      ⟨F64.ofInt 1, F64.neg (F64.round 1 1 (-60))⟩ := by
  refine ⟨by decide!, by decide!, by decide!⟩

/-- C15 (as amended): for a zoom point of finite `float64` values of magnitude
at most `S` (`2^-1000 ≤ S ≤ 2^1000`) with `r > 0` and a pixel of the grid, the
coordinate the float64 program computes lies in the rectangle
`cx - r*4/3 ≤ real ≤ cx + r*4/3 - 2r/768`, `cy - r ≤ imag ≤ cy + r - 2r/768`
widened by `2^-47 * S` on each side; pixel `(0, 0)` is mapped within
`2^-47 * S` of the corner `cx - r*4/3` on the real axis and exactly to
`min_imag` (the `float64` value of `cy - r`) on the imaginary axis, and pixel
`(767, 1023)` within `2^-47 * S` of the point one step `2r/768` short of the
opposite corner on each axis. -/
theorem C15_float_mapped_near_rectangle (cx cy r : F64) (S : ℚ) (hcx : cx.isFin = true)
    (hcy : cy.isFin = true) (hr : r.isFin = true)
    (hC : |cx.val| ≤ S) (hD : |cy.val| ≤ S) (hR : |r.val| ≤ S)
    (hS1 : (2 : ℚ) ^ (-1000 : Int) ≤ S) (hS2 : S ≤ (2 : ℚ) ^ (1000 : Int))
    (hr0 : 0 < r.val)
    (i j : Int) (hi0 : 0 ≤ i) (hi : i < 768) (hj0 : 0 ≤ j) (hj : j < 1024) :
    (cx.val - r.val * (4 / 3) - (2 : ℚ) ^ (-47 : Int) * S ≤
        (Fl.pixelCoord ieee i j (ieee.sub cx r) (ieee.sub cy r) (ieee.add cx r)
          (ieee.add cy r)).re.val ∧
      (Fl.pixelCoord ieee i j (ieee.sub cx r) (ieee.sub cy r) (ieee.add cx r)
          (ieee.add cy r)).re.val ≤
        cx.val + r.val * (4 / 3) - 2 * r.val / 768 + (2 : ℚ) ^ (-47 : Int) * S ∧
      cy.val - r.val - (2 : ℚ) ^ (-47 : Int) * S ≤
        (Fl.pixelCoord ieee i j (ieee.sub cx r) (ieee.sub cy r) (ieee.add cx r)
          (ieee.add cy r)).im.val ∧
      (Fl.pixelCoord ieee i j (ieee.sub cx r) (ieee.sub cy r) (ieee.add cx r)
          (ieee.add cy r)).im.val ≤
        cy.val + r.val - 2 * r.val / 768 + (2 : ℚ) ^ (-47 : Int) * S) ∧
    (|(Fl.pixelCoord ieee 0 0 (ieee.sub cx r) (ieee.sub cy r) (ieee.add cx r)
          (ieee.add cy r)).re.val - (cx.val - r.val * (4 / 3))| ≤ (2 : ℚ) ^ (-47 : Int) * S ∧
      (Fl.pixelCoord ieee 0 0 (ieee.sub cx r) (ieee.sub cy r) (ieee.add cx r)
          (ieee.add cy r)).im.val = (ieee.sub cy r).val) ∧
    (|(Fl.pixelCoord ieee 767 1023 (ieee.sub cx r) (ieee.sub cy r) (ieee.add cx r)
          (ieee.add cy r)).re.val - (cx.val + r.val * (4 / 3) - 2 * r.val / 768)| ≤
        (2 : ℚ) ^ (-47 : Int) * S ∧
      |(Fl.pixelCoord ieee 767 1023 (ieee.sub cx r) (ieee.sub cy r) (ieee.add cx r)
          (ieee.add cy r)).im.val - (cy.val + r.val - 2 * r.val / 768)| ≤
        (2 : ℚ) ^ (-47 : Int) * S) := by
  obtain ⟨hx, hy⟩ := fl_pixelCoord_near cx cy r S hcx hcy hr hC hD hR hS1 hS2 i j hi0 hi
    hj0 hj
  obtain ⟨hx0, hy0⟩ := fl_pixelCoord_near cx cy r S hcx hcy hr hC hD hR hS1 hS2 0 0
    (le_refl _) (by norm_num) (le_refl _) (by norm_num)
  obtain ⟨hx9, hy9⟩ := fl_pixelCoord_near cx cy r S hcx hcy hr hC hD hR hS1 hS2 767 1023
    (by norm_num) (by norm_num) (by norm_num) (by norm_num)
  have hiq0 : (0 : ℚ) ≤ (i : ℚ) := by exact_mod_cast hi0
  have hiq : (i : ℚ) ≤ 767 := by exact_mod_cast (by omega : i ≤ 767)
  have hjq0 : (0 : ℚ) ≤ (j : ℚ) := by exact_mod_cast hj0
  have hjq : (j : ℚ) ≤ 1023 := by exact_mod_cast (by omega : j ≤ 1023)
  have hstep : (0 : ℚ) < 2 * r.val / 768 := by linarith only [hr0]
  have hj1 : 0 ≤ (j : ℚ) * (2 * r.val / 768) := mul_nonneg hjq0 (le_of_lt hstep)
  have hj2 : (j : ℚ) * (2 * r.val / 768) ≤ 1023 * (2 * r.val / 768) :=
    mul_le_mul_of_nonneg_right hjq (le_of_lt hstep)
  have hi1 : 0 ≤ (i : ℚ) * (2 * r.val / 768) := mul_nonneg hiq0 (le_of_lt hstep)
  have hi2 : (i : ℚ) * (2 * r.val / 768) ≤ 767 * (2 * r.val / 768) :=
    mul_le_mul_of_nonneg_right hiq (le_of_lt hstep)
  have ax := abs_le.1 hx.2
  have ay := abs_le.1 hy.2
  have hx0e := hx0.2
  have hx9e := hx9.2
  have hy9e := hy9.2
  generalize (2 : ℚ) ^ (-47 : Int) * S = ε at ax ay hx0e hx9e hy9e ⊢
  -- the imaginary part of row 0
  have hsub : (F64.sub cy r).isFin = true ∧
      |(F64.sub cy r).val - (cy.val - r.val)| ≤
        (2 : ℚ) ^ (-53 : Int) * |cy.val - r.val| + (2 : ℚ) ^ (-1075 : Int) := by
    apply sub_val cy r hcy hr
    have hCR : |cy.val - r.val| ≤ 2 * S := by
      have h1 := abs_le.1 hD
      have h2 := abs_le.1 hR
      rw [abs_le]; constructor <;> linarith only [h1.1, h1.2, h2.1, h2.2]
    have e : (2 : ℚ) ^ (1023 : Int) = (2 : ℚ) ^ (23 : Int) * (2 : ℚ) ^ (1000 : Int) := by
      rw [← zpow_add₀ (by norm_num : (2 : ℚ) ≠ 0)]; norm_num
    have h23 : (2 : ℚ) ^ (23 : Int) = 8388608 := by norm_num
    have hp : (0 : ℚ) < (2 : ℚ) ^ (1000 : Int) := zpow_pos (by norm_num) _
    rw [e, h23]
    generalize (2 : ℚ) ^ (1000 : Int) = T at hS2 hp
    have hS0 : 0 ≤ S := le_trans (abs_nonneg _) hD
    linarith only [hCR, hS2, hp, hS0]
  have hdiff : (F64.sub (ieee.add cy r) (ieee.sub cy r)).isFin = true := by
    have h := fl_pixelCoord_near cx cy r S hcx hcy hr hC hD hR hS1 hS2 0 0
      (le_refl _) (by norm_num) (le_refl _) (by norm_num)
    by_contra hcon
    have him := h.2.1
    rw [fl_pixelCoord_eq] at him
    simp only at him
    cases hq : F64.sub (ieee.add cy r) (ieee.sub cy r) with
    | fin m e => rw [hq] at hcon; simp [F64.isFin] at hcon
    | inf b =>
      rw [hq] at him
      have h0 : F64.div (F64.ofInt 0) (F64.ofInt 768) = F64.fin 0 0 := by decide!
      rw [h0] at him
      cases hs : ieee.sub cy r with
      | fin m1 e1 => rw [hs] at him; simp [F64.mul, F64.add, F64.isFin] at him
      | inf c => rw [hs] at him; simp [F64.mul, F64.add, F64.isFin] at him
      | nan => rw [hs] at him; simp [F64.mul, F64.add, F64.isFin] at him
    | nan =>
      rw [hq] at him
      have h0 : F64.div (F64.ofInt 0) (F64.ofInt 768) = F64.fin 0 0 := by decide!
      rw [h0] at him
      cases hs : ieee.sub cy r with
      | fin m1 e1 => rw [hs] at him; simp [F64.mul, F64.add, F64.isFin] at him
      | inf c => rw [hs] at him; simp [F64.mul, F64.add, F64.isFin] at him
      | nan => rw [hs] at him; simp [F64.mul, F64.add, F64.isFin] at him
  have hrow0 := fl_im_row_zero 0 (ieee.sub cx r) (ieee.sub cy r) (ieee.add cx r)
    (ieee.add cy r) hsub.1 hdiff
  refine ⟨⟨?_, ?_, ?_, ?_⟩, ⟨?_, hrow0.2⟩, ⟨?_, ?_⟩⟩
  · linarith only [ax.1, hj1]
  · linarith only [ax.2, hj2]
  · linarith only [ay.1, hi1]
  · linarith only [ay.2, hi2]
  · have h := hx0e
    simp only [Int.cast_zero, zero_mul, add_zero] at h
    exact h
  · have h := hx9e
    have e : cx.val - r.val * (4 / 3) + ((1023 : Int) : ℚ) * (2 * r.val / 768) =
        cx.val + r.val * (4 / 3) - 2 * r.val / 768 := by push_cast; ring
    rw [e] at h
    exact h
  · have h := hy9e
    have e : cy.val - r.val + ((767 : Int) : ℚ) * (2 * r.val / 768) =
        cy.val + r.val - 2 * r.val / 768 := by push_cast; ring
    rw [e] at h
    exact h

end FloatMappingInjective

section FloatMappingRectangle

/-- C15 (witness): the first zoom point of the registry, `{0, 0, 2, 50}`, and
the pixel of row 3, column 5. -/
theorem C15_float_witness :
    (F64.ofInt 0).val - (F64.ofInt 2).val * (4 / 3) - (2 : ℚ) ^ (-47 : Int) * 2 ≤
        (Fl.pixelCoord ieee 3 5 (ieee.sub (F64.ofInt 0) (F64.ofInt 2))
          (ieee.sub (F64.ofInt 0) (F64.ofInt 2)) (ieee.add (F64.ofInt 0) (F64.ofInt 2))
          (ieee.add (F64.ofInt 0) (F64.ofInt 2))).re.val ∧
      (Fl.pixelCoord ieee 3 5 (ieee.sub (F64.ofInt 0) (F64.ofInt 2))
          (ieee.sub (F64.ofInt 0) (F64.ofInt 2)) (ieee.add (F64.ofInt 0) (F64.ofInt 2))
          (ieee.add (F64.ofInt 0) (F64.ofInt 2))).re.val ≤
        (F64.ofInt 0).val + (F64.ofInt 2).val * (4 / 3) - 2 * (F64.ofInt 2).val / 768 +
          (2 : ℚ) ^ (-47 : Int) * 2 ∧
      (F64.ofInt 0).val - (F64.ofInt 2).val - (2 : ℚ) ^ (-47 : Int) * 2 ≤
        (Fl.pixelCoord ieee 3 5 (ieee.sub (F64.ofInt 0) (F64.ofInt 2))
          (ieee.sub (F64.ofInt 0) (F64.ofInt 2)) (ieee.add (F64.ofInt 0) (F64.ofInt 2))
          (ieee.add (F64.ofInt 0) (F64.ofInt 2))).im.val ∧
      (Fl.pixelCoord ieee 3 5 (ieee.sub (F64.ofInt 0) (F64.ofInt 2))
          (ieee.sub (F64.ofInt 0) (F64.ofInt 2)) (ieee.add (F64.ofInt 0) (F64.ofInt 2))
          (ieee.add (F64.ofInt 0) (F64.ofInt 2))).im.val ≤
        (F64.ofInt 0).val + (F64.ofInt 2).val - 2 * (F64.ofInt 2).val / 768 +
          (2 : ℚ) ^ (-47 : Int) * 2 :=
  have h0 : |(F64.ofInt 0).val| ≤ (2 : ℚ) := by rw [val_zero.2]; norm_num
  have h2 : |(F64.ofInt 2).val| ≤ (2 : ℚ) := by rw [val_two.2]; norm_num
  have hS1 : (2 : ℚ) ^ (-1000 : Int) ≤ 2 :=
    le_trans (zpow_le_zpow_right₀ (by norm_num) (by norm_num : (-1000 : Int) ≤ 1))
      (by norm_num)
  have hS2 : (2 : ℚ) ≤ (2 : ℚ) ^ (1000 : Int) :=
    le_trans (by norm_num : (2 : ℚ) ≤ (2 : ℚ) ^ (1 : Int))
      (zpow_le_zpow_right₀ (by norm_num) (by norm_num))
  (C15_float_mapped_near_rectangle (F64.ofInt 0) (F64.ofInt 0) (F64.ofInt 2) 2 val_zero.1
    val_zero.1 val_two.1 h0 h0 h2 hS1 hS2 (by rw [val_two.2]; norm_num) 3 5 (by norm_num)
    (by norm_num) (by norm_num) (by norm_num)).1

/-- C15 (counterexample): at the zoom point `{-1.36, 0.005, 0.1, 500}` of the
registry (index 10), with `r > 0`, the float64 program maps pixel `(0, 0)` to
the real part `-1.4933333333333336`, which is below `cx - r*4/3` and below
`cx - ratio*r` for the `float64` constant `ratio`; and at the zoom point
`{0, 0, 2, 50}` (index 0) pixel `(767, 1023)` is mapped to
`(2.661458333333334, 1.9947916666666665)`, neither coordinate being the point
one step `2r/768` short of the corner. -/
theorem C15_float_counterexample :
    (Fl.interestingPoints ieee)[10]? =
      some ⟨F64.lit (-136) 100, F64.lit 5 1000, F64.lit 1 10, 500⟩ ∧
    ieee.gt (F64.lit 1 10) (ieee.ofInt 0) = true ∧
    (Fl.pixelCoord ieee 0 0 (ieee.sub (F64.lit (-136) 100) (F64.lit 1 10))
        (ieee.sub (F64.lit 5 1000) (F64.lit 1 10))
        (ieee.add (F64.lit (-136) 100) (F64.lit 1 10))
        (ieee.add (F64.lit 5 1000) (F64.lit 1 10))).re.val <
      (F64.lit (-136) 100).val - (F64.lit 1 10).val * (4 / 3) ∧
    (Fl.pixelCoord ieee 0 0 (ieee.sub (F64.lit (-136) 100) (F64.lit 1 10))
        (ieee.sub (F64.lit 5 1000) (F64.lit 1 10))
        (ieee.add (F64.lit (-136) 100) (F64.lit 1 10))
        (ieee.add (F64.lit 5 1000) (F64.lit 1 10))).re.val <
      (F64.lit (-136) 100).val - (Fl.ratio ieee).val * (F64.lit 1 10).val ∧
    (Fl.interestingPoints ieee)[0]? = some ⟨F64.ofInt 0, F64.ofInt 0, F64.ofInt 2, 50⟩ ∧
    (Fl.pixelCoord ieee 767 1023 (ieee.sub (F64.ofInt 0) (F64.ofInt 2))
        (ieee.sub (F64.ofInt 0) (F64.ofInt 2)) (ieee.add (F64.ofInt 0) (F64.ofInt 2))
        (ieee.add (F64.ofInt 0) (F64.ofInt 2))).re.val ≠
      (F64.ofInt 0).val + (F64.ofInt 2).val * (4 / 3) - 2 * (F64.ofInt 2).val / 768 ∧
    (Fl.pixelCoord ieee 767 1023 (ieee.sub (F64.ofInt 0) (F64.ofInt 2))
        (ieee.sub (F64.ofInt 0) (F64.ofInt 2)) (ieee.add (F64.ofInt 0) (F64.ofInt 2))
        (ieee.add (F64.ofInt 0) (F64.ofInt 2))).im.val ≠
      (F64.ofInt 0).val + (F64.ofInt 2).val - 2 * (F64.ofInt 2).val / 768 := by
  have e1 : F64.lit (-136) 100 = F64.fin (-6124895493223875) (-52) := by decide!
  have e2 : F64.lit 1 10 = F64.fin 7205759403792794 (-56) := by decide!
  have e3 : (Fl.pixelCoord ieee 0 0 (ieee.sub (F64.lit (-136) 100) (F64.lit 1 10))
      (ieee.sub (F64.lit 5 1000) (F64.lit 1 10))
      (ieee.add (F64.lit (-136) 100) (F64.lit 1 10))
      (ieee.add (F64.lit 5 1000) (F64.lit 1 10))).re = F64.fin (-6725375443539942) (-52) := by
    decide!
  have e4 : Fl.pixelCoord ieee 767 1023 (ieee.sub (F64.ofInt 0) (F64.ofInt 2))
      (ieee.sub (F64.ofInt 0) (F64.ofInt 2)) (ieee.add (F64.ofInt 0) (F64.ofInt 2))
      (ieee.add (F64.ofInt 0) (F64.ofInt 2)) =
      ⟨F64.fin 5993071379131052 (-51), F64.fin 8983743006681770 (-52)⟩ := by decide!
  refine ⟨rfl, by decide!, ?_, ?_, rfl, ?_, ?_⟩
  · rw [e3, e1, e2]
    simp only [F64.val]
    rw [zpow_neg, zpow_neg]
    norm_num
  · rw [e3, e1, e2, fl_ratio_eq]
    simp only [F64.val]
    rw [zpow_neg, zpow_neg]
    norm_num
  · rw [e4, val_zero.2, val_two.2]
    simp only [F64.val]
    rw [zpow_neg]
    norm_num
  · rw [e4, val_zero.2, val_two.2]
    simp only [F64.val]
    rw [zpow_neg]
    norm_num

end FloatMappingRectangle

/-! ## The float64 embedding: agreement of the two evaluators -/

section FloatAgreement
variable {F : Type}

/-- The value the float64 loop reports passed the program's test, for every
bound (the wrap of the counter included). -/
theorem fl_escapeLoop_detect (A : FloatOps F) (f : Cx F → Cx F → Cx F) (c : Cx F)
    (iters fuel i : Nat) (z : Cx F) (p : Nat × Cx F)
    (h : Fl.escapeLoop A f c iters fuel i z = some (some p)) :
    Fl.absgt A p.2 (A.ofInt 2) = true := by
  induction fuel generalizing i z with
  | zero => simp [Fl.escapeLoop] at h
  | succ fuel ih =>
    simp only [Fl.escapeLoop] at h
    by_cases hi : i ≤ iters
    · rw [if_pos hi] at h
      by_cases he : Fl.absgt A z (A.ofInt 2) = true
      · rw [if_pos he] at h
        have e : p = (i, z) := by
          have := Option.some.inj (Option.some.inj h)
          exact this.symm
        rw [e]; exact he
      · rw [if_neg he] at h
        exact ih _ _ h
    · rw [if_neg hi] at h
      simp at h

/-- The float64 evaluators agree on a detected escape, for every bound: when
`diverges` returns a counter `i ≠ 0`, `divergez` returns
`float64(i) - Log(Log(Abs(f(z, c))))/Ln2` for a value `z` that passed the
program's test. -/
theorem fl_divergez_of_diverges_ne_zero (A : FloatOps F) (M : MathFns F)
    (f : Cx F → Cx F → Cx F) (c : Cx F) (N fuel i : Nat)
    (h : Fl.diverges A fuel f c N = some i) (hi : i ≠ 0) :
    ∃ z, Fl.absgt A z (A.ofInt 2) = true ∧
      Fl.divergez A M fuel f c N =
        some (A.sub (A.ofUint i) (A.div (M.log (M.log (M.cabs (f z c)))) M.ln2)) := by
  rw [fl_diverges_eq_map] at h
  rw [fl_divergez_eq_map]
  cases hr : Fl.escapeLoop A f c N fuel 1 ⟨A.ofInt 0, A.ofInt 0⟩ with
  | none => rw [hr] at h; simp at h
  | some r =>
    rw [hr] at h
    cases r with
    | none =>
      simp at h
      exact absurd h.symm hi
    | some p =>
      simp at h
      refine ⟨p.2, fl_escapeLoop_detect A f c N fuel 1 _ p hr, ?_⟩
      simp [h]

/-- Below the wrap of the counter the float64 evaluators agree on the
sentinel: when `diverges` returns 0, `divergez` returns 0. -/
theorem fl_divergez_of_diverges_zero (A : FloatOps F) (M : MathFns F)
    (f : Cx F → Cx F → Cx F) (c : Cx F) (N fuel : Nat) (hN : N + 1 < uintSize)
    (hfuel : N + 1 ≤ fuel) (h : Fl.diverges A fuel f c N = some 0) :
    Fl.divergez A M fuel f c N = some (A.ofInt 0) := by
  rw [fl_diverges_eq_map] at h
  rw [fl_divergez_eq_map]
  rcases fl_escapeLoop_start A f c N fuel hN hfuel with ⟨h1, _⟩ | ⟨k, _, h2, _⟩
  · rw [h1]; rfl
  · rw [h2] at h
    simp at h

end FloatAgreement

end Mandelbrot
